import Mathlib

/-!
Shallow embedding of `src/mmheap.h`, a min-max heap in the style of
Atkinson, Sack, Santoro and Strothotte (CACM 1986).

The heap's backing storage (`DataType*`) is modelled as a `List Nat`
holding the caller's array; `idx a i` is the read `a[i]` (with junk value
`0` for indices beyond the allocation, which no verified path performs)
and `swap` is `std::swap` on two slots.  `size_t` arithmetic is modelled
on `Nat`; the one place where 64-bit overflow matters, the de Bruijn
multiplication inside `log_2`, carries an explicit `% 2 ^ 64`.
Fallible operations (`throw` in the source) return `Except HeapError`
or `Option`.
-/

namespace _mmheap

def parent (i : Nat) : Nat := (i - 1) / 2

def has_parent (i : Nat) : Bool := i > 0

def left (i : Nat) : Nat := 2 * i + 1

def right (i : Nat) : Nat := 2 * i + 2

def gparent (i : Nat) : Nat := parent (parent i)

def has_gparent (i : Nat) : Bool := i > 2

def child (i c : Nat) : Bool := c == left i || c == right i

/-- the static lookup table `tab64` of the de Bruijn based `log_2`. -/
def tab64 : List Nat :=
  [63,  0, 58,  1, 59, 47, 53,  2,
   60, 39, 48, 27, 54, 33, 42,  3,
   61, 51, 37, 40, 49, 18, 28, 20,
   55, 30, 34, 11, 43, 14, 22,  4,
   62, 57, 46, 52, 38, 26, 32, 41,
   50, 36, 17, 19, 29, 10, 13, 21,
   56, 45, 25, 31, 35, 16,  9, 12,
   44, 24, 15,  8, 23,  7,  6,  5]

/-- the bit-smearing prefix of `log_2`: `i |= i >> 1; ... i |= i >> 32`. -/
def smear (i : Nat) : Nat :=
  let i1 := i ||| (i >>> 1)
  let i2 := i1 ||| (i1 >>> 2)
  let i3 := i2 ||| (i2 >>> 4)
  let i4 := i3 ||| (i3 >>> 8)
  let i5 := i4 ||| (i4 >>> 16)
  let i6 := i5 ||| (i5 >>> 32)
  i6

/-- fast log-base-2 (`_mmheap::log_2`); the multiplication is on
`uint64_t`, hence the explicit reduction modulo `2 ^ 64`. -/
def log_2 (i : Nat) : Nat :=
  let j := smear i
  tab64.getD ((((j - (j >>> 1)) * 0x07EDD5E59A4E28C2) % 2 ^ 64) >>> 58) 0

/-- `_mmheap::min_level`: `i > 0 ? log_2(++i) % 2 == 0 : true`. -/
def min_level (i : Nat) : Bool :=
  if i > 0 then log_2 (i + 1) % 2 == 0 else true

/-- array read `a[i]`. -/
def idx (a : List Nat) (i : Nat) : Nat := a.getD i 0

/-- `std::swap(a[i], a[j])`. -/
def swap (a : List Nat) (i j : Nat) : List Nat :=
  (a.set i (idx a j)).set j (idx a i)

/-- `_mmheap::min_child`. -/
def min_child (a : List Nat) (i r : Nat) : Bool × Nat :=
  if left i ≤ r then
    let m := left i
    let m := if right i ≤ r ∧ idx a (right i) < idx a m then right i else m
    (true, m)
  else (false, 0)

/-- `_mmheap::min_gchild`. -/
def min_gchild (a : List Nat) (i r : Nat) : Bool × Nat :=
  let l := left i
  let r' := right i
  if left l ≤ r then
    let m := left l
    let m := if right l ≤ r ∧ idx a (right l) < idx a m then right l else m
    let m := if left r' ≤ r ∧ idx a (left r') < idx a m then left r' else m
    let m := if right r' ≤ r ∧ idx a (right r') < idx a m then right r' else m
    (true, m)
  else (false, 0)

/-- `_mmheap::min_child_or_gchild`. -/
def min_child_or_gchild (a : List Nat) (i r : Nat) : Bool × Nat :=
  let m := min_child a i r
  if m.1 then
    let gm := min_gchild a i r
    (m.1, if gm.1 ∧ idx a gm.2 < idx a m.2 then gm.2 else m.2)
  else m

/-- `_mmheap::max_child`. -/
def max_child (a : List Nat) (i r : Nat) : Bool × Nat :=
  if left i ≤ r then
    let m := left i
    let m := if right i ≤ r ∧ idx a m < idx a (right i) then right i else m
    (true, m)
  else (false, 0)

/-- `_mmheap::max_gchild`. -/
def max_gchild (a : List Nat) (i r : Nat) : Bool × Nat :=
  let l := left i
  let r' := right i
  if left l ≤ r then
    let m := left l
    let m := if right l ≤ r ∧ idx a m < idx a (right l) then right l else m
    let m := if left r' ≤ r ∧ idx a m < idx a (left r') then left r' else m
    let m := if right r' ≤ r ∧ idx a m < idx a (right r') then right r' else m
    (true, m)
  else (false, 0)

/-- `_mmheap::max_child_or_gchild`. -/
def max_child_or_gchild (a : List Nat) (i r : Nat) : Bool × Nat :=
  let m := max_child a i r
  if m.1 then
    let gm := max_gchild a i r
    (m.1, if gm.1 ∧ idx a m.2 < idx a gm.2 then gm.2 else m.2)
  else m

/-- case analysis of `min_child`: which candidate is selected, with the
range fact that guarded it. -/
theorem min_child_cases (a : List Nat) (i r : Nat) :
    (left i ≤ r ∧ (min_child a i r = (true, left i)
        ∨ (right i ≤ r ∧ min_child a i r = (true, right i))))
    ∨ (¬ left i ≤ r ∧ min_child a i r = (false, 0)) := by
  simp only [min_child]
  split
  · rename_i h
    refine Or.inl ⟨h, ?_⟩
    split
    · rename_i h2; exact Or.inr ⟨h2.1, rfl⟩
    · exact Or.inl rfl
  · rename_i h; exact Or.inr ⟨h, rfl⟩

/-- case analysis of `max_child`. -/
theorem max_child_cases (a : List Nat) (i r : Nat) :
    (left i ≤ r ∧ (max_child a i r = (true, left i)
        ∨ (right i ≤ r ∧ max_child a i r = (true, right i))))
    ∨ (¬ left i ≤ r ∧ max_child a i r = (false, 0)) := by
  simp only [max_child]
  split
  · rename_i h
    refine Or.inl ⟨h, ?_⟩
    split
    · rename_i h2; exact Or.inr ⟨h2.1, rfl⟩
    · exact Or.inl rfl
  · rename_i h; exact Or.inr ⟨h, rfl⟩

/-- case analysis of `min_gchild`. -/
theorem min_gchild_cases (a : List Nat) (i r : Nat) :
    (left (left i) ≤ r ∧ (min_gchild a i r = (true, left (left i))
        ∨ (right (left i) ≤ r ∧ min_gchild a i r = (true, right (left i)))
        ∨ (left (right i) ≤ r ∧ min_gchild a i r = (true, left (right i)))
        ∨ (right (right i) ≤ r ∧ min_gchild a i r = (true, right (right i)))))
    ∨ (¬ left (left i) ≤ r ∧ min_gchild a i r = (false, 0)) := by
  simp only [min_gchild]
  split
  · rename_i h
    refine Or.inl ⟨h, ?_⟩
    split <;> split <;> split <;> simp_all
  · rename_i h; exact Or.inr ⟨h, rfl⟩

/-- case analysis of `max_gchild`. -/
theorem max_gchild_cases (a : List Nat) (i r : Nat) :
    (left (left i) ≤ r ∧ (max_gchild a i r = (true, left (left i))
        ∨ (right (left i) ≤ r ∧ max_gchild a i r = (true, right (left i)))
        ∨ (left (right i) ≤ r ∧ max_gchild a i r = (true, left (right i)))
        ∨ (right (right i) ≤ r ∧ max_gchild a i r = (true, right (right i)))))
    ∨ (¬ left (left i) ≤ r ∧ max_gchild a i r = (false, 0)) := by
  simp only [max_gchild]
  split
  · rename_i h
    refine Or.inl ⟨h, ?_⟩
    split <;> split <;> split <;> simp_all
  · rename_i h; exact Or.inr ⟨h, rfl⟩

/-- the selected min child lies strictly below `i` and within `r`. -/
theorem min_child_bounds (a : List Nat) (i r : Nat) (h : left i ≤ r) :
    i < (min_child a i r).2 ∧ (min_child a i r).2 ≤ r := by
  rcases min_child_cases a i r with ⟨h1, h2 | ⟨h2, h3⟩⟩ | ⟨h1, _⟩
  · simp only [h2, left, right] at *; omega
  · simp only [h3, left, right] at *; omega
  · exact absurd h h1

/-- the selected max child lies strictly below `i` and within `r`. -/
theorem max_child_bounds (a : List Nat) (i r : Nat) (h : left i ≤ r) :
    i < (max_child a i r).2 ∧ (max_child a i r).2 ≤ r := by
  rcases max_child_cases a i r with ⟨h1, h2 | ⟨h2, h3⟩⟩ | ⟨h1, _⟩
  · simp only [h2, left, right] at *; omega
  · simp only [h3, left, right] at *; omega
  · exact absurd h h1

/-- the selected min grandchild lies strictly below `i` and within `r`. -/
theorem min_gchild_bounds (a : List Nat) (i r : Nat)
    (h : (min_gchild a i r).1 = true) :
    i < (min_gchild a i r).2 ∧ (min_gchild a i r).2 ≤ r := by
  rcases min_gchild_cases a i r with
    ⟨h1, h2 | ⟨h2, h3⟩ | ⟨h2, h3⟩ | ⟨h2, h3⟩⟩ | ⟨h1, h2⟩
  · simp only [h2, left, right] at *; omega
  · simp only [h3, left, right] at *; omega
  · simp only [h3, left, right] at *; omega
  · simp only [h3, left, right] at *; omega
  · rw [h2] at h; exact absurd h (by simp)

/-- the selected max grandchild lies strictly below `i` and within `r`. -/
theorem max_gchild_bounds (a : List Nat) (i r : Nat)
    (h : (max_gchild a i r).1 = true) :
    i < (max_gchild a i r).2 ∧ (max_gchild a i r).2 ≤ r := by
  rcases max_gchild_cases a i r with
    ⟨h1, h2 | ⟨h2, h3⟩ | ⟨h2, h3⟩ | ⟨h2, h3⟩⟩ | ⟨h1, h2⟩
  · simp only [h2, left, right] at *; omega
  · simp only [h3, left, right] at *; omega
  · simp only [h3, left, right] at *; omega
  · simp only [h3, left, right] at *; omega
  · rw [h2] at h; exact absurd h (by simp)

/-- the selected min child/grandchild lies strictly below `i` and within
`r`; this bound justifies termination of `sift_down_min`. -/
theorem min_child_or_gchild_bounds (a : List Nat) (i r : Nat)
    (h : left i ≤ r) :
    i < (min_child_or_gchild a i r).2 ∧ (min_child_or_gchild a i r).2 ≤ r := by
  have hc := min_child_bounds a i r h
  have hf : (min_child a i r).1 = true := by
    rcases min_child_cases a i r with ⟨h1, h2 | ⟨h2, h3⟩⟩ | ⟨h1, _⟩
    · rw [h2]
    · rw [h3]
    · exact absurd h h1
  simp only [min_child_or_gchild, hf, if_true]
  split
  · rename_i hg
    exact min_gchild_bounds a i r hg.1
  · exact hc

/-- the selected max child/grandchild lies strictly below `i` and within
`r`; this bound justifies termination of `sift_down_max`. -/
theorem max_child_or_gchild_bounds (a : List Nat) (i r : Nat)
    (h : left i ≤ r) :
    i < (max_child_or_gchild a i r).2 ∧ (max_child_or_gchild a i r).2 ≤ r := by
  have hc := max_child_bounds a i r h
  have hf : (max_child a i r).1 = true := by
    rcases max_child_cases a i r with ⟨h1, h2 | ⟨h2, h3⟩⟩ | ⟨h1, _⟩
    · rw [h2]
    · rw [h3]
    · exact absurd h h1
  simp only [max_child_or_gchild, hf, if_true]
  split
  · rename_i hg
    exact max_gchild_bounds a i r hg.1
  · exact hc

/-- `_mmheap::sift_down_min`; the `while` loop becomes recursion on the
strictly descending sift index. -/
def sift_down_min (a : List Nat) (sift_index r : Nat) : List Nat :=
  if h : left sift_index ≤ r then
    let m := (min_child_or_gchild a sift_index r).2
    if child sift_index m then
      if idx a m < idx a sift_index then swap a m sift_index else a
    else
      if idx a m < idx a sift_index then
        let a1 := swap a m sift_index
        let a2 := if idx a1 (parent m) < idx a1 m then swap a1 m (parent m) else a1
        sift_down_min a2 m r
      else a
  else a
termination_by r + 1 - sift_index
decreasing_by
  have := min_child_or_gchild_bounds a sift_index r h
  omega

/-- `_mmheap::sift_down_max`. -/
def sift_down_max (a : List Nat) (sift_index r : Nat) : List Nat :=
  if h : left sift_index ≤ r then
    let m := (max_child_or_gchild a sift_index r).2
    if child sift_index m then
      if idx a sift_index < idx a m then swap a m sift_index else a
    else
      if idx a sift_index < idx a m then
        let a1 := swap a m sift_index
        let a2 := if idx a1 m < idx a1 (parent m) then swap a1 m (parent m) else a1
        sift_down_max a2 m r
      else a
  else a
termination_by r + 1 - sift_index
decreasing_by
  have := max_child_or_gchild_bounds a sift_index r h
  omega

/-- `_mmheap::sift_down`. -/
def sift_down (a : List Nat) (sift_index r : Nat) : List Nat :=
  if min_level sift_index then sift_down_min a sift_index r
  else sift_down_max a sift_index r

/-- `_mmheap::bubble_up_min`; the `while` loop becomes recursion on the
strictly ascending bubble index. -/
def bubble_up_min (a : List Nat) (bubble_index : Nat) : List Nat :=
  if h : has_gparent bubble_index ∧
      idx a bubble_index < idx a (gparent bubble_index) then
    bubble_up_min (swap a bubble_index (gparent bubble_index))
      (gparent bubble_index)
  else a
termination_by bubble_index
decreasing_by
  simp only [has_gparent, gparent, parent, decide_eq_true_eq] at *
  omega

/-- `_mmheap::bubble_up_max`. -/
def bubble_up_max (a : List Nat) (bubble_index : Nat) : List Nat :=
  if h : has_gparent bubble_index ∧
      idx a (gparent bubble_index) < idx a bubble_index then
    bubble_up_max (swap a bubble_index (gparent bubble_index))
      (gparent bubble_index)
  else a
termination_by bubble_index
decreasing_by
  simp only [has_gparent, gparent, parent, decide_eq_true_eq] at *
  omega

/-- `smear` as an iteration: step `t` ORs in the right-shift by `2 ^ t`;
`smear x = smearAux x 6` definitionally. -/
def smearAux (x : Nat) : Nat → Nat
  | 0 => x
  | t + 1 => smearAux x t ||| (smearAux x t >>> 2 ^ t)

/-- the loop of `sift_down_min` with an explicit iteration budget;
`none` means the budget was exhausted before the loop exited. -/
def sift_down_min_fuel : Nat → List Nat → Nat → Nat → Option (List Nat)
  | 0, _, _, _ => none
  | fuel + 1, a, sift_index, r =>
    if left sift_index ≤ r then
      let m := (min_child_or_gchild a sift_index r).2
      if child sift_index m then
        some (if idx a m < idx a sift_index then swap a m sift_index else a)
      else
        if idx a m < idx a sift_index then
          let a1 := swap a m sift_index
          let a2 := if idx a1 (parent m) < idx a1 m then swap a1 m (parent m) else a1
          sift_down_min_fuel fuel a2 m r
        else some a
    else some a

/-- the loop of `sift_down_max` with an explicit iteration budget. -/
def sift_down_max_fuel : Nat → List Nat → Nat → Nat → Option (List Nat)
  | 0, _, _, _ => none
  | fuel + 1, a, sift_index, r =>
    if left sift_index ≤ r then
      let m := (max_child_or_gchild a sift_index r).2
      if child sift_index m then
        some (if idx a sift_index < idx a m then swap a m sift_index else a)
      else
        if idx a sift_index < idx a m then
          let a1 := swap a m sift_index
          let a2 := if idx a1 m < idx a1 (parent m) then swap a1 m (parent m) else a1
          sift_down_max_fuel fuel a2 m r
        else some a
    else some a

/-- the loop of `bubble_up_min` with an explicit iteration budget. -/
def bubble_up_min_fuel : Nat → List Nat → Nat → Option (List Nat)
  | 0, _, _ => none
  | fuel + 1, a, bubble_index =>
    if has_gparent bubble_index ∧
        idx a bubble_index < idx a (gparent bubble_index) then
      bubble_up_min_fuel fuel (swap a bubble_index (gparent bubble_index))
        (gparent bubble_index)
    else some a

/-- the loop of `bubble_up_max` with an explicit iteration budget. -/
def bubble_up_max_fuel : Nat → List Nat → Nat → Option (List Nat)
  | 0, _, _ => none
  | fuel + 1, a, bubble_index =>
    if has_gparent bubble_index ∧
        idx a (gparent bubble_index) < idx a bubble_index then
      bubble_up_max_fuel fuel (swap a bubble_index (gparent bubble_index))
        (gparent bubble_index)
    else some a

/-- `k` is one of the (up to six) child or grandchild slots of `j` that
the extremal lookups scan. -/
def cg (j k : Nat) : Prop :=
  k = left j ∨ k = right j ∨
  k = left (left j) ∨ k = right (left j) ∨
  k = left (right j) ∨ k = right (right j)

/-- the local min-max relation that `is_heap` checks at subtree root `j`
over the occupied range `[0, n)`. -/
def nodeOK (a : List Nat) (n j : Nat) : Prop :=
  ∀ k, cg j k → k < n →
    (min_level j = true → idx a j ≤ idx a k) ∧
    (min_level j = false → idx a k ≤ idx a j)

/-- the min-max heap invariant: every subtree root satisfies the local
relation over `[0, n)`. -/
def IsMMHeap (a : List Nat) (n : Nat) : Prop := ∀ j, nodeOK a n j

/-- `inSub s k`: slot `k` lies in the subtree rooted at slot `s`. -/
def inSub (s k : Nat) : Bool :=
  if k = s then true else if k ≤ s then false else inSub s (parent k)
termination_by k
decreasing_by
  simp only [parent]
  omega

/-- `_mmheap::bubble_up`. -/
def bubble_up (a : List Nat) (bubble_index : Nat) : List Nat :=
  if min_level bubble_index then
    if has_parent bubble_index ∧
        idx a (parent bubble_index) < idx a bubble_index then
      bubble_up_max (swap a bubble_index (parent bubble_index))
        (parent bubble_index)
    else
      bubble_up_min a bubble_index
  else
    if has_parent bubble_index ∧
        idx a bubble_index < idx a (parent bubble_index) then
      bubble_up_min (swap a bubble_index (parent bubble_index))
        (parent bubble_index)
    else
      bubble_up_max a bubble_index

end _mmheap

namespace mmheap

open _mmheap

/-- the error kinds of `mmheap` (`std::runtime_error` on an empty heap,
`std::range_error` on a bad index). -/
inductive HeapError where
  | empty : HeapError
  | range : HeapError
deriving DecidableEq, Repr

/-- the body of `mmheap::make_heap`'s `for` loop, run for `current`
descending to `0` inclusive. -/
def make_heap_loop (a : List Nat) (size current : Nat) : List Nat :=
  let a' := sift_down a current (size - 1)
  if current = 0 then a' else make_heap_loop a' size (current - 1)
termination_by current
decreasing_by omega

/-- `mmheap::make_heap`. -/
def make_heap (a : List Nat) (size : Nat) : List Nat :=
  if size > 1 then make_heap_loop a size (parent (size - 1)) else a

/-- `mmheap::heap_insert`; returns the updated array and count, or `none`
in place of the capacity-exceeded `std::runtime_error`. -/
def heap_insert (value : Nat) (a : List Nat) (count max_size : Nat) :
    Option (List Nat × Nat) :=
  if count < max_size then
    some (bubble_up (a.set count value) count, count + 1)
  else none

/-- `mmheap::heap_max`. -/
def heap_max (a : List Nat) (count : Nat) : Except HeapError Nat :=
  if count < 1 then .error .empty
  else
    let m := max_child a 0 (count - 1)
    .ok (if m.1 then idx a m.2 else idx a 0)

/-- `mmheap::heap_min`. -/
def heap_min (a : List Nat) (count : Nat) : Except HeapError Nat :=
  if count < 1 then .error .empty
  else .ok (idx a 0)

/-- `mmheap::heap_insert_circular`; the result carries the
`(overflowed, rotated-out value)` pair together with the updated array
and count (`DataType{}` is `0` at `Nat`). -/
def heap_insert_circular (value : Nat) (a : List Nat) (count max_size : Nat) :
    Option ((Bool × Nat) × List Nat × Nat) :=
  if count = max_size then
    let m := if max_size > 1 then (max_child a 0 (max_size - 1)).2 else 0
    let max_value := idx a m
    if value < max_value then
      let a1 := a.set m value
      let a2 :=
        if max_size > 1 then
          sift_down (if value < idx a1 0 then swap a1 0 m else a1) m (max_size - 1)
        else a1
      some ((true, max_value), a2, count)
    else
      some ((true, value), a, count)
  else
    (heap_insert value a count max_size).map fun s => ((false, 0), s.1, s.2)

/-- `mmheap::heap_replace_at_index`; returns the replaced value and the
updated array. -/
def heap_replace_at_index (new_value index : Nat) (a : List Nat)
    (count : Nat) : Except HeapError (Nat × List Nat) :=
  if count = 0 then .error .empty
  else if index > count then .error .range
  else
    let old_value := idx a index
    let a1 := a.set index new_value
    if min_level index then
      if new_value < old_value then .ok (old_value, bubble_up_min a1 index)
      else
        let a2 := if has_parent index ∧ idx a1 (parent index) < new_value
          then bubble_up a1 index else a1
        .ok (old_value, sift_down a2 index (count - 1))
    else
      if old_value < new_value then .ok (old_value, bubble_up_max a1 index)
      else
        let a2 := if has_parent index ∧ new_value < idx a1 (parent index)
          then bubble_up a1 index else a1
        .ok (old_value, sift_down a2 index (count - 1))

/-- `mmheap::heap_remove_at_index`; returns the removed value, the
updated array and the decremented count. -/
def heap_remove_at_index (index : Nat) (a : List Nat) (count : Nat) :
    Except HeapError (Nat × List Nat × Nat) :=
  if count = 0 then .error .empty
  else if index > count then .error .range
  else
    (heap_replace_at_index (idx a (count - 1)) index a count).map
      fun p => (p.1, p.2, count - 1)

/-- `mmheap::heap_remove_min`. -/
def heap_remove_min (a : List Nat) (count : Nat) :
    Except HeapError (Nat × List Nat × Nat) :=
  if count = 0 then .error .empty
  else
    let value := idx a 0
    let a1 := swap a 0 (count - 1)
    .ok (value,
      (if count - 1 > 0 then sift_down a1 0 (count - 1 - 1) else a1),
      count - 1)

/-- `mmheap::heap_remove_max`. -/
def heap_remove_max (a : List Nat) (count : Nat) :
    Except HeapError (Nat × List Nat × Nat) :=
  if count = 0 then .error .empty
  else
    let m := max_child a 0 (count - 1)
    let value := if m.1 then idx a m.2 else idx a 0
    let mi := if m.1 then m.2 else 0
    (heap_remove_at_index mi a count).map fun p => (value, p.2)

/-- the per-subtree-root check of `mmheap::is_heap`. -/
def is_heap_check (a : List Nat) (count sub_root : Nat) : Bool :=
  let value := idx a sub_root
  if min_level sub_root then
    let mv := min_child_or_gchild a sub_root (count - 1)
    !mv.1 || decide (value < idx a mv.2) || value == idx a mv.2
  else
    let mv := max_child_or_gchild a sub_root (count - 1)
    !mv.1 || decide (idx a mv.2 < value) || idx a mv.2 == value

/-- the descending `while` loop of `mmheap::is_heap`, checking the parent
of every index from `i` down to `1`. -/
def is_heap_loop (a : List Nat) (count i : Nat) : Bool :=
  if has_parent i then is_heap_check a count (parent i) && is_heap_loop a count (i - 1)
  else true
termination_by i
decreasing_by
  simp only [has_parent, decide_eq_true_eq] at *
  omega

/-- `mmheap::is_heap`. -/
def is_heap (a : List Nat) (count : Nat) : Bool :=
  if count > 1 then is_heap_loop a count (count - 1) else true

/-- the `make_heap` loop with an explicit iteration budget. -/
def make_heap_loop_fuel : Nat → List Nat → Nat → Nat → Option (List Nat)
  | 0, _, _, _ => none
  | fuel + 1, a, size, current =>
    let a' := sift_down a current (size - 1)
    if current = 0 then some a' else make_heap_loop_fuel fuel a' size (current - 1)

/-- the `is_heap` loop with an explicit iteration budget. -/
def is_heap_loop_fuel : Nat → List Nat → Nat → Nat → Option Bool
  | 0, _, _, _ => none
  | fuel + 1, a, count, i =>
    if has_parent i then
      (is_heap_loop_fuel fuel a count (i - 1)).map
        (is_heap_check a count (parent i) && ·)
    else some true

/-- the reference minimum of the occupied range `[0, count)`, computed by
a full scan. -/
def scan_min (a : List Nat) (count : Nat) : Nat :=
  (a.take count).foldr min (idx a 0)

/-- the reference maximum of the occupied range `[0, count)`, computed by
a full scan. -/
def scan_max (a : List Nat) (count : Nat) : Nat :=
  (a.take count).foldr max (idx a 0)

/-- insert the values of `xs` in order with `heap_insert` into the given
heap state. -/
def insert_all (xs : List Nat) (a : List Nat) (count max_size : Nat) :
    Option (List Nat × Nat) :=
  match xs with
  | [] => some (a, count)
  | v :: rest =>
    (heap_insert v a count max_size).bind fun s => insert_all rest s.1 s.2 max_size

/-- remove the minimum `k` times, collecting the removed values in
order. -/
def drain_min : Nat → List Nat → Nat → Option (List Nat)
  | 0, _, _ => some []
  | k + 1, a, count =>
    match heap_remove_min a count with
    | .ok (v, a', count') => (drain_min k a' count').map (v :: ·)
    | .error _ => none

/-- remove the maximum `k` times, collecting the removed values in
order. -/
def drain_max : Nat → List Nat → Nat → Option (List Nat)
  | 0, _, _ => some []
  | k + 1, a, count =>
    match heap_remove_max a count with
    | .ok (v, a', count') => (drain_max k a' count') |>.map (v :: ·)
    | .error _ => none

/-- heap states reachable from an empty heap or a `make_heap`-initialised
array by successful public mutating operations with valid arguments.
The backing list is the caller's whole allocation (its length is the
physical capacity); `count` is the occupied prefix length. -/
inductive Reach : List Nat → Nat → Prop where
  | empty (a : List Nat) : Reach a 0
  | mk (a : List Nat) (size : Nat) (hsize : size ≤ a.length) :
      Reach (make_heap a size) size
  | insert {a : List Nat} {count : Nat} (value max_size : Nat)
      {a' : List Nat} {count' : Nat} (h : Reach a count)
      (hcap : max_size ≤ a.length)
      (hop : heap_insert value a count max_size = some (a', count')) :
      Reach a' count'
  | remove_min {a : List Nat} {count : Nat} {v : Nat} {a' : List Nat}
      {count' : Nat} (h : Reach a count)
      (hop : heap_remove_min a count = .ok (v, a', count')) :
      Reach a' count'
  | remove_max {a : List Nat} {count : Nat} {v : Nat} {a' : List Nat}
      {count' : Nat} (h : Reach a count)
      (hop : heap_remove_max a count = .ok (v, a', count')) :
      Reach a' count'
  | insert_circular {a : List Nat} {count : Nat} (value max_size : Nat)
      {p : Bool × Nat} {a' : List Nat} {count' : Nat} (h : Reach a count)
      (hcap : max_size ≤ a.length) (hcount : count ≤ max_size)
      (hop : heap_insert_circular value a count max_size =
        some (p, a', count')) :
      Reach a' count'
  | replace {a : List Nat} {count : Nat} (new_value index : Nat) {old : Nat}
      {a' : List Nat} (h : Reach a count) (hidx : index < count)
      (hop : heap_replace_at_index new_value index a count = .ok (old, a')) :
      Reach a' count
  | remove_at {a : List Nat} {count : Nat} (index : Nat) {old : Nat}
      {a' : List Nat} {count' : Nat} (h : Reach a count) (hidx : index < count)
      (hop : heap_remove_at_index index a count = .ok (old, a', count')) :
      Reach a' count'

end mmheap

/-! ## Correctness of the bit-trick `log_2` and of `min_level` -/

namespace _mmheap

theorem smear_eq_smearAux (x : Nat) : smear x = smearAux x 6 := rfl

/-- bit `j` of `smearAux x t` is set iff one of the `2 ^ t` bits of `x`
starting at `j` is set. -/
theorem testBit_smearAux (x t : Nat) : ∀ j : Nat,
    ((smearAux x t).testBit j = true ↔ ∃ d < 2 ^ t, x.testBit (j + d) = true) := by
  induction t with
  | zero =>
    intro j
    simp only [smearAux, Nat.pow_zero]
    constructor
    · intro h; exact ⟨0, by omega, by simpa using h⟩
    · rintro ⟨d, hd, h⟩
      have hd0 : d = 0 := by omega
      subst hd0; simpa using h
  | succ t ih =>
    intro j
    simp only [smearAux, Nat.testBit_or, Nat.testBit_shiftRight, Bool.or_eq_true]
    rw [ih j, ih (2 ^ t + j)]
    constructor
    · rintro (⟨d, hd, h⟩ | ⟨d, hd, h⟩)
      · exact ⟨d, by rw [Nat.pow_succ]; omega, h⟩
      · refine ⟨2 ^ t + d, by rw [Nat.pow_succ]; omega, ?_⟩
        rw [show j + (2 ^ t + d) = 2 ^ t + j + d by omega]
        exact h
    · rintro ⟨d, hd, h⟩
      rw [Nat.pow_succ] at hd
      by_cases hc : d < 2 ^ t
      · exact Or.inl ⟨d, hc, h⟩
      · refine Or.inr ⟨d - 2 ^ t, by omega, ?_⟩
        rw [show 2 ^ t + j + (d - 2 ^ t) = j + d by omega]
        exact h

/-- the top bit of a positive number is set. -/
theorem testBit_log2_self (x : Nat) (hx : 0 < x) : x.testBit x.log2 = true := by
  have h1 : 2 ^ x.log2 ≤ x := Nat.log2_self_le (by omega)
  have h2 : x < 2 ^ (x.log2 + 1) := Nat.lt_log2_self
  have hdiv : x / 2 ^ x.log2 = 1 := by
    apply Nat.div_eq_of_lt_le
    · omega
    · rw [Nat.pow_succ] at h2; omega
  rw [Nat.testBit_to_div_mod, hdiv]
  rfl

/-- bits above the top bit are clear. -/
theorem testBit_gt_log2 (x i : Nat) (h : x.log2 < i) : x.testBit i = false := by
  apply Nat.testBit_lt_two_pow
  calc x < 2 ^ (x.log2 + 1) := Nat.lt_log2_self
    _ ≤ 2 ^ i := Nat.pow_le_pow_right (by omega) (by omega)

/-- the smearing prefix of `log_2` fills in every bit below the top
bit: on `0 < x < 2 ^ 64` it produces `2 ^ (log2 x + 1) - 1`. -/
theorem smear_spec (x : Nat) (h1 : 0 < x) (h2 : x < 2 ^ 64) :
    smear x = 2 ^ (x.log2 + 1) - 1 := by
  have hL : x.log2 < 64 := (Nat.log2_lt (by omega)).2 h2
  rw [smear_eq_smearAux]
  apply Nat.eq_of_testBit_eq
  intro j
  rw [Nat.testBit_two_pow_sub_one]
  by_cases hj : j < x.log2 + 1
  · have hset : (smearAux x 6).testBit j = true := by
      rw [testBit_smearAux]
      refine ⟨x.log2 - j, by omega, ?_⟩
      rw [show j + (x.log2 - j) = x.log2 by omega]
      exact testBit_log2_self x h1
    rw [hset]
    simp [hj]
  · have hclear : (smearAux x 6).testBit j = false := by
      rw [Bool.eq_false_iff, Ne, testBit_smearAux]
      rintro ⟨d, hd, h⟩
      rw [testBit_gt_log2 x (j + d) (by omega)] at h
      exact Bool.false_ne_true h
    rw [hclear]
    simp [hj]

/-- the de Bruijn table lookup recovers the exponent for each of the 64
possible isolated top bits. -/
theorem tab64_spec : ∀ k < 64,
    tab64.getD ((2 ^ k * 0x07EDD5E59A4E28C2 % 2 ^ 64) >>> 58) 0 = k := by
  decide

/-- the bit-trick `log_2` agrees with the mathematical `Nat.log2` on the
whole `uint64_t` domain. -/
theorem log_2_eq (n : Nat) (h1 : 0 < n) (h2 : n < 2 ^ 64) :
    log_2 n = Nat.log2 n := by
  simp only [log_2]
  rw [smear_spec n h1 h2]
  have hL : n.log2 < 64 := (Nat.log2_lt (by omega)).2 h2
  have hpow : 0 < 2 ^ n.log2 := Nat.pos_pow_of_pos _ (by omega)
  have h2p : 2 ^ (n.log2 + 1) = 2 ^ n.log2 * 2 := Nat.pow_succ ..
  have hshift : (2 ^ (n.log2 + 1) - 1) >>> 1 = 2 ^ n.log2 - 1 := by
    rw [Nat.shiftRight_succ, Nat.shiftRight_zero, h2p]
    omega
  rw [hshift]
  rw [show 2 ^ (n.log2 + 1) - 1 - (2 ^ n.log2 - 1) = 2 ^ n.log2 by omega]
  exact tab64_spec n.log2 hL

/-- `min_level` in terms of `Nat.log2`, on the `uint64_t` domain. -/
theorem min_level_eq (i : Nat) (h : i + 1 < 2 ^ 64) :
    min_level i = (Nat.log2 (i + 1) % 2 == 0) := by
  unfold min_level
  split
  · rw [log_2_eq (i + 1) (by omega) h]
  · rename_i hi
    have h0 : i = 0 := by omega
    subst h0
    rw [show Nat.log2 1 = 0 by rw [Nat.log2]; simp]
    decide

end _mmheap

/-! ## index arithmetic, level parity, and array primitive lemmas -/

namespace _mmheap

theorem parent_left (i : Nat) : parent (left i) = i := by
  simp only [parent, left]; omega

theorem parent_right (i : Nat) : parent (right i) = i := by
  simp only [parent, right]; omega

theorem parent_lt (i : Nat) (h : 0 < i) : parent i < i := by
  simp only [parent]; omega

theorem child_iff (j k : Nat) : child j k = true ↔ k = left j ∨ k = right j := by
  simp [child]

theorem parent_child (k : Nat) (h : 0 < k) :
    k = left (parent k) ∨ k = right (parent k) := by
  simp only [left, right, parent]; omega

theorem gparent_gchild (k : Nat) (h : 2 < k) :
    k = left (left (gparent k)) ∨ k = right (left (gparent k)) ∨
    k = left (right (gparent k)) ∨ k = right (right (gparent k)) := by
  simp only [left, right, gparent, parent]; omega

theorem cg_gt {j k : Nat} (h : cg j k) : j < k := by
  rcases h with h | h | h | h | h | h <;> subst h <;> simp only [left, right] <;> omega

/-- `cg` in terms of `parent` and `gparent`. -/
theorem cg_char (j k : Nat) :
    cg j k ↔ (0 < k ∧ parent k = j) ∨ (2 < k ∧ gparent k = j) := by
  simp only [cg, left, right, gparent, parent]; omega

theorem mod_two_beq_flip (k : Nat) : (k % 2 == 0) = !((k + 1) % 2 == 0) := by
  rcases Nat.mod_two_eq_zero_or_one k with h | h <;> simp [Nat.add_mod, h]

theorem min_level_zero : min_level 0 = true := rfl

/-- level parity alternates between a node and its parent. -/
theorem min_level_parent_flip (i : Nat) (h0 : 0 < i) (h : i + 1 < 2 ^ 64) :
    min_level (parent i) = ! min_level i := by
  have hp : parent i + 1 = (i + 1) / 2 := by simp only [parent]; omega
  have hp64 : parent i + 1 < 2 ^ 64 := by simp only [parent] at *; omega
  rw [min_level_eq i h, min_level_eq (parent i) hp64, hp]
  have hlog : Nat.log2 (i + 1) = Nat.log2 ((i + 1) / 2) + 1 := by
    rw [Nat.log2, if_pos (by omega : i + 1 ≥ 2)]
  rw [hlog, mod_two_beq_flip]

/-- level parity agrees between a node and its grandparent. -/
theorem min_level_gparent_eq (i : Nat) (h0 : 2 < i) (h : i + 1 < 2 ^ 64) :
    min_level (gparent i) = min_level i := by
  have h1 : 0 < parent i := by simp only [parent]; omega
  have h2 : parent i + 1 < 2 ^ 64 := by simp only [parent] at *; omega
  rw [gparent, min_level_parent_flip (parent i) h1 h2,
    min_level_parent_flip i (by omega) h, Bool.not_not]

theorem idx_nil (i : Nat) : idx [] i = 0 := by simp [idx]

theorem idx_set_self (a : List Nat) (i v : Nat) (h : i < a.length) :
    idx (a.set i v) i = v := by
  simp [idx, List.getElem?_set_self h]

theorem idx_set_ne (a : List Nat) (i v k : Nat) (h : k ≠ i) :
    idx (a.set i v) k = idx a k := by
  simp [idx, List.getElem?_set_ne (Ne.symm h)]

theorem swap_length (a : List Nat) (i j : Nat) :
    (swap a i j).length = a.length := by
  simp [swap]

theorem idx_swap_fst (a : List Nat) (i j : Nat) (hi : i < a.length) :
    idx (swap a i j) i = idx a j := by
  by_cases h : j = i
  · subst h
    simp only [swap]
    rw [idx_set_self _ _ _ (by simpa using hi)]
  · simp only [swap]
    rw [idx_set_ne _ _ _ _ (Ne.symm h), idx_set_self _ _ _ hi]

theorem idx_swap_snd (a : List Nat) (i j : Nat) (hj : j < a.length) :
    idx (swap a i j) j = idx a i := by
  simp only [swap]
  rw [idx_set_self _ _ _ (by simpa using hj)]

theorem idx_swap_ne (a : List Nat) (i j k : Nat) (hki : k ≠ i) (hkj : k ≠ j) :
    idx (swap a i j) k = idx a k := by
  simp only [swap]
  rw [idx_set_ne _ _ _ _ hkj, idx_set_ne _ _ _ _ hki]

/-- moving a slot's value to the head and overwriting the slot is a
permutation. -/
theorem cons_set_perm (x : Nat) :
    ∀ (t : List Nat) (k : Nat), k < t.length →
      (idx t k :: t.set k x).Perm (x :: t) := by
  intro t
  induction t with
  | nil => intro k hk; simp at hk
  | cons y s ih =>
    intro k hk
    cases k with
    | zero =>
      simp only [idx, List.getD_eq_getElem?_getD, List.getElem?_cons_zero,
        Option.getD_some, List.set_cons_zero]
      exact List.Perm.swap x y s
    | succ k =>
      have hk' : k < s.length := by simpa using hk
      have h1 : idx (y :: s) (k + 1) = idx s k := by simp [idx]
      rw [h1, List.set_cons_succ]
      exact ((List.Perm.swap y (idx s k) (s.set k x)).trans
        (List.Perm.cons y (ih k hk'))).trans (List.Perm.swap x y s)

/-- `swap` permutes the array. -/
theorem swap_perm :
    ∀ (a : List Nat) (i j : Nat), i < a.length → j < a.length →
      (swap a i j).Perm a := by
  intro a
  induction a with
  | nil => intro i j hi _; simp at hi
  | cons x t ih =>
    intro i j hi hj
    cases i with
    | zero =>
      cases j with
      | zero =>
        simp only [swap, idx, List.getD_eq_getElem?_getD, List.getElem?_cons_zero,
          Option.getD_some, List.set_cons_zero]
        exact List.Perm.refl _
      | succ k =>
        have hk : k < t.length := by simpa using hj
        have h1 : swap (x :: t) 0 (k + 1) = idx t k :: t.set k x := by
          simp [swap, idx]
        rw [h1]
        exact cons_set_perm x t k hk
    | succ i' =>
      cases j with
      | zero =>
        have hk : i' < t.length := by simpa using hi
        have h1 : swap (x :: t) (i' + 1) 0 = idx t i' :: t.set i' x := by
          simp [swap, idx]
        rw [h1]
        exact cons_set_perm x t i' hk
      | succ j' =>
        have h1 : swap (x :: t) (i' + 1) (j' + 1) = x :: swap t i' j' := by
          simp [swap, idx]
        rw [h1]
        exact List.Perm.cons x (ih i' j' (by simpa using hi) (by simpa using hj))

/-- `set` within the occupied prefix permutes the prefix after replacing
the old value by the new one. -/
theorem set_perm (a : List Nat) (i v : Nat) (h : i < a.length) :
    (a.set i v).Perm (v :: a.eraseIdx i) := by
  rw [List.set_eq_take_cons_drop v h, List.eraseIdx_eq_take_drop_succ]
  exact List.perm_middle

end _mmheap

/-! ## extremal specifications of the child/grandchild lookups -/

namespace _mmheap

/-- one selection step of the min scans keeps the running best within
range, only lowers its value, and covers the new candidate. -/
theorem step_min (a : List Nat) (r b c : Nat) (hb : b ≤ r) :
    (if c ≤ r ∧ idx a c < idx a b then c else b) ≤ r
    ∧ idx a (if c ≤ r ∧ idx a c < idx a b then c else b) ≤ idx a b
    ∧ (c ≤ r → idx a (if c ≤ r ∧ idx a c < idx a b then c else b) ≤ idx a c)
    ∧ ((if c ≤ r ∧ idx a c < idx a b then c else b) = b
       ∨ (if c ≤ r ∧ idx a c < idx a b then c else b) = c) := by
  split
  · rename_i h
    exact ⟨h.1, Nat.le_of_lt h.2, fun _ => Nat.le_refl _, Or.inr rfl⟩
  · rename_i h
    refine ⟨hb, Nat.le_refl _, fun hc => ?_, Or.inl rfl⟩
    rcases Nat.lt_or_ge (idx a c) (idx a b) with hlt | hge
    · exact absurd ⟨hc, hlt⟩ h
    · exact hge

/-- one selection step of the max scans. -/
theorem step_max (a : List Nat) (r b c : Nat) (hb : b ≤ r) :
    (if c ≤ r ∧ idx a b < idx a c then c else b) ≤ r
    ∧ idx a b ≤ idx a (if c ≤ r ∧ idx a b < idx a c then c else b)
    ∧ (c ≤ r → idx a c ≤ idx a (if c ≤ r ∧ idx a b < idx a c then c else b))
    ∧ ((if c ≤ r ∧ idx a b < idx a c then c else b) = b
       ∨ (if c ≤ r ∧ idx a b < idx a c then c else b) = c) := by
  split
  · rename_i h
    exact ⟨h.1, Nat.le_of_lt h.2, fun _ => Nat.le_refl _, Or.inr rfl⟩
  · rename_i h
    refine ⟨hb, Nat.le_refl _, fun hc => ?_, Or.inl rfl⟩
    rcases Nat.lt_or_ge (idx a b) (idx a c) with hlt | hge
    · exact absurd ⟨hc, hlt⟩ h
    · exact hge

/-- `min_child` selects the smaller in-range child. -/
theorem min_child_min (a : List Nat) (i r : Nat) (h : left i ≤ r) :
    ∃ m, min_child a i r = (true, m) ∧ m ≤ r ∧
      (m = left i ∨ m = right i) ∧
      ∀ k, (k = left i ∨ k = right i) → k ≤ r → idx a m ≤ idx a k := by
  have H := step_min a r (left i) (right i) h
  refine ⟨if right i ≤ r ∧ idx a (right i) < idx a (left i) then right i
    else left i, by simp only [min_child]; rw [if_pos h], H.1, ?_, ?_⟩
  · rcases H.2.2.2 with h1 | h1
    · exact Or.inl h1
    · exact Or.inr h1
  · rintro k (rfl | rfl) hk
    · exact H.2.1
    · exact H.2.2.1 hk

/-- `max_child` selects the larger in-range child. -/
theorem max_child_max (a : List Nat) (i r : Nat) (h : left i ≤ r) :
    ∃ m, max_child a i r = (true, m) ∧ m ≤ r ∧
      (m = left i ∨ m = right i) ∧
      ∀ k, (k = left i ∨ k = right i) → k ≤ r → idx a k ≤ idx a m := by
  have H := step_max a r (left i) (right i) h
  refine ⟨if right i ≤ r ∧ idx a (left i) < idx a (right i) then right i
    else left i, by simp only [max_child]; rw [if_pos h], H.1, ?_, ?_⟩
  · rcases H.2.2.2 with h1 | h1
    · exact Or.inl h1
    · exact Or.inr h1
  · rintro k (rfl | rfl) hk
    · exact H.2.1
    · exact H.2.2.1 hk

/-- `min_gchild` selects the smallest in-range grandchild. -/
theorem min_gchild_min (a : List Nat) (i r : Nat) (h : left (left i) ≤ r) :
    ∃ m, min_gchild a i r = (true, m) ∧ m ≤ r ∧
      (m = left (left i) ∨ m = right (left i) ∨
       m = left (right i) ∨ m = right (right i)) ∧
      ∀ k, (k = left (left i) ∨ k = right (left i) ∨
            k = left (right i) ∨ k = right (right i)) →
        k ≤ r → idx a m ≤ idx a k := by
  have H1 := step_min a r (left (left i)) (right (left i)) h
  set t1 := if right (left i) ≤ r ∧ idx a (right (left i)) < idx a (left (left i))
    then right (left i) else left (left i) with ht1
  have H2 := step_min a r t1 (left (right i)) H1.1
  set t2 := if left (right i) ≤ r ∧ idx a (left (right i)) < idx a t1
    then left (right i) else t1 with ht2
  have H3 := step_min a r t2 (right (right i)) H2.1
  set t3 := if right (right i) ≤ r ∧ idx a (right (right i)) < idx a t2
    then right (right i) else t2 with ht3
  refine ⟨t3, ?_, H3.1, ?_, ?_⟩
  · simp only [min_gchild]
    rw [if_pos h, ht3, ht2, ht1]
  · rcases H3.2.2.2 with e3 | e3
    · rcases H2.2.2.2 with e2 | e2
      · rcases H1.2.2.2 with e1 | e1
        · exact Or.inl (by rw [e3, e2, e1])
        · exact Or.inr (Or.inl (by rw [e3, e2, e1]))
      · exact Or.inr (Or.inr (Or.inl (by rw [e3, e2])))
    · exact Or.inr (Or.inr (Or.inr e3))
  · rintro k (rfl | rfl | rfl | rfl) hk
    · exact Nat.le_trans H3.2.1 (Nat.le_trans H2.2.1 H1.2.1)
    · exact Nat.le_trans H3.2.1 (Nat.le_trans H2.2.1 (H1.2.2.1 hk))
    · exact Nat.le_trans H3.2.1 (H2.2.2.1 hk)
    · exact H3.2.2.1 hk

/-- `max_gchild` selects the largest in-range grandchild. -/
theorem max_gchild_max (a : List Nat) (i r : Nat) (h : left (left i) ≤ r) :
    ∃ m, max_gchild a i r = (true, m) ∧ m ≤ r ∧
      (m = left (left i) ∨ m = right (left i) ∨
       m = left (right i) ∨ m = right (right i)) ∧
      ∀ k, (k = left (left i) ∨ k = right (left i) ∨
            k = left (right i) ∨ k = right (right i)) →
        k ≤ r → idx a k ≤ idx a m := by
  have H1 := step_max a r (left (left i)) (right (left i)) h
  set t1 := if right (left i) ≤ r ∧ idx a (left (left i)) < idx a (right (left i))
    then right (left i) else left (left i) with ht1
  have H2 := step_max a r t1 (left (right i)) H1.1
  set t2 := if left (right i) ≤ r ∧ idx a t1 < idx a (left (right i))
    then left (right i) else t1 with ht2
  have H3 := step_max a r t2 (right (right i)) H2.1
  set t3 := if right (right i) ≤ r ∧ idx a t2 < idx a (right (right i))
    then right (right i) else t2 with ht3
  refine ⟨t3, ?_, H3.1, ?_, ?_⟩
  · simp only [max_gchild]
    rw [if_pos h, ht3, ht2, ht1]
  · rcases H3.2.2.2 with e3 | e3
    · rcases H2.2.2.2 with e2 | e2
      · rcases H1.2.2.2 with e1 | e1
        · exact Or.inl (by rw [e3, e2, e1])
        · exact Or.inr (Or.inl (by rw [e3, e2, e1]))
      · exact Or.inr (Or.inr (Or.inl (by rw [e3, e2])))
    · exact Or.inr (Or.inr (Or.inr e3))
  · rintro k (rfl | rfl | rfl | rfl) hk
    · exact Nat.le_trans H1.2.1 (Nat.le_trans H2.2.1 H3.2.1)
    · exact Nat.le_trans (H1.2.2.1 hk) (Nat.le_trans H2.2.1 H3.2.1)
    · exact Nat.le_trans (H2.2.2.1 hk) H3.2.1
    · exact H3.2.2.1 hk

/-- every grandchild slot of `i` lies at or beyond `left (left i)`. -/
theorem gchild_ge (i k : Nat)
    (h : k = left (left i) ∨ k = right (left i) ∨
         k = left (right i) ∨ k = right (right i)) :
    left (left i) ≤ k := by
  rcases h with rfl | rfl | rfl | rfl <;> simp only [left, right] <;> omega

/-- `min_child_or_gchild` selects an in-range candidate of minimal value
among all in-range children and grandchildren. -/
theorem mcg_min (a : List Nat) (i r : Nat) (h : left i ≤ r) :
    ∃ m, min_child_or_gchild a i r = (true, m) ∧ m ≤ r ∧ cg i m ∧
      ∀ k, cg i k → k ≤ r → idx a m ≤ idx a k := by
  obtain ⟨mc, hmc, hmcr, hmcmem, hmcmin⟩ := min_child_min a i r h
  by_cases hg : left (left i) ≤ r
  · obtain ⟨mg, hmg, hmgr, hmgmem, hmgmin⟩ := min_gchild_min a i r hg
    by_cases hlt : idx a mg < idx a mc
    · refine ⟨mg, by simp [min_child_or_gchild, hmc, hmg, hlt], hmgr, ?_, ?_⟩
      · rcases hmgmem with e | e | e | e <;>
          simp only [cg] <;> tauto
      · intro k hk hkr
        rcases hk with e | e | e | e | e | e
        · exact Nat.le_of_lt (Nat.lt_of_lt_of_le hlt (hmcmin k (Or.inl e) hkr))
        · exact Nat.le_of_lt (Nat.lt_of_lt_of_le hlt (hmcmin k (Or.inr e) hkr))
        · exact hmgmin k (Or.inl e) hkr
        · exact hmgmin k (Or.inr (Or.inl e)) hkr
        · exact hmgmin k (Or.inr (Or.inr (Or.inl e))) hkr
        · exact hmgmin k (Or.inr (Or.inr (Or.inr e))) hkr
    · refine ⟨mc, by simp [min_child_or_gchild, hmc, hmg, hlt], hmcr, ?_, ?_⟩
      · rcases hmcmem with e | e <;> simp only [cg] <;> tauto
      · have hle : idx a mc ≤ idx a mg := Nat.le_of_not_lt hlt
        intro k hk hkr
        rcases hk with e | e | e | e | e | e
        · exact hmcmin k (Or.inl e) hkr
        · exact hmcmin k (Or.inr e) hkr
        · exact Nat.le_trans hle (hmgmin k (Or.inl e) hkr)
        · exact Nat.le_trans hle (hmgmin k (Or.inr (Or.inl e)) hkr)
        · exact Nat.le_trans hle (hmgmin k (Or.inr (Or.inr (Or.inl e))) hkr)
        · exact Nat.le_trans hle (hmgmin k (Or.inr (Or.inr (Or.inr e))) hkr)
  · have hmgeq : min_gchild a i r = (false, 0) := by
      rcases min_gchild_cases a i r with ⟨h1, _⟩ | ⟨_, h2⟩
      · exact absurd h1 hg
      · exact h2
    refine ⟨mc, by simp [min_child_or_gchild, hmc, hmgeq], hmcr, ?_, ?_⟩
    · rcases hmcmem with e | e <;> simp only [cg] <;> tauto
    · intro k hk hkr
      rcases hk with e | e | e | e | e | e
      · exact hmcmin k (Or.inl e) hkr
      · exact hmcmin k (Or.inr e) hkr
      all_goals
        exact absurd (Nat.le_trans (gchild_ge i k (by tauto)) hkr) hg

/-- `max_child_or_gchild` selects an in-range candidate of maximal value
among all in-range children and grandchildren. -/
theorem mcg_max (a : List Nat) (i r : Nat) (h : left i ≤ r) :
    ∃ m, max_child_or_gchild a i r = (true, m) ∧ m ≤ r ∧ cg i m ∧
      ∀ k, cg i k → k ≤ r → idx a k ≤ idx a m := by
  obtain ⟨mc, hmc, hmcr, hmcmem, hmcmax⟩ := max_child_max a i r h
  by_cases hg : left (left i) ≤ r
  · obtain ⟨mg, hmg, hmgr, hmgmem, hmgmax⟩ := max_gchild_max a i r hg
    by_cases hlt : idx a mc < idx a mg
    · refine ⟨mg, by simp [max_child_or_gchild, hmc, hmg, hlt], hmgr, ?_, ?_⟩
      · rcases hmgmem with e | e | e | e <;>
          simp only [cg] <;> tauto
      · intro k hk hkr
        rcases hk with e | e | e | e | e | e
        · exact Nat.le_of_lt (Nat.lt_of_le_of_lt (hmcmax k (Or.inl e) hkr) hlt)
        · exact Nat.le_of_lt (Nat.lt_of_le_of_lt (hmcmax k (Or.inr e) hkr) hlt)
        · exact hmgmax k (Or.inl e) hkr
        · exact hmgmax k (Or.inr (Or.inl e)) hkr
        · exact hmgmax k (Or.inr (Or.inr (Or.inl e))) hkr
        · exact hmgmax k (Or.inr (Or.inr (Or.inr e))) hkr
    · refine ⟨mc, by simp [max_child_or_gchild, hmc, hmg, hlt], hmcr, ?_, ?_⟩
      · rcases hmcmem with e | e <;> simp only [cg] <;> tauto
      · have hle : idx a mg ≤ idx a mc := Nat.le_of_not_lt hlt
        intro k hk hkr
        rcases hk with e | e | e | e | e | e
        · exact hmcmax k (Or.inl e) hkr
        · exact hmcmax k (Or.inr e) hkr
        · exact Nat.le_trans (hmgmax k (Or.inl e) hkr) hle
        · exact Nat.le_trans (hmgmax k (Or.inr (Or.inl e)) hkr) hle
        · exact Nat.le_trans (hmgmax k (Or.inr (Or.inr (Or.inl e))) hkr) hle
        · exact Nat.le_trans (hmgmax k (Or.inr (Or.inr (Or.inr e))) hkr) hle
  · have hmgeq : max_gchild a i r = (false, 0) := by
      rcases max_gchild_cases a i r with ⟨h1, _⟩ | ⟨_, h2⟩
      · exact absurd h1 hg
      · exact h2
    refine ⟨mc, by simp [max_child_or_gchild, hmc, hmgeq], hmcr, ?_, ?_⟩
    · rcases hmcmem with e | e <;> simp only [cg] <;> tauto
    · intro k hk hkr
      rcases hk with e | e | e | e | e | e
      · exact hmcmax k (Or.inl e) hkr
      · exact hmcmax k (Or.inr e) hkr
      all_goals
        exact absurd (Nat.le_trans (gchild_ge i k (by tauto)) hkr) hg

/-- the existence flag of `min_child_or_gchild`. -/
theorem mcg_min_fst (a : List Nat) (i r : Nat) :
    (min_child_or_gchild a i r).1 = true ↔ left i ≤ r := by
  constructor
  · intro h
    rcases min_child_cases a i r with ⟨h1, _⟩ | ⟨h1, h2⟩
    · exact h1
    · simp only [min_child_or_gchild, h2] at h
      simp at h
  · intro h
    obtain ⟨m, hm, _⟩ := mcg_min a i r h
    rw [hm]

/-- the existence flag of `max_child_or_gchild`. -/
theorem mcg_max_fst (a : List Nat) (i r : Nat) :
    (max_child_or_gchild a i r).1 = true ↔ left i ≤ r := by
  constructor
  · intro h
    rcases max_child_cases a i r with ⟨h1, _⟩ | ⟨h1, h2⟩
    · exact h1
    · simp only [max_child_or_gchild, h2] at h
      simp at h
  · intro h
    obtain ⟨m, hm, _⟩ := mcg_max a i r h
    rw [hm]

end _mmheap

/-! ## the validator decides the local min-max relations -/

namespace _mmheap

theorem cg_ge_left {j k : Nat} (h : cg j k) : left j ≤ k := by
  rcases h with e | e | e | e | e | e <;> subst e <;>
    simp only [left, right] <;> omega

end _mmheap

namespace mmheap

open _mmheap

/-- the per-node check of `is_heap` holds exactly when the local min-max
relation does. -/
theorem is_heap_check_iff (a : List Nat) (count j : Nat) (hc : 0 < count) :
    is_heap_check a count j = true ↔ nodeOK a count j := by
  cases hml : min_level j with
  | true =>
    by_cases hchild : left j ≤ count - 1
    · obtain ⟨m, hmeq, hmr, hmcg, hmmin⟩ := mcg_min a j (count - 1) hchild
      constructor
      · intro hcheck k hk hkc
        refine ⟨fun _ => ?_, fun hf => by rw [hml] at hf; cases hf⟩
        have h1 : idx a j ≤ idx a m := by
          simp only [is_heap_check, hml, hmeq] at hcheck
          simp at hcheck
          omega
        exact Nat.le_trans h1 (hmmin k hk (by omega))
      · intro hok
        have h1 := (hok m hmcg (by omega)).1 hml
        simp only [is_heap_check, hml, hmeq]
        simp
        omega
    · have hf : (min_child_or_gchild a j (count - 1)).1 = false := by
        rcases Bool.eq_false_or_eq_true (min_child_or_gchild a j (count - 1)).1
          with h | h
        · exact absurd ((mcg_min_fst a j (count - 1)).1 h) hchild
        · exact h
      constructor
      · intro _ k hk hkc
        exfalso
        have := cg_ge_left hk
        omega
      · intro _
        simp only [is_heap_check, hml, hf]
        simp
  | false =>
    by_cases hchild : left j ≤ count - 1
    · obtain ⟨m, hmeq, hmr, hmcg, hmmax⟩ := mcg_max a j (count - 1) hchild
      constructor
      · intro hcheck k hk hkc
        refine ⟨fun ht => (by rw [hml] at ht; cases ht), fun _ => ?_⟩
        have h1 : idx a m ≤ idx a j := by
          simp only [is_heap_check, hml, hmeq] at hcheck
          simp at hcheck
          omega
        exact Nat.le_trans (hmmax k hk (by omega)) h1
      · intro hok
        have h1 := (hok m hmcg (by omega)).2 hml
        simp only [is_heap_check, hml, hmeq]
        simp
        omega
    · have hf : (max_child_or_gchild a j (count - 1)).1 = false := by
        rcases Bool.eq_false_or_eq_true (max_child_or_gchild a j (count - 1)).1
          with h | h
        · exact absurd ((mcg_max_fst a j (count - 1)).1 h) hchild
        · exact h
      constructor
      · intro _ k hk hkc
        exfalso
        have := cg_ge_left hk
        omega
      · intro _
        simp only [is_heap_check, hml, hf]
        simp

/-- unrolling of the `is_heap` scan: it checks the parent of every index
from `i` down to `1`. -/
theorem is_heap_loop_iff (a : List Nat) (count : Nat) : ∀ i : Nat,
    (is_heap_loop a count i = true ↔
      ∀ t, 1 ≤ t → t ≤ i → is_heap_check a count (parent t) = true) := by
  intro i
  induction i using Nat.strong_induction_on with
  | _ i ih =>
    rw [is_heap_loop]
    by_cases h : has_parent i = true
    · have hi : 0 < i := by simpa [has_parent] using h
      rw [if_pos h, Bool.and_eq_true, ih (i - 1) (by omega)]
      constructor
      · rintro ⟨h1, h2⟩ t ht1 ht2
        by_cases he : t = i
        · subst he; exact h1
        · exact h2 t ht1 (by omega)
      · intro hall
        exact ⟨hall i hi (Nat.le_refl i), fun t ht1 ht2 => hall t ht1 (by omega)⟩
    · have hi : i = 0 := by simp [has_parent] at h; omega
      subst hi
      rw [if_neg h]
      simp only [true_iff]
      intro t ht1 ht2
      exact absurd ht2 (by omega)

/-- `is_heap` decides the min-max heap invariant. -/
theorem is_heap_iff (a : List Nat) (count : Nat) :
    is_heap a count = true ↔ IsMMHeap a count := by
  unfold is_heap
  by_cases h : count > 1
  · rw [if_pos h, is_heap_loop_iff]
    constructor
    · intro hall j k hk hkc
      have hcheck := hall (left j) (by simp only [left]; omega)
        (by have := cg_ge_left hk; omega)
      rw [parent_left] at hcheck
      exact ((is_heap_check_iff a count j (by omega)).1 hcheck) k hk hkc
    · intro hmm t ht1 ht2
      exact (is_heap_check_iff a count (parent t) (by omega)).2 (hmm (parent t))
  · rw [if_neg h]
    constructor
    · intro _ j k hk hkc
      exfalso
      have h1 := cg_ge_left hk
      simp only [left] at h1
      omega
    · intro _; rfl

end mmheap

/-! ## subtree membership and subtree extremal bounds -/

namespace _mmheap

theorem inSub_self (s : Nat) : inSub s s = true := by rw [inSub]; simp

theorem inSub_le {s k : Nat} (h : inSub s k = true) : s ≤ k := by
  rw [inSub] at h
  split_ifs at h with h1 h2
  · omega
  · omega

theorem inSub_parent {s k : Nat} (hne : k ≠ s) (h : inSub s k = true) :
    inSub s (parent k) = true := by
  rw [inSub, if_neg hne] at h
  by_cases h2 : k ≤ s
  · rw [if_pos h2] at h; cases h
  · rw [if_neg h2] at h; exact h

theorem inSub_of_parent {s k : Nat} (hk : s < k)
    (h : inSub s (parent k) = true) : inSub s k = true := by
  rw [inSub, if_neg (by omega), if_neg (by omega)]
  exact h

theorem inSub_out {q k : Nat} (h : k < q) : inSub q k = false := by
  cases heq : inSub q k with
  | false => rfl
  | true => exact absurd (inSub_le heq) (by omega)

theorem inSub_zero : ∀ k : Nat, inSub 0 k = true := by
  intro k
  induction k using Nat.strong_induction_on with
  | _ k ih =>
    by_cases h : k = 0
    · subst h; exact inSub_self 0
    · exact inSub_of_parent (by omega)
        (ih (parent k) (parent_lt k (by omega)))

theorem inSub_trans {s t : Nat} (hst : inSub s t = true) :
    ∀ k, inSub t k = true → inSub s k = true := by
  intro k
  induction k using Nat.strong_induction_on with
  | _ k ih =>
    intro htk
    by_cases he : k = t
    · subst he; exact hst
    · have hp := inSub_parent he htk
      have hk0 : 0 < k := by
        have h1 := inSub_le htk
        omega
      have hsk : s < k := by
        have h1 := inSub_le hst
        have h2 := inSub_le htk
        omega
      exact inSub_of_parent hsk (ih (parent k) (parent_lt k hk0) hp)

theorem inSub_chain {c j : Nat} : ∀ k, inSub c k = true → inSub j k = true →
    inSub c j = true ∨ inSub j c = true := by
  intro k
  induction k using Nat.strong_induction_on with
  | _ k ih =>
    intro hc hj
    by_cases hkc : k = c
    · subst hkc; exact Or.inr hj
    · by_cases hkj : k = j
      · subst hkj; exact Or.inl hc
      · have hk0 : 0 < k := by have := inSub_le hc; have := inSub_le hj; omega
        exact ih (parent k) (parent_lt k hk0) (inSub_parent hkc hc)
          (inSub_parent hkj hj)

theorem inSub_sibling {s k : Nat} (h1 : inSub (left s) k = true)
    (h2 : inSub (right s) k = true) : False := by
  rcases inSub_chain k h1 h2 with h | h
  · have h3 := inSub_parent (show right s ≠ left s by
      simp only [left, right]; omega) h
    rw [parent_right] at h3
    have h4 := inSub_le h3
    simp only [left] at h4
    omega
  · rw [inSub, if_neg (show left s ≠ right s by simp only [left, right]; omega),
      if_pos (show left s ≤ right s by simp only [left, right]; omega)] at h
    cases h

theorem inSub_cg {s k : Nat} (h : cg s k) : inSub s k = true := by
  rcases (cg_char s k).mp h with ⟨hk0, hp⟩ | ⟨hk2, hp⟩
  · exact inSub_of_parent (cg_gt h) (hp ▸ inSub_self s)
  · have hpk : 0 < parent k := by
      subst hp
      simp only [gparent, parent] at *
      omega
    have h1 : inSub s (parent k) = true := by
      refine inSub_of_parent ?_ (hp ▸ inSub_self s)
      subst hp
      simp only [gparent]
      exact parent_lt (parent k) hpk
    exact inSub_of_parent (cg_gt h) h1

/-- subtree decomposition: a slot of the subtree at `s` is `s` itself or
lies in a child subtree. -/
theorem inSub_children (s : Nat) : ∀ k,
    inSub s k = true ↔
      (k = s ∨ inSub (left s) k = true ∨ inSub (right s) k = true) := by
  intro k
  induction k using Nat.strong_induction_on with
  | _ k ih =>
    constructor
    · intro h
      by_cases he : k = s
      · exact Or.inl he
      · have hk0 : 0 < k := by have := inSub_le h; omega
        have hp := inSub_parent he h
        by_cases hps : parent k = s
        · rcases parent_child k hk0 with hc | hc
          · rw [hps] at hc
            exact Or.inr (Or.inl (hc ▸ inSub_self _))
          · rw [hps] at hc
            exact Or.inr (Or.inr (hc ▸ inSub_self _))
        · rcases (ih (parent k) (parent_lt k hk0)).1 hp with he2 | he2 | he2
          · exact absurd he2 hps
          · refine Or.inr (Or.inl (inSub_of_parent ?_ he2))
            have := inSub_le he2
            have := parent_lt k hk0
            omega
          · refine Or.inr (Or.inr (inSub_of_parent ?_ he2))
            have := inSub_le he2
            have := parent_lt k hk0
            omega
    · rintro (rfl | h | h)
      · exact inSub_self k
      · exact inSub_trans (inSub_cg (Or.inl rfl)) k h
      · exact inSub_trans (inSub_cg (Or.inr (Or.inl rfl))) k h

/-- minimality of a min-level subtree root: if every local relation holds
except possibly the pair grandparent-of-`q` versus `q`, the root of any
min-level subtree avoiding `q` bounds the whole subtree from below. -/
theorem subtree_min_except (a : List Nat) (n s q : Nat) (hn : n ≤ 2 ^ 62)
    (hs : min_level s = true)
    (H : ∀ j k, inSub s j = true → cg j k → k < n →
      ¬(j = gparent q ∧ k = q) →
      (min_level j = true → idx a j ≤ idx a k) ∧
      (min_level j = false → idx a k ≤ idx a j)) :
    ∀ k, inSub s k = true → k < n → inSub q k = false → idx a s ≤ idx a k := by
  intro k
  induction k using Nat.strong_induction_on with
  | _ k ih =>
    intro hks hkn hkq
    by_cases heq : k = s
    · subst heq; exact Nat.le_refl _
    · have hk0 : 0 < k := by have := inSub_le hks; omega
      have hkp : inSub s (parent k) = true := inSub_parent heq hks
      have hbound : k + 1 < 2 ^ 64 := by
        have h1 : (2 : Nat) ^ 62 < 2 ^ 64 := by norm_num
        omega
      have hkqne : k ≠ q := by
        intro he
        rw [he, inSub_self q] at hkq
        cases hkq
      cases hml : min_level k with
      | false =>
        have hpml : min_level (parent k) = true := by
          have h1 := min_level_parent_flip k hk0 hbound
          rw [hml] at h1
          simpa using h1
        have hqp : inSub q (parent k) = false := by
          cases hqp0 : inSub q (parent k) with
          | false => rfl
          | true =>
            have hqk : q < k := by
              have h1 := inSub_le hqp0
              have h2 := parent_lt k hk0
              omega
            rw [inSub_of_parent hqk hqp0] at hkq
            cases hkq
        have hcg : cg (parent k) k := (cg_char (parent k) k).mpr
          (Or.inl ⟨hk0, rfl⟩)
        have hrel := (H (parent k) k hkp hcg hkn (fun hex => hkqne hex.2)).1 hpml
        have hpn : parent k < n := by have := parent_lt k hk0; omega
        exact Nat.le_trans (ih (parent k) (parent_lt k hk0) hkp hpn hqp) hrel
      | true =>
        have hps : parent k ≠ s := by
          intro he
          have h1 := min_level_parent_flip k hk0 hbound
          rw [he, hs, hml] at h1
          cases h1
        have hkgp : inSub s (gparent k) = true := inSub_parent hps hkp
        have hpk0 : 0 < parent k := by
          have h1 := inSub_le hkp
          omega
        have hk2 : 2 < k := by
          simp only [parent] at hpk0
          omega
        have hgml : min_level (gparent k) = true := by
          rw [min_level_gparent_eq k hk2 hbound]
          exact hml
        have hcg : cg (gparent k) k := (cg_char _ _).mpr (Or.inr ⟨hk2, rfl⟩)
        have hglt : gparent k < k := by
          have h1 := parent_lt (parent k) hpk0
          have h2 := parent_lt k hk0
          simp only [gparent]
          omega
        have hqg : inSub q (gparent k) = false := by
          cases hqg0 : inSub q (gparent k) with
          | false => rfl
          | true =>
            have hq1 : q < parent k := by
              have h1 := inSub_le hqg0
              have h2 := parent_lt (parent k) hpk0
              simp only [gparent] at h1
              omega
            have hq2 : inSub q (parent k) = true :=
              inSub_of_parent hq1 hqg0
            have hqk : q < k := by have := parent_lt k hk0; omega
            rw [inSub_of_parent hqk hq2] at hkq
            cases hkq
        have hrel := (H (gparent k) k hkgp hcg hkn (fun hex => hkqne hex.2)).1 hgml
        have hgn : gparent k < n := by omega
        exact Nat.le_trans (ih (gparent k) hglt hkgp hgn hqg) hrel

/-- maximality of a max-level subtree root, dual to
`subtree_min_except`. -/
theorem subtree_max_except (a : List Nat) (n s q : Nat) (hn : n ≤ 2 ^ 62)
    (hs : min_level s = false)
    (H : ∀ j k, inSub s j = true → cg j k → k < n →
      ¬(j = gparent q ∧ k = q) →
      (min_level j = true → idx a j ≤ idx a k) ∧
      (min_level j = false → idx a k ≤ idx a j)) :
    ∀ k, inSub s k = true → k < n → inSub q k = false → idx a k ≤ idx a s := by
  intro k
  induction k using Nat.strong_induction_on with
  | _ k ih =>
    intro hks hkn hkq
    by_cases heq : k = s
    · subst heq; exact Nat.le_refl _
    · have hk0 : 0 < k := by have := inSub_le hks; omega
      have hkp : inSub s (parent k) = true := inSub_parent heq hks
      have hbound : k + 1 < 2 ^ 64 := by
        have h1 : (2 : Nat) ^ 62 < 2 ^ 64 := by norm_num
        omega
      have hkqne : k ≠ q := by
        intro he
        rw [he, inSub_self q] at hkq
        cases hkq
      cases hml : min_level k with
      | true =>
        have hpml : min_level (parent k) = false := by
          have h1 := min_level_parent_flip k hk0 hbound
          rw [hml] at h1
          simpa using h1
        have hqp : inSub q (parent k) = false := by
          cases hqp0 : inSub q (parent k) with
          | false => rfl
          | true =>
            have hqk : q < k := by
              have h1 := inSub_le hqp0
              have h2 := parent_lt k hk0
              omega
            rw [inSub_of_parent hqk hqp0] at hkq
            cases hkq
        have hcg : cg (parent k) k := (cg_char (parent k) k).mpr
          (Or.inl ⟨hk0, rfl⟩)
        have hrel := (H (parent k) k hkp hcg hkn (fun hex => hkqne hex.2)).2 hpml
        have hpn : parent k < n := by have := parent_lt k hk0; omega
        exact Nat.le_trans hrel (ih (parent k) (parent_lt k hk0) hkp hpn hqp)
      | false =>
        have hps : parent k ≠ s := by
          intro he
          have h1 := min_level_parent_flip k hk0 hbound
          rw [he, hs, hml] at h1
          cases h1
        have hkgp : inSub s (gparent k) = true := inSub_parent hps hkp
        have hpk0 : 0 < parent k := by
          have h1 := inSub_le hkp
          omega
        have hk2 : 2 < k := by
          simp only [parent] at hpk0
          omega
        have hgml : min_level (gparent k) = false := by
          rw [min_level_gparent_eq k hk2 hbound]
          exact hml
        have hcg : cg (gparent k) k := (cg_char _ _).mpr (Or.inr ⟨hk2, rfl⟩)
        have hglt : gparent k < k := by
          have h1 := parent_lt (parent k) hpk0
          have h2 := parent_lt k hk0
          simp only [gparent]
          omega
        have hqg : inSub q (gparent k) = false := by
          cases hqg0 : inSub q (gparent k) with
          | false => rfl
          | true =>
            have hq1 : q < parent k := by
              have h1 := inSub_le hqg0
              have h2 := parent_lt (parent k) hpk0
              simp only [gparent] at h1
              omega
            have hq2 : inSub q (parent k) = true :=
              inSub_of_parent hq1 hqg0
            have hqk : q < k := by have := parent_lt k hk0; omega
            rw [inSub_of_parent hqk hq2] at hkq
            cases hkq
        have hrel := (H (gparent k) k hkgp hcg hkn (fun hex => hkqne hex.2)).2 hgml
        have hgn : gparent k < n := by omega
        exact Nat.le_trans hrel (ih (gparent k) hglt hkgp hgn hqg)

/-- the root of a min-level subtree of a valid heap bounds the subtree
from below. -/
theorem subtree_min (a : List Nat) (n s : Nat) (hn : n ≤ 2 ^ 62)
    (hs : min_level s = true) (H : IsMMHeap a n) :
    ∀ k, inSub s k = true → k < n → idx a s ≤ idx a k := by
  intro k hk hkn
  exact subtree_min_except a n s n hn hs
    (fun j k' _ hcg hk'n _ => H j k' hcg hk'n) k hk hkn (inSub_out hkn)

/-- the root of a max-level subtree of a valid heap bounds the subtree
from above. -/
theorem subtree_max (a : List Nat) (n s : Nat) (hn : n ≤ 2 ^ 62)
    (hs : min_level s = false) (H : IsMMHeap a n) :
    ∀ k, inSub s k = true → k < n → idx a k ≤ idx a s := by
  intro k hk hkn
  exact subtree_max_except a n s n hn hs
    (fun j k' _ hcg hk'n _ => H j k' hcg hk'n) k hk hkn (inSub_out hkn)

/-- in a valid heap the root holds the minimum. -/
theorem root_min (a : List Nat) (n : Nat) (hn : n ≤ 2 ^ 62)
    (H : IsMMHeap a n) : ∀ k, k < n → idx a 0 ≤ idx a k :=
  fun k hk => subtree_min a n 0 hn min_level_zero H k (inSub_zero k) hk

end _mmheap

/-! ## extraction of the minimum and maximum -/

namespace mmheap

open _mmheap

theorem min_level_one : min_level 1 = false := by decide

theorem min_level_two : min_level 2 = false := by decide

theorem foldr_min_const (l : List Nat) (v : Nat) (h : ∀ x ∈ l, v ≤ x) :
    l.foldr min v = v := by
  induction l with
  | nil => rfl
  | cons x t ih =>
    have h1 : t.foldr min v = v := ih (fun y hy => h y (List.mem_cons_of_mem x hy))
    simp only [List.foldr_cons, h1]
    exact Nat.min_eq_right (h x (List.mem_cons_self x t))

theorem le_foldr_max (l : List Nat) (v : Nat) :
    v ≤ l.foldr max v ∧ ∀ x ∈ l, x ≤ l.foldr max v := by
  induction l with
  | nil => exact ⟨Nat.le_refl v, fun x hx => absurd hx (List.not_mem_nil x)⟩
  | cons y t ih =>
    refine ⟨Nat.le_trans ih.1 (Nat.le_max_right _ _), ?_⟩
    intro x hx
    rcases List.mem_cons.mp hx with rfl | hx
    · exact Nat.le_max_left _ _
    · exact Nat.le_trans (ih.2 x hx) (Nat.le_max_right _ _)

theorem foldr_max_le (l : List Nat) (v B : Nat) (hv : v ≤ B)
    (h : ∀ x ∈ l, x ≤ B) : l.foldr max v ≤ B := by
  induction l with
  | nil => exact hv
  | cons y t ih =>
    simp only [List.foldr_cons]
    exact Nat.max_le.mpr ⟨h y (List.mem_cons_self y t),
      ih (fun x hx => h x (List.mem_cons_of_mem y hx))⟩

theorem idx_eq_getElem (a : List Nat) (i : Nat) (h : i < a.length) :
    idx a i = a[i] := by
  simp [idx, List.getElem?_eq_getElem h]

theorem mem_take_iff_idx (a : List Nat) (count : Nat) (hc : count ≤ a.length)
    (x : Nat) : x ∈ a.take count ↔ ∃ i, i < count ∧ idx a i = x := by
  constructor
  · intro hx
    obtain ⟨n, hn, he⟩ := List.getElem_of_mem hx
    have hn2 : n < count := by
      have h1 : (a.take count).length = min count a.length := by simp
      omega
    refine ⟨n, hn2, ?_⟩
    have h2 : (a.take count)[n]? = a[n]? := List.getElem?_take_of_lt hn2
    rw [List.getElem?_eq_getElem hn] at h2
    simp only [idx, List.getD_eq_getElem?_getD, ← h2, Option.getD_some, he]
  · rintro ⟨i, hi, rfl⟩
    have hia : i < a.length := by omega
    have hlen : i < (a.take count).length := by simp; omega
    have h2 : (a.take count)[i]? = a[i]? := List.getElem?_take_of_lt hi
    rw [List.getElem?_eq_getElem hia] at h2
    have h3 : (a.take count)[i] = a[i] := by
      have := List.getElem?_eq_getElem hlen
      rw [h2] at this
      exact (Option.some.injEq _ _).mp this.symm
    rw [idx_eq_getElem a i hia, ← h3]
    exact List.getElem_mem hlen

/-- in a valid heap, the full-scan minimum is the root value. -/
theorem scan_min_eq_root (a : List Nat) (count : Nat) (hn : count ≤ 2 ^ 62)
    (hc : count ≤ a.length) (H : IsMMHeap a count) :
    scan_min a count = idx a 0 := by
  unfold scan_min
  apply foldr_min_const
  intro x hx
  obtain ⟨i, hi, rfl⟩ := (mem_take_iff_idx a count hc x).1 hx
  exact root_min a count hn H i hi

/-- in a valid heap with at least two elements, the full-scan maximum is
the value selected by `max_child` at the root. -/
theorem scan_max_eq_sel (a : List Nat) (count : Nat) (hn : count ≤ 2 ^ 62)
    (hc : count ≤ a.length) (h2 : 2 ≤ count) (H : IsMMHeap a count) :
    ∃ sel, max_child a 0 (count - 1) = (true, sel) ∧
      (sel = 1 ∨ sel = 2) ∧ sel ≤ count - 1 ∧
      scan_max a count = idx a sel ∧
      (∀ i, i < count → idx a i ≤ idx a sel) := by
  have hguard : left 0 ≤ count - 1 := by simp only [left]; omega
  obtain ⟨sel, hseleq, hselr, hselmem, hselmax⟩ := max_child_max a 0 (count - 1) hguard
  have hmem12 : sel = 1 ∨ sel = 2 := by
    rcases hselmem with e | e <;> [exact Or.inl e; exact Or.inr e]
  have hall : ∀ i, i < count → idx a i ≤ idx a sel := by
    intro i hi
    have hcg : cg 0 sel := by
      rcases hselmem with e | e
      · exact Or.inl e
      · exact Or.inr (Or.inl e)
    rcases (inSub_children 0 i).1 (inSub_zero i) with e | h | h
    · subst e
      exact (H 0 sel hcg (by omega)).1 min_level_zero
    · have e1 : left 0 = 1 := rfl
      rw [e1] at h
      have hle1 : idx a i ≤ idx a 1 :=
        subtree_max a count 1 hn min_level_one H i h hi
      exact Nat.le_trans hle1
        (hselmax 1 (Or.inl rfl) (by omega))
    · have e1 : right 0 = 2 := rfl
      rw [e1] at h
      have hi2 : 2 ≤ i := inSub_le h
      have hle1 : idx a i ≤ idx a 2 :=
        subtree_max a count 2 hn min_level_two H i h hi
      exact Nat.le_trans hle1
        (hselmax 2 (Or.inr rfl) (by omega))
  refine ⟨sel, hseleq, hmem12, hselr, ?_, hall⟩
  have hle1 : scan_max a count ≤ idx a sel := by
    apply foldr_max_le
    · exact hall 0 (by omega)
    · intro x hx
      obtain ⟨i, hi, rfl⟩ := (mem_take_iff_idx a count hc x).1 hx
      exact hall i hi
  have hle2 : idx a sel ≤ scan_max a count := by
    apply (le_foldr_max (a.take count) (idx a 0)).2
    exact (mem_take_iff_idx a count hc (idx a sel)).2 ⟨sel, by omega, rfl⟩
  exact Nat.le_antisymm hle1 hle2

/-- in a valid singleton heap the scan maximum is the root value. -/
theorem scan_max_one (a : List Nat) (hc : 1 ≤ a.length) :
    scan_max a 1 = idx a 0 := by
  unfold scan_max
  apply Nat.le_antisymm
  · apply foldr_max_le
    · exact Nat.le_refl _
    · intro x hx
      obtain ⟨i, hi, rfl⟩ := (mem_take_iff_idx a 1 hc x).1 hx
      have : i = 0 := by omega
      subst this
      exact Nat.le_refl _
  · exact (le_foldr_max (a.take 1) (idx a 0)).1

end mmheap

/-! ## frame, permutation and slot-tracking lemmas for sift-down -/

namespace _mmheap

theorem swap_source (a : List Nat) (i j x : Nat) (hi : i < a.length)
    (hj : j < a.length) :
    idx (swap a i j) x = idx a x ∨ idx (swap a i j) x = idx a i ∨
      idx (swap a i j) x = idx a j := by
  by_cases hxj : x = j
  · subst hxj; rw [idx_swap_snd a i x hj]; exact Or.inr (Or.inl rfl)
  · by_cases hxi : x = i
    · subst hxi; rw [idx_swap_fst a x j hi]; exact Or.inr (Or.inr rfl)
    · rw [idx_swap_ne a i j x hxi hxj]; exact Or.inl rfl

/-- the selected candidate of `min_child_or_gchild`, under the guard, in
projection form. -/
theorem mcg_min_snd (a : List Nat) (s r : Nat) (h : left s ≤ r) :
    (min_child_or_gchild a s r).2 ≤ r ∧ cg s (min_child_or_gchild a s r).2 ∧
      ∀ k, cg s k → k ≤ r →
        idx a (min_child_or_gchild a s r).2 ≤ idx a k := by
  obtain ⟨m, hmeq, hmr, hmcg, hmmin⟩ := mcg_min a s r h
  rw [hmeq]
  exact ⟨hmr, hmcg, hmmin⟩

theorem mcg_max_snd (a : List Nat) (s r : Nat) (h : left s ≤ r) :
    (max_child_or_gchild a s r).2 ≤ r ∧ cg s (max_child_or_gchild a s r).2 ∧
      ∀ k, cg s k → k ≤ r →
        idx a k ≤ idx a (max_child_or_gchild a s r).2 := by
  obtain ⟨m, hmeq, hmr, hmcg, hmmax⟩ := mcg_max a s r h
  rw [hmeq]
  exact ⟨hmr, hmcg, hmmax⟩

theorem sift_down_min_length (a : List Nat) (s r : Nat) :
    (sift_down_min a s r).length = a.length := by
  induction a, s, r using sift_down_min.induct with
  | case1 a s r h m hc hlt =>
    rw [sift_down_min, dif_pos h]
    simp only [if_pos hc, if_pos hlt, swap_length]
  | case2 a s r h m hc hlt =>
    rw [sift_down_min, dif_pos h]
    simp only [if_pos hc, if_neg hlt]
  | case3 a s r h m hc hlt a1 a2 ih =>
    rw [sift_down_min, dif_pos h]
    simp only [if_neg hc, if_pos hlt]
    show (sift_down_min a2 m r).length = a.length
    rw [ih]
    have e1 : a1.length = a.length := swap_length a m s
    rcases (show a2 = swap a1 m (parent m) ∨ a2 = a1 by
      by_cases hp : idx a1 (parent m) < idx a1 m
      · exact Or.inl (dif_pos hp)
      · exact Or.inr (dif_neg hp)) with e | e
    · rw [e, swap_length, e1]
    · rw [e, e1]
  | case4 a s r h m hc hlt =>
    rw [sift_down_min, dif_pos h]
    simp only [if_neg hc, if_neg hlt]
  | case5 a s r h =>
    rw [sift_down_min, dif_neg h]

theorem sift_down_max_length (a : List Nat) (s r : Nat) :
    (sift_down_max a s r).length = a.length := by
  induction a, s, r using sift_down_max.induct with
  | case1 a s r h m hc hlt =>
    rw [sift_down_max, dif_pos h]
    simp only [if_pos hc, if_pos hlt, swap_length]
  | case2 a s r h m hc hlt =>
    rw [sift_down_max, dif_pos h]
    simp only [if_pos hc, if_neg hlt]
  | case3 a s r h m hc hlt a1 a2 ih =>
    rw [sift_down_max, dif_pos h]
    simp only [if_neg hc, if_pos hlt]
    show (sift_down_max a2 m r).length = a.length
    rw [ih]
    have e1 : a1.length = a.length := swap_length a m s
    rcases (show a2 = swap a1 m (parent m) ∨ a2 = a1 by
      by_cases hp : idx a1 m < idx a1 (parent m)
      · exact Or.inl (dif_pos hp)
      · exact Or.inr (dif_neg hp)) with e | e
    · rw [e, swap_length, e1]
    · rw [e, e1]
  | case4 a s r h m hc hlt =>
    rw [sift_down_max, dif_pos h]
    simp only [if_neg hc, if_neg hlt]
  | case5 a s r h =>
    rw [sift_down_max, dif_neg h]

theorem sift_down_length (a : List Nat) (s r : Nat) :
    (sift_down a s r).length = a.length := by
  unfold sift_down
  split
  · exact sift_down_min_length a s r
  · exact sift_down_max_length a s r

theorem sift_down_min_frame (a : List Nat) (s r : Nat) :
    ∀ k, (inSub s k = false ∨ r < k) →
      idx (sift_down_min a s r) k = idx a k := by
  induction a, s, r using sift_down_min.induct with
  | case1 a s r h m hc hlt =>
    intro k hk
    have hm := mcg_min_snd a s r h
    have hmsub : inSub s m = true := inSub_cg hm.2.1
    have hssub : inSub s s = true := inSub_self s
    have hsr : s < r := by
      have := cg_gt hm.2.1
      have := hm.1
      omega
    rw [sift_down_min, dif_pos h]
    simp only [if_pos hc, if_pos hlt]
    refine idx_swap_ne a m s k ?_ ?_
    · rintro rfl
      rcases hk with hk | hk
      · rw [hmsub] at hk; cases hk
      · omega
    · rintro rfl
      rcases hk with hk | hk
      · rw [hssub] at hk; cases hk
      · omega
  | case2 a s r h m hc hlt =>
    intro k hk
    rw [sift_down_min, dif_pos h]
    simp only [if_pos hc, if_neg hlt]
  | case3 a s r h m hc hlt a1 a2 ih =>
    intro k hk
    have hm := mcg_min_snd a s r h
    have hmsub : inSub s m = true := inSub_cg hm.2.1
    have hms : s < m := cg_gt hm.2.1
    have hpmsub : inSub s (parent m) = true := inSub_parent (by omega) hmsub
    have hpmr : parent m < r := by
      have := parent_lt m (by omega)
      have := hm.1
      omega
    have hsr : s < r := by have := hm.1; omega
    have hknm : k ≠ m := by
      rintro rfl
      rcases hk with hk | hk
      · rw [hmsub] at hk; cases hk
      · have := hm.1; omega
    have hkns : k ≠ s := by
      rintro rfl
      rcases hk with hk | hk
      · rw [inSub_self] at hk; cases hk
      · omega
    have hknp : k ≠ parent m := by
      rintro rfl
      rcases hk with hk | hk
      · rw [hpmsub] at hk; cases hk
      · omega
    rw [sift_down_min, dif_pos h]
    simp only [if_neg hc, if_pos hlt]
    show idx (sift_down_min a2 m r) k = idx a k
    have hrec : idx (sift_down_min a2 m r) k = idx a2 k := by
      apply ih
      rcases hk with hk | hk
      · left
        cases hmk : inSub m k with
        | false => rfl
        | true => rw [inSub_trans hmsub k hmk] at hk; cases hk
      · exact Or.inr hk
    rw [hrec]
    have h2 : idx a2 k = idx a1 k := by
      rcases (show a2 = swap a1 m (parent m) ∨ a2 = a1 by
        by_cases hp : idx a1 (parent m) < idx a1 m
        · exact Or.inl (dif_pos hp)
        · exact Or.inr (dif_neg hp)) with e | e
      · rw [e]; exact idx_swap_ne a1 m (parent m) k hknm hknp
      · rw [e]
    rw [h2]
    exact idx_swap_ne a m s k hknm hkns
  | case4 a s r h m hc hlt =>
    intro k hk
    rw [sift_down_min, dif_pos h]
    simp only [if_neg hc, if_neg hlt]
  | case5 a s r h =>
    intro k hk
    rw [sift_down_min, dif_neg h]

theorem sift_down_max_frame (a : List Nat) (s r : Nat) :
    ∀ k, (inSub s k = false ∨ r < k) →
      idx (sift_down_max a s r) k = idx a k := by
  induction a, s, r using sift_down_max.induct with
  | case1 a s r h m hc hlt =>
    intro k hk
    have hm := mcg_max_snd a s r h
    have hmsub : inSub s m = true := inSub_cg hm.2.1
    have hssub : inSub s s = true := inSub_self s
    have hsr : s < r := by
      have := cg_gt hm.2.1
      have := hm.1
      omega
    rw [sift_down_max, dif_pos h]
    simp only [if_pos hc, if_pos hlt]
    refine idx_swap_ne a m s k ?_ ?_
    · rintro rfl
      rcases hk with hk | hk
      · rw [hmsub] at hk; cases hk
      · have := hm.1; omega
    · rintro rfl
      rcases hk with hk | hk
      · rw [hssub] at hk; cases hk
      · omega
  | case2 a s r h m hc hlt =>
    intro k hk
    rw [sift_down_max, dif_pos h]
    simp only [if_pos hc, if_neg hlt]
  | case3 a s r h m hc hlt a1 a2 ih =>
    intro k hk
    have hm := mcg_max_snd a s r h
    have hmsub : inSub s m = true := inSub_cg hm.2.1
    have hms : s < m := cg_gt hm.2.1
    have hpmsub : inSub s (parent m) = true := inSub_parent (by omega) hmsub
    have hpmr : parent m < r := by
      have := parent_lt m (by omega)
      have := hm.1
      omega
    have hsr : s < r := by have := hm.1; omega
    have hknm : k ≠ m := by
      rintro rfl
      rcases hk with hk | hk
      · rw [hmsub] at hk; cases hk
      · have := hm.1; omega
    have hkns : k ≠ s := by
      rintro rfl
      rcases hk with hk | hk
      · rw [inSub_self] at hk; cases hk
      · omega
    have hknp : k ≠ parent m := by
      rintro rfl
      rcases hk with hk | hk
      · rw [hpmsub] at hk; cases hk
      · omega
    rw [sift_down_max, dif_pos h]
    simp only [if_neg hc, if_pos hlt]
    show idx (sift_down_max a2 m r) k = idx a k
    have hrec : idx (sift_down_max a2 m r) k = idx a2 k := by
      apply ih
      rcases hk with hk | hk
      · left
        cases hmk : inSub m k with
        | false => rfl
        | true => rw [inSub_trans hmsub k hmk] at hk; cases hk
      · exact Or.inr hk
    rw [hrec]
    have h2 : idx a2 k = idx a1 k := by
      rcases (show a2 = swap a1 m (parent m) ∨ a2 = a1 by
        by_cases hp : idx a1 m < idx a1 (parent m)
        · exact Or.inl (dif_pos hp)
        · exact Or.inr (dif_neg hp)) with e | e
      · rw [e]; exact idx_swap_ne a1 m (parent m) k hknm hknp
      · rw [e]
    rw [h2]
    exact idx_swap_ne a m s k hknm hkns
  | case4 a s r h m hc hlt =>
    intro k hk
    rw [sift_down_max, dif_pos h]
    simp only [if_neg hc, if_neg hlt]
  | case5 a s r h =>
    intro k hk
    rw [sift_down_max, dif_neg h]

theorem sift_down_frame (a : List Nat) (s r : Nat) :
    ∀ k, (inSub s k = false ∨ r < k) →
      idx (sift_down a s r) k = idx a k := by
  unfold sift_down
  split
  · exact sift_down_min_frame a s r
  · exact sift_down_max_frame a s r

end _mmheap

namespace _mmheap

/-- every slot of the subtree ends up holding a value that some subtree
slot held before the sift. -/
theorem sift_down_min_source :
    ∀ (a : List Nat) (s r : Nat), r < a.length →
      ∀ k, inSub s k = true → k ≤ r →
        ∃ k2, inSub s k2 = true ∧ k2 ≤ r ∧
          idx (sift_down_min a s r) k = idx a k2 := by
  intro a s r
  induction a, s, r using sift_down_min.induct with
  | case1 a s r h m hc hlt =>
    intro hlen k hk hkr
    have hm := mcg_min_snd a s r h
    have hmsub : inSub s m = true := inSub_cg hm.2.1
    have hsr : s < r := by have := cg_gt hm.2.1; have := hm.1; omega
    rw [sift_down_min, dif_pos h]
    simp only [if_pos hc, if_pos hlt]
    rcases swap_source a m s k (by omega) (by omega) with e | e | e
    · exact ⟨k, hk, hkr, e⟩
    · exact ⟨m, hmsub, by omega, e⟩
    · exact ⟨s, inSub_self s, by omega, e⟩
  | case2 a s r h m hc hlt =>
    intro hlen k hk hkr
    rw [sift_down_min, dif_pos h]
    simp only [if_pos hc, if_neg hlt]
    exact ⟨k, hk, hkr, rfl⟩
  | case3 a s r h m hc hlt a1 a2 ih =>
    intro hlen k hk hkr
    have hm := mcg_min_snd a s r h
    have hmsub : inSub s m = true := inSub_cg hm.2.1
    have hms : s < m := cg_gt hm.2.1
    have hpmsub : inSub s (parent m) = true := inSub_parent (by omega) hmsub
    have hpmr : parent m < r := by
      have := parent_lt m (by omega)
      have := hm.1
      omega
    have hsr : s < r := by have := hm.1; omega
    have hlen1 : a1.length = a.length := swap_length a m s
    have hlen2 : a2.length = a.length := by
      by_cases hp : idx a1 (parent m) < idx a1 m
      · rw [show a2 = swap a1 m (parent m) from dif_pos hp, swap_length, hlen1]
      · rw [show a2 = a1 from dif_neg hp, hlen1]
    rw [sift_down_min, dif_pos h]
    simp only [if_neg hc, if_pos hlt]
    show ∃ k2, inSub s k2 = true ∧ k2 ≤ r ∧
      idx (sift_down_min a2 m r) k = idx a k2
    have step1 : ∃ x, inSub s x = true ∧ x ≤ r ∧
        idx (sift_down_min a2 m r) k = idx a2 x := by
      cases hmk : inSub m k with
      | true =>
        obtain ⟨x, hx1, hx2, hx3⟩ := ih (by omega) k hmk hkr
        exact ⟨x, inSub_trans hmsub x hx1, hx2, hx3⟩
      | false =>
        exact ⟨k, hk, hkr, sift_down_min_frame a2 m r k (Or.inl hmk)⟩
    obtain ⟨x, hx1, hx2, hx3⟩ := step1
    have step2 : ∃ y, inSub s y = true ∧ y ≤ r ∧ idx a2 x = idx a1 y := by
      by_cases hp : idx a1 (parent m) < idx a1 m
      · have e : a2 = swap a1 m (parent m) := dif_pos hp
        have hsrc := swap_source a1 m (parent m) x (by omega) (by omega)
        rw [← e] at hsrc
        rcases hsrc with e2 | e2 | e2
        · exact ⟨x, hx1, hx2, e2⟩
        · exact ⟨m, hmsub, by omega, e2⟩
        · exact ⟨parent m, hpmsub, by omega, e2⟩
      · have e : a2 = a1 := dif_neg hp
        rw [e]
        exact ⟨x, hx1, hx2, rfl⟩
    obtain ⟨y, hy1, hy2, hy3⟩ := step2
    have step3 : ∃ z, inSub s z = true ∧ z ≤ r ∧ idx a1 y = idx a z := by
      have hsrc := swap_source a m s y (by omega) (by omega)
      rcases hsrc with e2 | e2 | e2
      · exact ⟨y, hy1, hy2, e2⟩
      · exact ⟨m, hmsub, by omega, e2⟩
      · exact ⟨s, inSub_self s, by omega, e2⟩
    obtain ⟨z, hz1, hz2, hz3⟩ := step3
    exact ⟨z, hz1, hz2, by rw [hx3, hy3, hz3]⟩
  | case4 a s r h m hc hlt =>
    intro hlen k hk hkr
    rw [sift_down_min, dif_pos h]
    simp only [if_neg hc, if_neg hlt]
    exact ⟨k, hk, hkr, rfl⟩
  | case5 a s r h =>
    intro hlen k hk hkr
    rw [sift_down_min, dif_neg h]
    exact ⟨k, hk, hkr, rfl⟩

theorem sift_down_max_source :
    ∀ (a : List Nat) (s r : Nat), r < a.length →
      ∀ k, inSub s k = true → k ≤ r →
        ∃ k2, inSub s k2 = true ∧ k2 ≤ r ∧
          idx (sift_down_max a s r) k = idx a k2 := by
  intro a s r
  induction a, s, r using sift_down_max.induct with
  | case1 a s r h m hc hlt =>
    intro hlen k hk hkr
    have hm := mcg_max_snd a s r h
    have hmsub : inSub s m = true := inSub_cg hm.2.1
    have hsr : s < r := by have := cg_gt hm.2.1; have := hm.1; omega
    rw [sift_down_max, dif_pos h]
    simp only [if_pos hc, if_pos hlt]
    rcases swap_source a m s k (by omega) (by omega) with e | e | e
    · exact ⟨k, hk, hkr, e⟩
    · exact ⟨m, hmsub, by omega, e⟩
    · exact ⟨s, inSub_self s, by omega, e⟩
  | case2 a s r h m hc hlt =>
    intro hlen k hk hkr
    rw [sift_down_max, dif_pos h]
    simp only [if_pos hc, if_neg hlt]
    exact ⟨k, hk, hkr, rfl⟩
  | case3 a s r h m hc hlt a1 a2 ih =>
    intro hlen k hk hkr
    have hm := mcg_max_snd a s r h
    have hmsub : inSub s m = true := inSub_cg hm.2.1
    have hms : s < m := cg_gt hm.2.1
    have hpmsub : inSub s (parent m) = true := inSub_parent (by omega) hmsub
    have hpmr : parent m < r := by
      have := parent_lt m (by omega)
      have := hm.1
      omega
    have hsr : s < r := by have := hm.1; omega
    have hlen1 : a1.length = a.length := swap_length a m s
    have hlen2 : a2.length = a.length := by
      by_cases hp : idx a1 m < idx a1 (parent m)
      · rw [show a2 = swap a1 m (parent m) from dif_pos hp, swap_length, hlen1]
      · rw [show a2 = a1 from dif_neg hp, hlen1]
    rw [sift_down_max, dif_pos h]
    simp only [if_neg hc, if_pos hlt]
    show ∃ k2, inSub s k2 = true ∧ k2 ≤ r ∧
      idx (sift_down_max a2 m r) k = idx a k2
    have step1 : ∃ x, inSub s x = true ∧ x ≤ r ∧
        idx (sift_down_max a2 m r) k = idx a2 x := by
      cases hmk : inSub m k with
      | true =>
        obtain ⟨x, hx1, hx2, hx3⟩ := ih (by omega) k hmk hkr
        exact ⟨x, inSub_trans hmsub x hx1, hx2, hx3⟩
      | false =>
        exact ⟨k, hk, hkr, sift_down_max_frame a2 m r k (Or.inl hmk)⟩
    obtain ⟨x, hx1, hx2, hx3⟩ := step1
    have step2 : ∃ y, inSub s y = true ∧ y ≤ r ∧ idx a2 x = idx a1 y := by
      by_cases hp : idx a1 m < idx a1 (parent m)
      · have e : a2 = swap a1 m (parent m) := dif_pos hp
        have hsrc := swap_source a1 m (parent m) x (by omega) (by omega)
        rw [← e] at hsrc
        rcases hsrc with e2 | e2 | e2
        · exact ⟨x, hx1, hx2, e2⟩
        · exact ⟨m, hmsub, by omega, e2⟩
        · exact ⟨parent m, hpmsub, by omega, e2⟩
      · have e : a2 = a1 := dif_neg hp
        rw [e]
        exact ⟨x, hx1, hx2, rfl⟩
    obtain ⟨y, hy1, hy2, hy3⟩ := step2
    have step3 : ∃ z, inSub s z = true ∧ z ≤ r ∧ idx a1 y = idx a z := by
      have hsrc := swap_source a m s y (by omega) (by omega)
      rcases hsrc with e2 | e2 | e2
      · exact ⟨y, hy1, hy2, e2⟩
      · exact ⟨m, hmsub, by omega, e2⟩
      · exact ⟨s, inSub_self s, by omega, e2⟩
    obtain ⟨z, hz1, hz2, hz3⟩ := step3
    exact ⟨z, hz1, hz2, by rw [hx3, hy3, hz3]⟩
  | case4 a s r h m hc hlt =>
    intro hlen k hk hkr
    rw [sift_down_max, dif_pos h]
    simp only [if_neg hc, if_neg hlt]
    exact ⟨k, hk, hkr, rfl⟩
  | case5 a s r h =>
    intro hlen k hk hkr
    rw [sift_down_max, dif_neg h]
    exact ⟨k, hk, hkr, rfl⟩

theorem sift_down_source (a : List Nat) (s r : Nat) (hlen : r < a.length) :
    ∀ k, inSub s k = true → k ≤ r →
      ∃ k2, inSub s k2 = true ∧ k2 ≤ r ∧
        idx (sift_down a s r) k = idx a k2 := by
  unfold sift_down
  split
  · exact sift_down_min_source a s r hlen
  · exact sift_down_max_source a s r hlen

theorem sift_down_min_perm :
    ∀ (a : List Nat) (s r : Nat), r < a.length →
      (sift_down_min a s r).Perm a := by
  intro a s r
  induction a, s, r using sift_down_min.induct with
  | case1 a s r h m hc hlt =>
    intro hlen
    have hm := mcg_min_snd a s r h
    have hsr : s < r := by have := cg_gt hm.2.1; have := hm.1; omega
    rw [sift_down_min, dif_pos h]
    simp only [if_pos hc, if_pos hlt]
    exact swap_perm a m s (by omega) (by omega)
  | case2 a s r h m hc hlt =>
    intro hlen
    rw [sift_down_min, dif_pos h]
    simp only [if_pos hc, if_neg hlt]
    exact List.Perm.refl a
  | case3 a s r h m hc hlt a1 a2 ih =>
    intro hlen
    have hm := mcg_min_snd a s r h
    have hms : s < m := cg_gt hm.2.1
    have hpmr : parent m < r := by
      have := parent_lt m (by omega)
      have := hm.1
      omega
    have hsr : s < r := by have := hm.1; omega
    have hlen1 : a1.length = a.length := swap_length a m s
    have h1 : a1.Perm a := swap_perm a m s (by omega) (by omega)
    have h2 : a2.Perm a1 := by
      by_cases hp : idx a1 (parent m) < idx a1 m
      · rw [show a2 = swap a1 m (parent m) from dif_pos hp]
        exact swap_perm a1 m (parent m) (by omega) (by omega)
      · rw [show a2 = a1 from dif_neg hp]
    have hlen2 : a2.length = a.length := h2.length_eq.trans hlen1
    rw [sift_down_min, dif_pos h]
    simp only [if_neg hc, if_pos hlt]
    show (sift_down_min a2 m r).Perm a
    exact ((ih (by omega)).trans h2).trans h1
  | case4 a s r h m hc hlt =>
    intro hlen
    rw [sift_down_min, dif_pos h]
    simp only [if_neg hc, if_neg hlt]
    exact List.Perm.refl a
  | case5 a s r h =>
    intro hlen
    rw [sift_down_min, dif_neg h]

theorem sift_down_max_perm :
    ∀ (a : List Nat) (s r : Nat), r < a.length →
      (sift_down_max a s r).Perm a := by
  intro a s r
  induction a, s, r using sift_down_max.induct with
  | case1 a s r h m hc hlt =>
    intro hlen
    have hm := mcg_max_snd a s r h
    have hsr : s < r := by have := cg_gt hm.2.1; have := hm.1; omega
    rw [sift_down_max, dif_pos h]
    simp only [if_pos hc, if_pos hlt]
    exact swap_perm a m s (by omega) (by omega)
  | case2 a s r h m hc hlt =>
    intro hlen
    rw [sift_down_max, dif_pos h]
    simp only [if_pos hc, if_neg hlt]
    exact List.Perm.refl a
  | case3 a s r h m hc hlt a1 a2 ih =>
    intro hlen
    have hm := mcg_max_snd a s r h
    have hms : s < m := cg_gt hm.2.1
    have hpmr : parent m < r := by
      have := parent_lt m (by omega)
      have := hm.1
      omega
    have hsr : s < r := by have := hm.1; omega
    have hlen1 : a1.length = a.length := swap_length a m s
    have h1 : a1.Perm a := swap_perm a m s (by omega) (by omega)
    have h2 : a2.Perm a1 := by
      by_cases hp : idx a1 m < idx a1 (parent m)
      · rw [show a2 = swap a1 m (parent m) from dif_pos hp]
        exact swap_perm a1 m (parent m) (by omega) (by omega)
      · rw [show a2 = a1 from dif_neg hp]
    have hlen2 : a2.length = a.length := h2.length_eq.trans hlen1
    rw [sift_down_max, dif_pos h]
    simp only [if_neg hc, if_pos hlt]
    show (sift_down_max a2 m r).Perm a
    exact ((ih (by omega)).trans h2).trans h1
  | case4 a s r h m hc hlt =>
    intro hlen
    rw [sift_down_max, dif_pos h]
    simp only [if_neg hc, if_neg hlt]
    exact List.Perm.refl a
  | case5 a s r h =>
    intro hlen
    rw [sift_down_max, dif_neg h]

theorem sift_down_perm (a : List Nat) (s r : Nat) (hlen : r < a.length) :
    (sift_down a s r).Perm a := by
  unfold sift_down
  split
  · exact sift_down_min_perm a s r hlen
  · exact sift_down_max_perm a s r hlen

end _mmheap

namespace _mmheap

/-- a min-sift started at a value no larger than the value in slot `r`
never moves slot `r`. -/
theorem sift_down_min_keep :
    ∀ (a : List Nat) (s r : Nat), r < a.length →
      ∀ w, idx a r = w → idx a s ≤ w →
        idx (sift_down_min a s r) r = w := by
  intro a s r
  induction a, s, r using sift_down_min.induct with
  | case1 a s r h m hc hlt =>
    intro hlen w hw hs
    have hm := mcg_min_snd a s r h
    have hsr : s < r := by have := cg_gt hm.2.1; have := hm.1; omega
    have hmr : m ≠ r := by
      intro he
      rw [he, hw] at hlt
      omega
    rw [sift_down_min, dif_pos h]
    simp only [if_pos hc, if_pos hlt]
    rw [idx_swap_ne a m s r (Ne.symm hmr) (by omega)]
    exact hw
  | case2 a s r h m hc hlt =>
    intro hlen w hw hs
    rw [sift_down_min, dif_pos h]
    simp only [if_pos hc, if_neg hlt]
    exact hw
  | case3 a s r h m hc hlt a1 a2 ih =>
    intro hlen w hw hs
    have hm := mcg_min_snd a s r h
    have hms : s < m := cg_gt hm.2.1
    have hsr : s < r := by have := hm.1; omega
    have hmr : m ≠ r := by
      intro he
      rw [he, hw] at hlt
      omega
    have hpmr : parent m < r := by
      have := parent_lt m (by omega)
      have := hm.1
      omega
    have hlen1 : a1.length = a.length := swap_length a m s
    have hlen2 : a2.length = a.length := by
      by_cases hp : idx a1 (parent m) < idx a1 m
      · rw [show a2 = swap a1 m (parent m) from dif_pos hp, swap_length, hlen1]
      · rw [show a2 = a1 from dif_neg hp, hlen1]
    have ha1r : idx a1 r = w := by
      rw [idx_swap_ne a m s r (Ne.symm hmr) (by omega)]
      exact hw
    have ha1m : idx a1 m = idx a s := idx_swap_fst a m s (by omega)
    have ha2r : idx a2 r = w := by
      by_cases hp : idx a1 (parent m) < idx a1 m
      · rw [show a2 = swap a1 m (parent m) from dif_pos hp,
          idx_swap_ne a1 m (parent m) r (Ne.symm hmr) (by omega)]
        exact ha1r
      · rw [show a2 = a1 from dif_neg hp]
        exact ha1r
    have ha2m : idx a2 m ≤ w := by
      by_cases hp : idx a1 (parent m) < idx a1 m
      · rw [show a2 = swap a1 m (parent m) from dif_pos hp,
          idx_swap_fst a1 m (parent m) (by omega)]
        rw [ha1m] at hp
        omega
      · rw [show a2 = a1 from dif_neg hp, ha1m]
        exact hs
    rw [sift_down_min, dif_pos h]
    simp only [if_neg hc, if_pos hlt]
    show idx (sift_down_min a2 m r) r = w
    exact ih (by omega) w ha2r ha2m
  | case4 a s r h m hc hlt =>
    intro hlen w hw hs
    rw [sift_down_min, dif_pos h]
    simp only [if_neg hc, if_neg hlt]
    exact hw
  | case5 a s r h =>
    intro hlen w hw hs
    rw [sift_down_min, dif_neg h]
    exact hw

/-- a max-sift started at a value no smaller than the value in slot `r`
never moves slot `r`. -/
theorem sift_down_max_keep :
    ∀ (a : List Nat) (s r : Nat), r < a.length →
      ∀ w, idx a r = w → w ≤ idx a s →
        idx (sift_down_max a s r) r = w := by
  intro a s r
  induction a, s, r using sift_down_max.induct with
  | case1 a s r h m hc hlt =>
    intro hlen w hw hs
    have hm := mcg_max_snd a s r h
    have hsr : s < r := by have := cg_gt hm.2.1; have := hm.1; omega
    have hmr : m ≠ r := by
      intro he
      rw [he, hw] at hlt
      omega
    rw [sift_down_max, dif_pos h]
    simp only [if_pos hc, if_pos hlt]
    rw [idx_swap_ne a m s r (Ne.symm hmr) (by omega)]
    exact hw
  | case2 a s r h m hc hlt =>
    intro hlen w hw hs
    rw [sift_down_max, dif_pos h]
    simp only [if_pos hc, if_neg hlt]
    exact hw
  | case3 a s r h m hc hlt a1 a2 ih =>
    intro hlen w hw hs
    have hm := mcg_max_snd a s r h
    have hms : s < m := cg_gt hm.2.1
    have hsr : s < r := by have := hm.1; omega
    have hmr : m ≠ r := by
      intro he
      rw [he, hw] at hlt
      omega
    have hpmr : parent m < r := by
      have := parent_lt m (by omega)
      have := hm.1
      omega
    have hlen1 : a1.length = a.length := swap_length a m s
    have hlen2 : a2.length = a.length := by
      by_cases hp : idx a1 m < idx a1 (parent m)
      · rw [show a2 = swap a1 m (parent m) from dif_pos hp, swap_length, hlen1]
      · rw [show a2 = a1 from dif_neg hp, hlen1]
    have ha1r : idx a1 r = w := by
      rw [idx_swap_ne a m s r (Ne.symm hmr) (by omega)]
      exact hw
    have ha1m : idx a1 m = idx a s := idx_swap_fst a m s (by omega)
    have ha2r : idx a2 r = w := by
      by_cases hp : idx a1 m < idx a1 (parent m)
      · rw [show a2 = swap a1 m (parent m) from dif_pos hp,
          idx_swap_ne a1 m (parent m) r (Ne.symm hmr) (by omega)]
        exact ha1r
      · rw [show a2 = a1 from dif_neg hp]
        exact ha1r
    have ha2m : w ≤ idx a2 m := by
      by_cases hp : idx a1 m < idx a1 (parent m)
      · rw [show a2 = swap a1 m (parent m) from dif_pos hp,
          idx_swap_fst a1 m (parent m) (by omega)]
        rw [ha1m] at hp
        omega
      · rw [show a2 = a1 from dif_neg hp, ha1m]
        exact hs
    rw [sift_down_max, dif_pos h]
    simp only [if_neg hc, if_pos hlt]
    show idx (sift_down_max a2 m r) r = w
    exact ih (by omega) w ha2r ha2m
  | case4 a s r h m hc hlt =>
    intro hlen w hw hs
    rw [sift_down_max, dif_pos h]
    simp only [if_neg hc, if_neg hlt]
    exact hw
  | case5 a s r h =>
    intro hlen w hw hs
    rw [sift_down_max, dif_neg h]
    exact hw

end _mmheap

/-! ## frame and permutation lemmas for bubble-up -/

namespace _mmheap

theorem gparent_lt (b : Nat) (h : 0 < b) : gparent b < b := by
  simp only [gparent, parent]
  omega

theorem inSub_parent_self (b : Nat) (h : 0 < b) :
    inSub (parent b) b = true :=
  inSub_of_parent (parent_lt b h) (inSub_self _)

theorem inSub_gparent_self (b : Nat) (h : 2 < b) :
    inSub (gparent b) b = true := by
  have hpb : 0 < parent b := by simp only [parent]; omega
  have h1 : inSub (gparent b) (parent b) = true :=
    inSub_of_parent (parent_lt (parent b) hpb) (inSub_self _)
  exact inSub_of_parent (gparent_lt b (by omega)) h1

theorem bubble_up_min_length (a : List Nat) (b : Nat) :
    (bubble_up_min a b).length = a.length := by
  induction a, b using bubble_up_min.induct with
  | case1 a b h ih =>
    rw [bubble_up_min, dif_pos h, ih, swap_length]
  | case2 a b h =>
    rw [bubble_up_min, dif_neg h]

theorem bubble_up_max_length (a : List Nat) (b : Nat) :
    (bubble_up_max a b).length = a.length := by
  induction a, b using bubble_up_max.induct with
  | case1 a b h ih =>
    rw [bubble_up_max, dif_pos h, ih, swap_length]
  | case2 a b h =>
    rw [bubble_up_max, dif_neg h]

theorem bubble_up_min_frame (a : List Nat) (b : Nat) :
    ∀ k, inSub k b = false → idx (bubble_up_min a b) k = idx a k := by
  induction a, b using bubble_up_min.induct with
  | case1 a b h ih =>
    intro k hk
    have hb2 : 2 < b := by simpa [has_gparent] using h.1
    have hgb : inSub (gparent b) b = true := inSub_gparent_self b hb2
    have hkb : k ≠ b := by
      rintro rfl; rw [inSub_self] at hk; cases hk
    have hkg : k ≠ gparent b := by
      rintro rfl; rw [hgb] at hk; cases hk
    have hk2 : inSub k (gparent b) = false := by
      cases he : inSub k (gparent b) with
      | false => rfl
      | true => rw [inSub_trans he b hgb] at hk; cases hk
    rw [bubble_up_min, dif_pos h, ih k hk2,
      idx_swap_ne a b (gparent b) k hkb hkg]
  | case2 a b h =>
    intro k hk
    rw [bubble_up_min, dif_neg h]

theorem bubble_up_max_frame (a : List Nat) (b : Nat) :
    ∀ k, inSub k b = false → idx (bubble_up_max a b) k = idx a k := by
  induction a, b using bubble_up_max.induct with
  | case1 a b h ih =>
    intro k hk
    have hb2 : 2 < b := by simpa [has_gparent] using h.1
    have hgb : inSub (gparent b) b = true := inSub_gparent_self b hb2
    have hkb : k ≠ b := by
      rintro rfl; rw [inSub_self] at hk; cases hk
    have hkg : k ≠ gparent b := by
      rintro rfl; rw [hgb] at hk; cases hk
    have hk2 : inSub k (gparent b) = false := by
      cases he : inSub k (gparent b) with
      | false => rfl
      | true => rw [inSub_trans he b hgb] at hk; cases hk
    rw [bubble_up_max, dif_pos h, ih k hk2,
      idx_swap_ne a b (gparent b) k hkb hkg]
  | case2 a b h =>
    intro k hk
    rw [bubble_up_max, dif_neg h]

theorem bubble_up_min_perm :
    ∀ (a : List Nat) (b : Nat), b < a.length → (bubble_up_min a b).Perm a := by
  intro a b
  induction a, b using bubble_up_min.induct with
  | case1 a b h ih =>
    intro hlen
    have hb2 : 2 < b := by simpa [has_gparent] using h.1
    have hg : gparent b < b := gparent_lt b (by omega)
    rw [bubble_up_min, dif_pos h]
    exact (ih (by rw [swap_length]; omega)).trans
      (swap_perm a b (gparent b) hlen (by omega))
  | case2 a b h =>
    intro hlen
    rw [bubble_up_min, dif_neg h]

theorem bubble_up_max_perm :
    ∀ (a : List Nat) (b : Nat), b < a.length → (bubble_up_max a b).Perm a := by
  intro a b
  induction a, b using bubble_up_max.induct with
  | case1 a b h ih =>
    intro hlen
    have hb2 : 2 < b := by simpa [has_gparent] using h.1
    have hg : gparent b < b := gparent_lt b (by omega)
    rw [bubble_up_max, dif_pos h]
    exact (ih (by rw [swap_length]; omega)).trans
      (swap_perm a b (gparent b) hlen (by omega))
  | case2 a b h =>
    intro hlen
    rw [bubble_up_max, dif_neg h]

theorem bubble_up_length (a : List Nat) (b : Nat) :
    (bubble_up a b).length = a.length := by
  unfold bubble_up
  by_cases hml : min_level b = true
  · rw [if_pos hml]
    by_cases hc : has_parent b = true ∧ idx a (parent b) < idx a b
    · rw [if_pos hc, bubble_up_max_length, swap_length]
    · rw [if_neg hc, bubble_up_min_length]
  · rw [if_neg hml]
    by_cases hc : has_parent b = true ∧ idx a b < idx a (parent b)
    · rw [if_pos hc, bubble_up_min_length, swap_length]
    · rw [if_neg hc, bubble_up_max_length]

theorem bubble_up_frame (a : List Nat) (b : Nat) :
    ∀ k, inSub k b = false → idx (bubble_up a b) k = idx a k := by
  intro k hk
  have hkb : k ≠ b := by
    rintro rfl; rw [inSub_self] at hk; cases hk
  have hstep : ∀ h : (0 : Nat) < b, k ≠ parent b ∧ inSub k (parent b) = false := by
    intro h0
    have hpb : inSub (parent b) b = true := inSub_parent_self b h0
    constructor
    · rintro rfl; rw [hpb] at hk; cases hk
    · cases he : inSub k (parent b) with
      | false => rfl
      | true => rw [inSub_trans he b hpb] at hk; cases hk
  unfold bubble_up
  by_cases hml : min_level b = true
  · rw [if_pos hml]
    by_cases hc : has_parent b = true ∧ idx a (parent b) < idx a b
    · have h0 : 0 < b := by simpa [has_parent] using hc.1
      obtain ⟨hkp, hk2⟩ := hstep h0
      rw [if_pos hc, bubble_up_max_frame _ _ k hk2,
        idx_swap_ne a b (parent b) k hkb hkp]
    · rw [if_neg hc]
      exact bubble_up_min_frame a b k hk
  · rw [if_neg hml]
    by_cases hc : has_parent b = true ∧ idx a b < idx a (parent b)
    · have h0 : 0 < b := by simpa [has_parent] using hc.1
      obtain ⟨hkp, hk2⟩ := hstep h0
      rw [if_pos hc, bubble_up_min_frame _ _ k hk2,
        idx_swap_ne a b (parent b) k hkb hkp]
    · rw [if_neg hc]
      exact bubble_up_max_frame a b k hk

theorem bubble_up_perm (a : List Nat) (b : Nat) (hb : b < a.length) :
    (bubble_up a b).Perm a := by
  unfold bubble_up
  by_cases hml : min_level b = true
  · rw [if_pos hml]
    by_cases hc : has_parent b = true ∧ idx a (parent b) < idx a b
    · have h0 : 0 < b := by simpa [has_parent] using hc.1
      have hp : parent b < b := parent_lt b h0
      rw [if_pos hc]
      exact (bubble_up_max_perm _ _ (by rw [swap_length]; omega)).trans
        (swap_perm a b (parent b) hb (by omega))
    · rw [if_neg hc]
      exact bubble_up_min_perm a b hb
  · rw [if_neg hml]
    by_cases hc : has_parent b = true ∧ idx a b < idx a (parent b)
    · have h0 : 0 < b := by simpa [has_parent] using hc.1
      have hp : parent b < b := parent_lt b h0
      rw [if_pos hc]
      exact (bubble_up_min_perm _ _ (by rw [swap_length]; omega)).trans
        (swap_perm a b (parent b) hb (by omega))
    · rw [if_neg hc]
      exact bubble_up_max_perm a b hb

end _mmheap

/-! ## correctness of sift-down on a subtree -/

namespace _mmheap

theorem nodeOK_of_min (a : List Nat) (n j : Nat) (hml : min_level j = true)
    (h : ∀ k, cg j k → k < n → idx a j ≤ idx a k) : nodeOK a n j :=
  fun k hk hkc => ⟨fun _ => h k hk hkc,
    fun hf => False.elim (by rw [hml] at hf; exact Bool.noConfusion hf)⟩

theorem nodeOK_of_max (a : List Nat) (n j : Nat) (hml : min_level j = false)
    (h : ∀ k, cg j k → k < n → idx a k ≤ idx a j) : nodeOK a n j :=
  fun k hk hkc => ⟨fun ht => False.elim (by rw [hml] at ht; exact Bool.noConfusion ht),
    fun _ => h k hk hkc⟩

theorem nodeOK_min {a : List Nat} {n j : Nat} (h : nodeOK a n j)
    (hml : min_level j = true) :
    ∀ k, cg j k → k < n → idx a j ≤ idx a k :=
  fun k hk hkc => (h k hk hkc).1 hml

theorem nodeOK_max {a : List Nat} {n j : Nat} (h : nodeOK a n j)
    (hml : min_level j = false) :
    ∀ k, cg j k → k < n → idx a k ≤ idx a j :=
  fun k hk hkc => (h k hk hkc).2 hml

theorem subtree_min_local (a : List Nat) (n s : Nat) (hn : n ≤ 2 ^ 62)
    (hs : min_level s = true) (H : ∀ j, inSub s j = true → nodeOK a n j) :
    ∀ k, inSub s k = true → k < n → idx a s ≤ idx a k := by
  intro k hk hkn
  exact subtree_min_except a n s n hn hs
    (fun j k2 hj hcg hk2n _ => H j hj k2 hcg hk2n) k hk hkn (inSub_out hkn)

theorem subtree_max_local (a : List Nat) (n s : Nat) (hn : n ≤ 2 ^ 62)
    (hs : min_level s = false) (H : ∀ j, inSub s j = true → nodeOK a n j) :
    ∀ k, inSub s k = true → k < n → idx a k ≤ idx a s := by
  intro k hk hkn
  exact subtree_max_except a n s n hn hs
    (fun j k2 hj hcg hk2n _ => H j hj k2 hcg hk2n) k hk hkn (inSub_out hkn)

/-- a selected candidate that is not a child is a grandchild. -/
theorem gchild_facts (s m : Nat) (hcg : cg s m) (hnc : ¬ child s m = true) :
    parent (parent m) = s ∧ 2 < m := by
  have hnc2 : ¬(m = left s ∨ m = right s) := fun h => hnc ((child_iff s m).mpr h)
  rcases hcg with e | e | e | e | e | e
  · exact absurd (Or.inl e) hnc2
  · exact absurd (Or.inr e) hnc2
  all_goals (subst e; constructor)
  all_goals simp only [parent, left, right]
  all_goals omega

/-- the only ancestors of `m` inside the subtree of `s = parent (parent m)`
are `s`, `parent m` and `m` itself. -/
theorem sub_anc {s m j : Nat} (hs2 : parent (parent m) = s)
    (hj : inSub j m = true) (hjs : inSub s j = true) :
    j = s ∨ j = parent m ∨ j = m := by
  by_cases h1 : j = m
  · exact Or.inr (Or.inr h1)
  · have h2 := inSub_parent (Ne.symm h1) hj
    by_cases h3 : j = parent m
    · exact Or.inr (Or.inl h3)
    · have h4 := inSub_parent (Ne.symm h3) h2
      rw [hs2] at h4
      have h5 := inSub_le h4
      have h6 := inSub_le hjs
      exact Or.inl (by omega)

/-- `s` is not `parent (parent m)`-reachable as a candidate: a candidate
of a node inside the subtree of `s` (other than `s`, `parent m`, inside
`sub m`) is itself untouched.  Technical: a `cg`-candidate cannot equal
`parent m` unless the node is `s` or outside the subtree. -/
theorem cg_ne_parent {s m j : Nat} (hs2 : parent (parent m) = s)
    (hjs : inSub s j = true) (hjne : j ≠ s) (hk : cg j (parent m)) : False := by
  rcases (cg_char j (parent m)).mp hk with ⟨h0, hp⟩ | ⟨h2, hp⟩
  · exact hjne (by rw [← hs2, hp])
  · rw [gparent] at hp
    rw [hs2] at hp
    have h5 := inSub_le hjs
    subst hp
    simp only [parent] at *
    omega

end _mmheap

namespace _mmheap

theorem bool_false {b : Bool} (h : ¬ b = true) : b = false := by
  cases b
  · rfl
  · exact absurd rfl h

/-- `sift_down_min` at a min-level subtree root re-establishes the local
min-max relations of the whole subtree, provided they already held
everywhere in the subtree below the root. -/
theorem sift_down_min_correct :
    ∀ (a : List Nat) (s r : Nat), r < 2 ^ 62 → r < a.length →
      min_level s = true →
      (∀ j, inSub s j = true → j ≠ s → nodeOK a (r + 1) j) →
      ∀ j, inSub s j = true → nodeOK (sift_down_min a s r) (r + 1) j := by
  intro a s r
  induction a, s, r using sift_down_min.induct with
  | case1 a s r h m hc hlt =>
    intro hn hlen hs H j hj
    obtain ⟨hmr, hmcg, P⟩ := mcg_min_snd a s r h
    have hsm : s < m := cg_gt hmcg
    have hm0 : 0 < m := by omega
    have hsr : s < r := by omega
    have hpm : parent m = s := by
      rcases (child_iff s m).mp hc with e | e
      · rw [e, parent_left]
      · rw [e, parent_right]
    have hbm : m + 1 < 2 ^ 64 := by
      have hx : (2:Nat) ^ 62 < 2 ^ 64 := by norm_num
      omega
    have hmlm : min_level m = false := by
      have h1 := min_level_parent_flip m hm0 hbm
      rw [hpm, hs] at h1
      cases hb : min_level m
      · rfl
      · rw [hb] at h1; cases h1
    rw [sift_down_min, dif_pos h]
    simp only [if_pos hc, if_pos hlt]
    have hAs : idx (swap a m s) s = idx a m := idx_swap_snd a m s (by omega)
    have hAm : idx (swap a m s) m = idx a s := idx_swap_fst a m s (by omega)
    have hAx : ∀ x, x ≠ m → x ≠ s → idx (swap a m s) x = idx a x :=
      fun x hx1 hx2 => idx_swap_ne a m s x hx1 hx2
    by_cases hjs : j = s
    · rw [hjs]
      apply nodeOK_of_min _ _ _ hs
      intro k hk hkc
      rw [hAs]
      have hks : k ≠ s := by have := cg_gt hk; omega
      by_cases hkm : k = m
      · subst hkm
        rw [hAm]
        omega
      · rw [hAx k hkm hks]
        exact P k hk (by omega)
    · by_cases hjm : j = m
      · subst hjm
        apply nodeOK_of_max _ _ _ hmlm
        intro k hk hkc
        have hkgt : m < k := cg_gt hk
        have hkm : k ≠ m := by omega
        have hks : k ≠ s := by omega
        rw [hAm, hAx k hkm hks]
        have h1 := nodeOK_max (H m (inSub_cg hmcg) (by omega)) hmlm k hk hkc
        omega
      · have hnodeOld := H j hj hjs
        intro k hk hkc
        have hkm : k ≠ m := by
          intro he
          subst he
          rcases (cg_char j m).mp hk with ⟨h0, hp⟩ | ⟨h2, hp⟩
          · exact hjs (by rw [← hp, hpm])
          · rw [gparent, hpm] at hp
            have h5 := inSub_le hj
            subst hp
            simp only [parent] at h5 hjs
            omega
        have hks : k ≠ s := by
          have := cg_gt hk
          have := inSub_le hj
          omega
        have e1 : idx (swap a m s) j = idx a j := hAx j hjm hjs
        have e2 : idx (swap a m s) k = idx a k := hAx k hkm hks
        have h1 := hnodeOld k hk hkc
        exact ⟨fun ht => by rw [e1, e2]; exact h1.1 ht,
               fun hf => by rw [e1, e2]; exact h1.2 hf⟩
  | case2 a s r h m hc hlt =>
    intro hn hlen hs H j hj
    obtain ⟨hmr, hmcg, P⟩ := mcg_min_snd a s r h
    rw [sift_down_min, dif_pos h]
    simp only [if_pos hc, if_neg hlt]
    by_cases hjs : j = s
    · rw [hjs]
      apply nodeOK_of_min _ _ _ hs
      intro k hk hkc
      have h3 : idx a m ≤ idx a k := P k hk (by omega)
      have h4 : idx a s ≤ idx a m := Nat.le_of_not_lt hlt
      omega
    · exact H j hj hjs
  | case4 a s r h m hc hlt =>
    intro hn hlen hs H j hj
    obtain ⟨hmr, hmcg, P⟩ := mcg_min_snd a s r h
    rw [sift_down_min, dif_pos h]
    simp only [if_neg hc, if_neg hlt]
    by_cases hjs : j = s
    · rw [hjs]
      apply nodeOK_of_min _ _ _ hs
      intro k hk hkc
      have h3 : idx a m ≤ idx a k := P k hk (by omega)
      have h4 : idx a s ≤ idx a m := Nat.le_of_not_lt hlt
      omega
    · exact H j hj hjs
  | case5 a s r h =>
    intro hn hlen hs H j hj
    rw [sift_down_min, dif_neg h]
    by_cases hjs : j = s
    · rw [hjs]
      intro k hk hkc
      have := cg_ge_left hk
      exact absurd hkc (by omega)
    · exact H j hj hjs
  | case3 a s r h m hc hlt a1 a2 ih =>
    intro hn hlen hs H j hj
    obtain ⟨hmr, hmcg, P⟩ := mcg_min_snd a s r h
    have hgf := gchild_facts s m hmcg hc
    have hppm : parent (parent m) = s := hgf.1
    have hm2 : 2 < m := hgf.2
    have hpm0 : 0 < parent m := by
      simp only [parent]; omega
    have hspm : s < parent m := by
      have := parent_lt (parent m) hpm0
      omega
    have hpmm : parent m < m := parent_lt m (by omega)
    have hsm : s < m := cg_gt hmcg
    have hsr : s < r := by omega
    have hbm : m + 1 < 2 ^ 64 := by
      have hx : (2:Nat) ^ 62 < 2 ^ 64 := by norm_num
      omega
    have hmlm : min_level m = true := by
      have h1 := min_level_gparent_eq m hm2 hbm
      rw [gparent, hppm, hs] at h1
      exact h1.symm
    have hmlp : min_level (parent m) = false := by
      have h1 := min_level_parent_flip m (by omega) hbm
      rw [hmlm] at h1
      simpa using h1
    have hcgp : cg s (parent m) := by
      rcases parent_child (parent m) hpm0 with e | e
      · rw [hppm] at e; exact Or.inl e
      · rw [hppm] at e; exact Or.inr (Or.inl e)
    have hsubm : inSub s m = true := inSub_cg hmcg
    have hsubp : inSub s (parent m) = true := inSub_parent (by omega) hsubm
    have hpm_sub_m : inSub (parent m) m = true := inSub_parent_self m (by omega)
    have ha1s : idx a1 s = idx a m := idx_swap_snd a m s (by omega)
    have ha1m : idx a1 m = idx a s := idx_swap_fst a m s (by omega)
    have ha1x : ∀ x, x ≠ m → x ≠ s → idx a1 x = idx a x :=
      fun x h1 h2 => idx_swap_ne a m s x h1 h2
    have ha1p : idx a1 (parent m) = idx a (parent m) :=
      ha1x (parent m) (by omega) (by omega)
    have hlen1 : a1.length = a.length := swap_length a m s
    have hlen2 : a2.length = a.length := by
      by_cases hp : idx a1 (parent m) < idx a1 m
      · rw [show a2 = swap a1 m (parent m) from dif_pos hp, swap_length, hlen1]
      · rw [show a2 = a1 from dif_neg hp, hlen1]
    have hva2s : idx a2 s = idx a m := by
      by_cases hp : idx a1 (parent m) < idx a1 m
      · rw [show a2 = swap a1 m (parent m) from dif_pos hp,
          idx_swap_ne a1 m (parent m) s (by omega) (by omega), ha1s]
      · rw [show a2 = a1 from dif_neg hp, ha1s]
    have ha2x : ∀ x, x ≠ m → x ≠ parent m → x ≠ s → idx a2 x = idx a x := by
      intro x h1 h2 h3
      by_cases hp : idx a1 (parent m) < idx a1 m
      · rw [show a2 = swap a1 m (parent m) from dif_pos hp,
          idx_swap_ne a1 m (parent m) x h1 h2, ha1x x h1 h3]
      · rw [show a2 = a1 from dif_neg hp, ha1x x h1 h3]
    have hVp : idx a (parent m) ≤ idx a2 (parent m) ∧
        idx a s ≤ idx a2 (parent m) := by
      by_cases hp : idx a1 (parent m) < idx a1 m
      · have e : idx a2 (parent m) = idx a s := by
          rw [show a2 = swap a1 m (parent m) from dif_pos hp,
            idx_swap_snd a1 m (parent m) (by omega), ha1m]
        rw [e]
        rw [ha1p, ha1m] at hp
        exact ⟨Nat.le_of_lt hp, Nat.le_refl _⟩
      · have e : idx a2 (parent m) = idx a (parent m) := by
          rw [show a2 = a1 from dif_neg hp, ha1p]
        rw [e]
        rw [ha1p, ha1m] at hp
        exact ⟨Nat.le_refl _, Nat.le_of_not_lt hp⟩
    have ha2m : idx a m ≤ idx a2 m ∧ idx a2 m ≤ idx a2 (parent m) := by
      by_cases hp : idx a1 (parent m) < idx a1 m
      · have e1 : idx a2 m = idx a (parent m) := by
          rw [show a2 = swap a1 m (parent m) from dif_pos hp,
            idx_swap_fst a1 m (parent m) (by omega), ha1p]
        have e2 : idx a2 (parent m) = idx a s := by
          rw [show a2 = swap a1 m (parent m) from dif_pos hp,
            idx_swap_snd a1 m (parent m) (by omega), ha1m]
        rw [e1, e2]
        rw [ha1p, ha1m] at hp
        exact ⟨P (parent m) hcgp (by omega), Nat.le_of_lt hp⟩
      · have e1 : idx a2 m = idx a s := by
          rw [show a2 = a1 from dif_neg hp, ha1m]
        have e2 : idx a2 (parent m) = idx a (parent m) := by
          rw [show a2 = a1 from dif_neg hp, ha1p]
        rw [e1, e2]
        rw [ha1p, ha1m] at hp
        exact ⟨Nat.le_of_lt hlt, Nat.le_of_not_lt hp⟩
    have Hm_loc : ∀ j2, inSub m j2 = true → nodeOK a (r + 1) j2 := by
      intro j2 hj2
      by_cases he : j2 = m
      · subst he; exact H m hsubm (by omega)
      · exact H j2 (inSub_trans hsubm j2 hj2)
          (by have := inSub_le hj2; omega)
    have Hp_loc : ∀ j2, inSub (parent m) j2 = true → nodeOK a (r + 1) j2 := by
      intro j2 hj2
      exact H j2 (inSub_trans hsubp j2 hj2)
        (by have := inSub_le hj2; omega)
    have hlow : ∀ k2, inSub m k2 = true → k2 < r + 1 → idx a m ≤ idx a k2 :=
      subtree_min_local a (r + 1) m (by omega) hmlm Hm_loc
    have hup : ∀ k2, inSub (parent m) k2 = true → k2 < r + 1 →
        idx a k2 ≤ idx a (parent m) :=
      subtree_max_local a (r + 1) (parent m) (by omega) hmlp Hp_loc
    have hbound2 : ∀ k2, inSub m k2 = true → k2 ≤ r →
        idx a m ≤ idx a2 k2 ∧ idx a2 k2 ≤ idx a2 (parent m) := by
      intro k2 hk2 hk2r
      by_cases he : k2 = m
      · subst he; exact ⟨ha2m.1, ha2m.2⟩
      · have hk2m : m < k2 := by have := inSub_le hk2; omega
        have e1 : idx a2 k2 = idx a k2 :=
          ha2x k2 (by omega) (by omega) (by omega)
        rw [e1]
        constructor
        · exact hlow k2 hk2 (by omega)
        · have h2 : idx a k2 ≤ idx a (parent m) :=
            hup k2 (inSub_trans hpm_sub_m k2 hk2) (by omega)
          have := hVp.1
          omega
    have H2 : ∀ j2, inSub m j2 = true → j2 ≠ m → nodeOK a2 (r + 1) j2 := by
      intro j2 hj2 hj2m
      have hj2gt : m < j2 := by have := inSub_le hj2; omega
      intro k hk hkc
      have hkgt : j2 < k := cg_gt hk
      have e1 : idx a2 j2 = idx a j2 := ha2x j2 (by omega) (by omega) (by omega)
      have e2 : idx a2 k = idx a k := ha2x k (by omega) (by omega) (by omega)
      have h1 := Hm_loc j2 hj2 k hk hkc
      exact ⟨fun ht => by rw [e1, e2]; exact h1.1 ht,
             fun hf => by rw [e1, e2]; exact h1.2 hf⟩
    have IH := ih (by omega) (by omega) hmlm H2
    rw [sift_down_min, dif_pos h]
    simp only [if_neg hc, if_pos hlt]
    show nodeOK (sift_down_min a2 m r) (r + 1) j
    have hframe : ∀ x, inSub m x = false →
        idx (sift_down_min a2 m r) x = idx a2 x :=
      fun x hx => sift_down_min_frame a2 m r x (Or.inl hx)
    have hsource : ∀ x, inSub m x = true → x ≤ r →
        ∃ x2, inSub m x2 = true ∧ x2 ≤ r ∧
          idx (sift_down_min a2 m r) x = idx a2 x2 :=
      sift_down_min_source a2 m r (by omega)
    have hAs : idx (sift_down_min a2 m r) s = idx a m := by
      rw [hframe s (inSub_out (by omega)), hva2s]
    have hAp : idx (sift_down_min a2 m r) (parent m) = idx a2 (parent m) :=
      hframe (parent m) (inSub_out (by omega))
    by_cases hjm : inSub m j = true
    · exact IH j hjm
    · by_cases hjs : j = s
      · rw [hjs]
        apply nodeOK_of_min _ _ _ hs
        intro k hk hkc
        rw [hAs]
        by_cases hkm : inSub m k = true
        · obtain ⟨k2, hk21, hk22, hk23⟩ := hsource k hkm (by omega)
          rw [hk23]
          exact (hbound2 k2 hk21 hk22).1
        · rw [hframe k (bool_false hkm)]
          by_cases hkp : k = parent m
          · subst hkp
            have h5 := P (parent m) hcgp (by omega)
            have := hVp.1
            omega
          · have hks : k ≠ s := by have := cg_gt hk; omega
            have hkm2 : k ≠ m := by
              intro he; rw [he, inSub_self] at hkm; exact hkm rfl
            rw [ha2x k hkm2 hkp hks]
            exact P k hk (by omega)
      · by_cases hjp : j = parent m
        · subst hjp
          apply nodeOK_of_max _ _ _ hmlp
          intro k hk hkc
          rw [hAp]
          by_cases hkm : inSub m k = true
          · obtain ⟨k2, hk21, hk22, hk23⟩ := hsource k hkm (by omega)
            rw [hk23]
            exact (hbound2 k2 hk21 hk22).2
          · rw [hframe k (bool_false hkm)]
            have hkgt : parent m < k := cg_gt hk
            have hkm2 : k ≠ m := by
              intro he; rw [he, inSub_self] at hkm; exact hkm rfl
            rw [ha2x k hkm2 (by omega) (by omega)]
            have h1 := nodeOK_max (Hp_loc (parent m) (inSub_self _)) hmlp
              k hk hkc
            have := hVp.1
            omega
        · have hnodeOld := H j hj hjs
          intro k hk hkc
          have hkj : j < k := cg_gt hk
          have hjgt : s < j := by
            have := inSub_le hj
            omega
          have hjm2 : j ≠ m := by
            intro he; rw [he, inSub_self] at hjm; exact hjm rfl
          have ej : idx (sift_down_min a2 m r) j = idx a j := by
            rw [hframe j (bool_false hjm), ha2x j hjm2 hjp hjs]
          have hknm : inSub m k = false := by
            cases hb : inSub m k with
            | false => rfl
            | true =>
              have hjk : inSub j k = true := inSub_cg hk
              rcases inSub_chain k hjk hb with hh | hh
              · rcases sub_anc hppm hh hj with e | e | e
                · exact absurd e hjs
                · exact absurd e hjp
                · exact absurd e hjm2
              · exact absurd hh hjm
          have hknm2 : k ≠ m := by
            intro he
            rw [he, inSub_self] at hknm
            cases hknm
          have hknp : k ≠ parent m := by
            intro he
            exact cg_ne_parent hppm hj hjs (he ▸ hk)
          have hkns : k ≠ s := by omega
          have ek : idx (sift_down_min a2 m r) k = idx a k := by
            rw [hframe k hknm, ha2x k hknm2 hknp hkns]
          have h1 := hnodeOld k hk hkc
          exact ⟨fun ht => by rw [ej, ek]; exact h1.1 ht,
                 fun hf => by rw [ej, ek]; exact h1.2 hf⟩

end _mmheap

namespace _mmheap

/-- `sift_down_max` at a max-level subtree root re-establishes the local
min-max relations of the whole subtree, provided they already held
everywhere in the subtree below the root. -/
theorem sift_down_max_correct :
    ∀ (a : List Nat) (s r : Nat), r < 2 ^ 62 → r < a.length →
      min_level s = false →
      (∀ j, inSub s j = true → j ≠ s → nodeOK a (r + 1) j) →
      ∀ j, inSub s j = true → nodeOK (sift_down_max a s r) (r + 1) j := by
  intro a s r
  induction a, s, r using sift_down_max.induct with
  | case1 a s r h m hc hlt =>
    intro hn hlen hs H j hj
    obtain ⟨hmr, hmcg, P⟩ := mcg_max_snd a s r h
    have hsm : s < m := cg_gt hmcg
    have hm0 : 0 < m := by omega
    have hsr : s < r := by omega
    have hpm : parent m = s := by
      rcases (child_iff s m).mp hc with e | e
      · rw [e, parent_left]
      · rw [e, parent_right]
    have hbm : m + 1 < 2 ^ 64 := by
      have hx : (2:Nat) ^ 62 < 2 ^ 64 := by norm_num
      omega
    have hmlm : min_level m = true := by
      have h1 := min_level_parent_flip m hm0 hbm
      rw [hpm, hs] at h1
      cases hb : min_level m
      · rw [hb] at h1; cases h1
      · rfl
    rw [sift_down_max, dif_pos h]
    simp only [if_pos hc, if_pos hlt]
    have hAs : idx (swap a m s) s = idx a m := idx_swap_snd a m s (by omega)
    have hAm : idx (swap a m s) m = idx a s := idx_swap_fst a m s (by omega)
    have hAx : ∀ x, x ≠ m → x ≠ s → idx (swap a m s) x = idx a x :=
      fun x hx1 hx2 => idx_swap_ne a m s x hx1 hx2
    by_cases hjs : j = s
    · rw [hjs]
      apply nodeOK_of_max _ _ _ hs
      intro k hk hkc
      rw [hAs]
      have hks : k ≠ s := by have := cg_gt hk; omega
      by_cases hkm : k = m
      · subst hkm
        rw [hAm]
        omega
      · rw [hAx k hkm hks]
        exact P k hk (by omega)
    · by_cases hjm : j = m
      · subst hjm
        apply nodeOK_of_min _ _ _ hmlm
        intro k hk hkc
        have hkgt : m < k := cg_gt hk
        have hkm : k ≠ m := by omega
        have hks : k ≠ s := by omega
        rw [hAm, hAx k hkm hks]
        have h1 := nodeOK_min (H m (inSub_cg hmcg) (by omega)) hmlm k hk hkc
        omega
      · have hnodeOld := H j hj hjs
        intro k hk hkc
        have hkm : k ≠ m := by
          intro he
          subst he
          rcases (cg_char j m).mp hk with ⟨h0, hp⟩ | ⟨h2, hp⟩
          · exact hjs (by rw [← hp, hpm])
          · rw [gparent, hpm] at hp
            have h5 := inSub_le hj
            subst hp
            simp only [parent] at h5 hjs
            omega
        have hks : k ≠ s := by
          have := cg_gt hk
          have := inSub_le hj
          omega
        have e1 : idx (swap a m s) j = idx a j := hAx j hjm hjs
        have e2 : idx (swap a m s) k = idx a k := hAx k hkm hks
        have h1 := hnodeOld k hk hkc
        exact ⟨fun ht => by rw [e1, e2]; exact h1.1 ht,
               fun hf => by rw [e1, e2]; exact h1.2 hf⟩
  | case2 a s r h m hc hlt =>
    intro hn hlen hs H j hj
    obtain ⟨hmr, hmcg, P⟩ := mcg_max_snd a s r h
    rw [sift_down_max, dif_pos h]
    simp only [if_pos hc, if_neg hlt]
    by_cases hjs : j = s
    · rw [hjs]
      apply nodeOK_of_max _ _ _ hs
      intro k hk hkc
      have h3 : idx a k ≤ idx a m := P k hk (by omega)
      have h4 : idx a m ≤ idx a s := Nat.le_of_not_lt hlt
      omega
    · exact H j hj hjs
  | case4 a s r h m hc hlt =>
    intro hn hlen hs H j hj
    obtain ⟨hmr, hmcg, P⟩ := mcg_max_snd a s r h
    rw [sift_down_max, dif_pos h]
    simp only [if_neg hc, if_neg hlt]
    by_cases hjs : j = s
    · rw [hjs]
      apply nodeOK_of_max _ _ _ hs
      intro k hk hkc
      have h3 : idx a k ≤ idx a m := P k hk (by omega)
      have h4 : idx a m ≤ idx a s := Nat.le_of_not_lt hlt
      omega
    · exact H j hj hjs
  | case5 a s r h =>
    intro hn hlen hs H j hj
    rw [sift_down_max, dif_neg h]
    by_cases hjs : j = s
    · rw [hjs]
      intro k hk hkc
      have := cg_ge_left hk
      exact absurd hkc (by omega)
    · exact H j hj hjs
  | case3 a s r h m hc hlt a1 a2 ih =>
    intro hn hlen hs H j hj
    obtain ⟨hmr, hmcg, P⟩ := mcg_max_snd a s r h
    have hgf := gchild_facts s m hmcg hc
    have hppm : parent (parent m) = s := hgf.1
    have hm2 : 2 < m := hgf.2
    have hpm0 : 0 < parent m := by
      simp only [parent]; omega
    have hspm : s < parent m := by
      have := parent_lt (parent m) hpm0
      omega
    have hpmm : parent m < m := parent_lt m (by omega)
    have hsm : s < m := cg_gt hmcg
    have hsr : s < r := by omega
    have hbm : m + 1 < 2 ^ 64 := by
      have hx : (2:Nat) ^ 62 < 2 ^ 64 := by norm_num
      omega
    have hmlm : min_level m = false := by
      have h1 := min_level_gparent_eq m hm2 hbm
      rw [gparent, hppm, hs] at h1
      exact h1.symm
    have hmlp : min_level (parent m) = true := by
      have h1 := min_level_parent_flip m (by omega) hbm
      rw [hmlm] at h1
      simpa using h1
    have hcgp : cg s (parent m) := by
      rcases parent_child (parent m) hpm0 with e | e
      · rw [hppm] at e; exact Or.inl e
      · rw [hppm] at e; exact Or.inr (Or.inl e)
    have hsubm : inSub s m = true := inSub_cg hmcg
    have hsubp : inSub s (parent m) = true := inSub_parent (by omega) hsubm
    have hpm_sub_m : inSub (parent m) m = true := inSub_parent_self m (by omega)
    have ha1s : idx a1 s = idx a m := idx_swap_snd a m s (by omega)
    have ha1m : idx a1 m = idx a s := idx_swap_fst a m s (by omega)
    have ha1x : ∀ x, x ≠ m → x ≠ s → idx a1 x = idx a x :=
      fun x h1 h2 => idx_swap_ne a m s x h1 h2
    have ha1p : idx a1 (parent m) = idx a (parent m) :=
      ha1x (parent m) (by omega) (by omega)
    have hlen1 : a1.length = a.length := swap_length a m s
    have hlen2 : a2.length = a.length := by
      by_cases hp : idx a1 m < idx a1 (parent m)
      · rw [show a2 = swap a1 m (parent m) from dif_pos hp, swap_length, hlen1]
      · rw [show a2 = a1 from dif_neg hp, hlen1]
    have hva2s : idx a2 s = idx a m := by
      by_cases hp : idx a1 m < idx a1 (parent m)
      · rw [show a2 = swap a1 m (parent m) from dif_pos hp,
          idx_swap_ne a1 m (parent m) s (by omega) (by omega), ha1s]
      · rw [show a2 = a1 from dif_neg hp, ha1s]
    have ha2x : ∀ x, x ≠ m → x ≠ parent m → x ≠ s → idx a2 x = idx a x := by
      intro x h1 h2 h3
      by_cases hp : idx a1 m < idx a1 (parent m)
      · rw [show a2 = swap a1 m (parent m) from dif_pos hp,
          idx_swap_ne a1 m (parent m) x h1 h2, ha1x x h1 h3]
      · rw [show a2 = a1 from dif_neg hp, ha1x x h1 h3]
    have hVp : idx a2 (parent m) ≤ idx a (parent m) ∧
        idx a2 (parent m) ≤ idx a s := by
      by_cases hp : idx a1 m < idx a1 (parent m)
      · have e : idx a2 (parent m) = idx a s := by
          rw [show a2 = swap a1 m (parent m) from dif_pos hp,
            idx_swap_snd a1 m (parent m) (by omega), ha1m]
        rw [e]
        rw [ha1p, ha1m] at hp
        exact ⟨Nat.le_of_lt hp, Nat.le_refl _⟩
      · have e : idx a2 (parent m) = idx a (parent m) := by
          rw [show a2 = a1 from dif_neg hp, ha1p]
        rw [e]
        rw [ha1p, ha1m] at hp
        exact ⟨Nat.le_refl _, Nat.le_of_not_lt hp⟩
    have ha2m : idx a2 m ≤ idx a m ∧ idx a2 (parent m) ≤ idx a2 m := by
      by_cases hp : idx a1 m < idx a1 (parent m)
      · have e1 : idx a2 m = idx a (parent m) := by
          rw [show a2 = swap a1 m (parent m) from dif_pos hp,
            idx_swap_fst a1 m (parent m) (by omega), ha1p]
        have e2 : idx a2 (parent m) = idx a s := by
          rw [show a2 = swap a1 m (parent m) from dif_pos hp,
            idx_swap_snd a1 m (parent m) (by omega), ha1m]
        rw [e1, e2]
        rw [ha1p, ha1m] at hp
        exact ⟨P (parent m) hcgp (by omega), Nat.le_of_lt hp⟩
      · have e1 : idx a2 m = idx a s := by
          rw [show a2 = a1 from dif_neg hp, ha1m]
        have e2 : idx a2 (parent m) = idx a (parent m) := by
          rw [show a2 = a1 from dif_neg hp, ha1p]
        rw [e1, e2]
        rw [ha1p, ha1m] at hp
        exact ⟨Nat.le_of_lt hlt, Nat.le_of_not_lt hp⟩
    have Hm_loc : ∀ j2, inSub m j2 = true → nodeOK a (r + 1) j2 := by
      intro j2 hj2
      by_cases he : j2 = m
      · subst he; exact H m hsubm (by omega)
      · exact H j2 (inSub_trans hsubm j2 hj2)
          (by have := inSub_le hj2; omega)
    have Hp_loc : ∀ j2, inSub (parent m) j2 = true → nodeOK a (r + 1) j2 := by
      intro j2 hj2
      exact H j2 (inSub_trans hsubp j2 hj2)
        (by have := inSub_le hj2; omega)
    have hup : ∀ k2, inSub m k2 = true → k2 < r + 1 → idx a k2 ≤ idx a m :=
      subtree_max_local a (r + 1) m (by omega) hmlm Hm_loc
    have hlow : ∀ k2, inSub (parent m) k2 = true → k2 < r + 1 →
        idx a (parent m) ≤ idx a k2 :=
      subtree_min_local a (r + 1) (parent m) (by omega) hmlp Hp_loc
    have hbound2 : ∀ k2, inSub m k2 = true → k2 ≤ r →
        idx a2 k2 ≤ idx a m ∧ idx a2 (parent m) ≤ idx a2 k2 := by
      intro k2 hk2 hk2r
      by_cases he : k2 = m
      · subst he; exact ⟨ha2m.1, ha2m.2⟩
      · have hk2m : m < k2 := by have := inSub_le hk2; omega
        have e1 : idx a2 k2 = idx a k2 :=
          ha2x k2 (by omega) (by omega) (by omega)
        rw [e1]
        constructor
        · exact hup k2 hk2 (by omega)
        · have h2 : idx a (parent m) ≤ idx a k2 :=
            hlow k2 (inSub_trans hpm_sub_m k2 hk2) (by omega)
          have := hVp.1
          omega
    have H2 : ∀ j2, inSub m j2 = true → j2 ≠ m → nodeOK a2 (r + 1) j2 := by
      intro j2 hj2 hj2m
      have hj2gt : m < j2 := by have := inSub_le hj2; omega
      intro k hk hkc
      have hkgt : j2 < k := cg_gt hk
      have e1 : idx a2 j2 = idx a j2 := ha2x j2 (by omega) (by omega) (by omega)
      have e2 : idx a2 k = idx a k := ha2x k (by omega) (by omega) (by omega)
      have h1 := Hm_loc j2 hj2 k hk hkc
      exact ⟨fun ht => by rw [e1, e2]; exact h1.1 ht,
             fun hf => by rw [e1, e2]; exact h1.2 hf⟩
    have IH := ih (by omega) (by omega) hmlm H2
    rw [sift_down_max, dif_pos h]
    simp only [if_neg hc, if_pos hlt]
    show nodeOK (sift_down_max a2 m r) (r + 1) j
    have hframe : ∀ x, inSub m x = false →
        idx (sift_down_max a2 m r) x = idx a2 x :=
      fun x hx => sift_down_max_frame a2 m r x (Or.inl hx)
    have hsource : ∀ x, inSub m x = true → x ≤ r →
        ∃ x2, inSub m x2 = true ∧ x2 ≤ r ∧
          idx (sift_down_max a2 m r) x = idx a2 x2 :=
      sift_down_max_source a2 m r (by omega)
    have hAs : idx (sift_down_max a2 m r) s = idx a m := by
      rw [hframe s (inSub_out (by omega)), hva2s]
    have hAp : idx (sift_down_max a2 m r) (parent m) = idx a2 (parent m) :=
      hframe (parent m) (inSub_out (by omega))
    by_cases hjm : inSub m j = true
    · exact IH j hjm
    · by_cases hjs : j = s
      · rw [hjs]
        apply nodeOK_of_max _ _ _ hs
        intro k hk hkc
        rw [hAs]
        by_cases hkm : inSub m k = true
        · obtain ⟨k2, hk21, hk22, hk23⟩ := hsource k hkm (by omega)
          rw [hk23]
          exact (hbound2 k2 hk21 hk22).1
        · rw [hframe k (bool_false hkm)]
          by_cases hkp : k = parent m
          · subst hkp
            have h5 : idx a (parent m) ≤ idx a m := P (parent m) hcgp (by omega)
            have := hVp.1
            omega
          · have hks : k ≠ s := by have := cg_gt hk; omega
            have hkm2 : k ≠ m := by
              intro he; rw [he, inSub_self] at hkm; exact hkm rfl
            rw [ha2x k hkm2 hkp hks]
            exact P k hk (by omega)
      · by_cases hjp : j = parent m
        · subst hjp
          apply nodeOK_of_min _ _ _ hmlp
          intro k hk hkc
          rw [hAp]
          by_cases hkm : inSub m k = true
          · obtain ⟨k2, hk21, hk22, hk23⟩ := hsource k hkm (by omega)
            rw [hk23]
            exact (hbound2 k2 hk21 hk22).2
          · rw [hframe k (bool_false hkm)]
            have hkgt : parent m < k := cg_gt hk
            have hkm2 : k ≠ m := by
              intro he; rw [he, inSub_self] at hkm; exact hkm rfl
            rw [ha2x k hkm2 (by omega) (by omega)]
            have h1 := nodeOK_min (Hp_loc (parent m) (inSub_self _)) hmlp
              k hk hkc
            have := hVp.1
            omega
        · have hnodeOld := H j hj hjs
          intro k hk hkc
          have hkj : j < k := cg_gt hk
          have hjgt : s < j := by
            have := inSub_le hj
            omega
          have hjm2 : j ≠ m := by
            intro he; rw [he, inSub_self] at hjm; exact hjm rfl
          have ej : idx (sift_down_max a2 m r) j = idx a j := by
            rw [hframe j (bool_false hjm), ha2x j hjm2 hjp hjs]
          have hknm : inSub m k = false := by
            cases hb : inSub m k with
            | false => rfl
            | true =>
              have hjk : inSub j k = true := inSub_cg hk
              rcases inSub_chain k hjk hb with hh | hh
              · rcases sub_anc hppm hh hj with e | e | e
                · exact absurd e hjs
                · exact absurd e hjp
                · exact absurd e hjm2
              · exact absurd hh hjm
          have hknm2 : k ≠ m := by
            intro he
            rw [he, inSub_self] at hknm
            cases hknm
          have hknp : k ≠ parent m := by
            intro he
            exact cg_ne_parent hppm hj hjs (he ▸ hk)
          have hkns : k ≠ s := by omega
          have ek : idx (sift_down_max a2 m r) k = idx a k := by
            rw [hframe k hknm, ha2x k hknm2 hknp hkns]
          have h1 := hnodeOld k hk hkc
          exact ⟨fun ht => by rw [ej, ek]; exact h1.1 ht,
                 fun hf => by rw [ej, ek]; exact h1.2 hf⟩

/-- `sift_down` dispatcher version of the correctness lemma. -/
theorem sift_down_correct (a : List Nat) (s r : Nat)
    (hn : r < 2 ^ 62) (hlen : r < a.length)
    (H : ∀ j, inSub s j = true → j ≠ s → nodeOK a (r + 1) j) :
    ∀ j, inSub s j = true → nodeOK (sift_down a s r) (r + 1) j := by
  rw [sift_down]
  cases hs : min_level s with
  | true =>
    rw [if_pos rfl]
    exact sift_down_min_correct a s r hn hlen hs H
  | false =>
    rw [if_neg (by simp)]
    exact sift_down_max_correct a s r hn hlen hs H

end _mmheap

namespace mmheap

open _mmheap

/-- one bottom-up pass of `make_heap` from index `c` down to `0`
establishes the invariant everywhere, given it already holds strictly
above `c`. -/
theorem make_heap_loop_correct :
    ∀ (a : List Nat) (size c : Nat), 0 < size → size ≤ 2 ^ 62 →
      size ≤ a.length →
      (∀ j, c < j → nodeOK a size j) →
      ∀ j, nodeOK (make_heap_loop a size c) size j := by
  intro a size c
  induction a, size, c using make_heap_loop.induct with
  | case1 a size =>
    intro hpos hbound hlen P j
    rw [make_heap_loop]
    simp only [if_pos rfl]
    show nodeOK (sift_down a 0 (size - 1)) size j
    have hsz : size - 1 + 1 = size := by omega
    have hstep := sift_down_correct a 0 (size - 1) (by omega) (by omega)
      (fun j2 hj2 hne => hsz.symm ▸ P j2 (by omega))
    have h2 := hstep j (inSub_zero j)
    have h3 : size - 1 + 1 = size := by omega
    rw [h3] at h2
    exact h2
  | case2 a size c a2 hc ih =>
    intro hpos hbound hlen P j
    rw [make_heap_loop]
    simp only [if_neg hc]
    show nodeOK (make_heap_loop (sift_down a c (size - 1)) size (c - 1))
      size j
    apply ih hpos hbound
    · show size ≤ (sift_down a c (size - 1)).length
      rw [sift_down_length]; exact hlen
    · intro j2 hj2
      show nodeOK (sift_down a c (size - 1)) size j2
      have hsz : size - 1 + 1 = size := by omega
      by_cases hsub : inSub c j2 = true
      · have hstep := sift_down_correct a c (size - 1) (by omega) (by omega)
          (fun j3 hj3 hne => by
            have := inSub_le hj3
            exact hsz.symm ▸ P j3 (by omega))
        have h2 := hstep j2 hsub
        rw [hsz] at h2
        exact h2
      · have hcj : c < j2 := by
          have h6 : c ≤ j2 := by omega
          rcases Nat.eq_or_lt_of_le h6 with h5 | h5
          · exact absurd (by rw [← h5]; exact inSub_self c) hsub
          · exact h5
        have hold := P j2 hcj
        intro k hk hkc
        have hkj : j2 < k := cg_gt hk
        have hjf : inSub c j2 = false := bool_false hsub
        have hkf : inSub c k = false := by
          cases hb : inSub c k with
          | false => rfl
          | true =>
            rcases inSub_chain k hb (inSub_cg hk) with hh | hh
            · exact absurd hh hsub
            · have := inSub_le hh
              omega
        have e1 : idx (sift_down a c (size - 1)) j2 = idx a j2 :=
          sift_down_frame a c (size - 1) j2 (Or.inl hjf)
        have e2 : idx (sift_down a c (size - 1)) k = idx a k :=
          sift_down_frame a c (size - 1) k (Or.inl hkf)
        have h1 := hold k hk hkc
        exact ⟨fun ht => by rw [e1, e2]; exact h1.1 ht,
               fun hf => by rw [e1, e2]; exact h1.2 hf⟩

/-- `make_heap` establishes the min-max invariant on any input. -/
theorem make_heap_correct (a : List Nat) (size : Nat)
    (hbound : size ≤ 2 ^ 62) (hlen : size ≤ a.length) :
    IsMMHeap (make_heap a size) size := by
  rw [make_heap]
  by_cases h : size > 1
  · rw [if_pos h]
    apply make_heap_loop_correct a size (parent (size - 1)) (by omega) hbound
      hlen
    intro j hj k hk hkc
    have h3 : 2 * j + 1 ≤ k := cg_ge_left hk
    simp only [parent] at hj
    exact absurd hkc (by omega)
  · rw [if_neg h]
    intro j k hk hkc
    have h3 : 2 * j + 1 ≤ k := cg_ge_left hk
    exact absurd hkc (by omega)

end mmheap

namespace _mmheap

theorem inSub_proper {s k : Nat} (h : inSub s k = true) (hne : k ≠ s) :
    2 * s + 1 ≤ k := by
  have h1 := inSub_parent hne h
  have h2 := inSub_le h1
  have h3 := inSub_le h
  simp only [parent] at h2
  omega

/-- `bubble_up_min` run at a min-level index whose only possibly broken
relation is the one with its grandparent, and whose grandparent value
bounds the strict subtree below the index, restores the invariant
everywhere. -/
theorem bubble_up_min_correct :
    ∀ (a : List Nat) (q : Nat), ∀ n : Nat, n ≤ 2 ^ 62 → q < n →
      n ≤ a.length → min_level q = true →
      (∀ j k, cg j k → k < n → ¬(j = gparent q ∧ k = q) →
        (min_level j = true → idx a j ≤ idx a k) ∧
        (min_level j = false → idx a k ≤ idx a j)) →
      (has_gparent q = true → ∀ k, inSub q k = true → k ≠ q → k < n →
        idx a (gparent q) ≤ idx a k) →
      ∀ j, nodeOK (bubble_up_min a q) n j := by
  intro a q
  induction a, q using bubble_up_min.induct with
  | case2 a q h =>
    intro n hn hqn hlen hml H H3 j
    rw [bubble_up_min, dif_neg h]
    intro k hk hkc
    by_cases hex : j = gparent q ∧ k = q
    · obtain ⟨he1, he2⟩ := hex
      rw [he1, he2] at hk ⊢
      have hq1 : gparent q < q := cg_gt hk
      have hq3 : 2 < q := by
        rcases Nat.lt_or_ge 2 q with h1 | h1
        · exact h1
        · exfalso
          have h2 : q = 1 ∨ q = 2 := by omega
          rcases h2 with h2 | h2 <;> rw [h2] at hml
          · exact absurd hml (by decide)
          · exact absurd hml (by decide)
      have hgp : has_gparent q = true := by simp [has_gparent]; omega
      have hb : q + 1 < 2 ^ 64 := by
        have hx : (2:Nat) ^ 62 < 2 ^ 64 := by norm_num
        omega
      have hgml : min_level (gparent q) = true := by
        rw [min_level_gparent_eq q hq3 hb, hml]
      have hnlt : ¬ idx a q < idx a (gparent q) := fun hlt => h ⟨hgp, hlt⟩
      exact ⟨fun _ => Nat.le_of_not_lt hnlt,
             fun hf => absurd hf (by rw [hgml]; simp)⟩
    · exact H j k hk hkc hex
  | case1 a q h ih =>
    intro n hn hqn hlen hml H H3 j
    rw [bubble_up_min, dif_pos h]
    have hq3 : 2 < q := by
      have h1 := h.1
      simp [has_gparent] at h1
      exact h1
    have hb : q + 1 < 2 ^ 64 := by
      have hx : (2:Nat) ^ 62 < 2 ^ 64 := by norm_num
      omega
    have hgq : gparent q < q := gparent_lt q (by omega)
    have hpq_lt : parent q < q := parent_lt q (by omega)
    have hp0 : 0 < parent q := by simp only [parent]; omega
    have hgp_lt : gparent q < parent q := parent_lt (parent q) hp0
    have hml_p : min_level (parent q) = false := by
      rw [min_level_parent_flip q (by omega) hb, hml]; rfl
    have hgml : min_level (gparent q) = true := by
      rw [min_level_gparent_eq q hq3 hb, hml]
    have e_q : idx (swap a q (gparent q)) q = idx a (gparent q) :=
      idx_swap_fst a q (gparent q) (by omega)
    have e_g : idx (swap a q (gparent q)) (gparent q) = idx a q :=
      idx_swap_snd a q (gparent q) (by omega)
    have e_x : ∀ x, x ≠ q → x ≠ gparent q →
        idx (swap a q (gparent q)) x = idx a x :=
      fun x h1 h2 => idx_swap_ne a q (gparent q) x h1 h2
    have hvq : idx a q < idx a (gparent q) := h.2
    have hcg_gp : cg (gparent q) (parent q) :=
      (cg_char _ _).mpr (Or.inl ⟨hp0, rfl⟩)
    have sm := subtree_min_except a n (gparent q) q hn hgml
      (fun j2 k2 hj2 hk2 hkc2 hex2 => H j2 k2 hk2 hkc2 hex2)
    have H2 : ∀ j2 k2, cg j2 k2 → k2 < n →
        ¬(j2 = gparent (gparent q) ∧ k2 = gparent q) →
        (min_level j2 = true →
          idx (swap a q (gparent q)) j2 ≤ idx (swap a q (gparent q)) k2) ∧
        (min_level j2 = false →
          idx (swap a q (gparent q)) k2 ≤ idx (swap a q (gparent q)) j2) := by
      intro j2 k2 hk2 hkc2 hex2
      by_cases hkq : k2 = q
      · rw [hkq] at hk2 ⊢
        rcases (cg_char j2 q).mp hk2 with ⟨h0, hp⟩ | ⟨h2, hp⟩
        · subst hp
          constructor
          · intro ht; rw [hml_p] at ht; cases ht
          · intro _
            rw [e_q, e_x (parent q) (by omega) (by omega)]
            have h5 := H (gparent q) (parent q) hcg_gp (by omega)
              (fun hx => absurd hx.2 (by omega))
            exact h5.1 hgml
        · subst hp
          constructor
          · intro _
            rw [e_q, e_g]
            exact Nat.le_of_lt hvq
          · intro hf; rw [hgml] at hf; cases hf
      · by_cases hkg : k2 = gparent q
        · subst hkg
          rcases (cg_char j2 (gparent q)).mp hk2 with ⟨h0, hp⟩ | ⟨h2, hp⟩
          · subst hp
            have hpg_lt : parent (gparent q) < gparent q := parent_lt _ h0
            have hpgml : min_level (parent (gparent q)) = false := by
              rw [min_level_parent_flip (gparent q) h0 (by omega), hgml]; rfl
            constructor
            · intro ht; rw [hpgml] at ht; cases ht
            · intro _
              rw [e_g, e_x (parent (gparent q)) (by omega) (by omega)]
              have hpair : cg (parent (gparent q)) (gparent q) :=
                (cg_char _ _).mpr (Or.inl ⟨h0, rfl⟩)
              have h5 := H (parent (gparent q)) (gparent q) hpair (by omega)
                (fun hx => absurd hx.2 (by omega))
              have h6 := h5.2 hpgml
              omega
          · exact absurd ⟨hp.symm, rfl⟩ hex2
        · by_cases hjq : j2 = q
          · rw [hjq] at hk2 ⊢
            have hkin : inSub q k2 = true := inSub_cg hk2
            have hkgt : q < k2 := cg_gt hk2
            constructor
            · intro _
              rw [e_q, e_x k2 (by omega) (by omega)]
              exact H3 h.1 k2 hkin (by omega) hkc2
            · intro hf; rw [hml] at hf; cases hf
          · by_cases hjg : j2 = gparent q
            · subst hjg
              have hkgt : gparent q < k2 := cg_gt hk2
              constructor
              · intro _
                rw [e_g, e_x k2 hkq hkg]
                have h5 := H (gparent q) k2 hk2 hkc2
                  (fun hx => absurd hx.2 hkq)
                have h6 := h5.1 hgml
                omega
              · intro hf; rw [hgml] at hf; cases hf
            · have e1 := e_x j2 hjq hjg
              have e2 := e_x k2 hkq hkg
              have h5 := H j2 k2 hk2 hkc2 (fun hx => absurd hx.2 hkq)
              exact ⟨fun ht => by rw [e1, e2]; exact h5.1 ht,
                     fun hf => by rw [e1, e2]; exact h5.2 hf⟩
    have H3n : has_gparent (gparent q) = true →
        ∀ k2, inSub (gparent q) k2 = true → k2 ≠ gparent q → k2 < n →
          idx (swap a q (gparent q)) (gparent (gparent q)) ≤
          idx (swap a q (gparent q)) k2 := by
      intro hgg k2 hk2 hkne hkn2
      have hgg2 : 2 < gparent q := by
        simp [has_gparent] at hgg
        exact hgg
      have hggml : min_level (gparent (gparent q)) = true := by
        rw [min_level_gparent_eq (gparent q) hgg2 (by omega), hgml]
      have hgg_lt : gparent (gparent q) < gparent q :=
        gparent_lt (gparent q) (by omega)
      have hpairgg : cg (gparent (gparent q)) (gparent q) :=
        (cg_char _ _).mpr (Or.inr ⟨hgg2, rfl⟩)
      have hvgg : idx a (gparent (gparent q)) ≤ idx a (gparent q) :=
        (H _ _ hpairgg (by omega) (fun hx => absurd hx.2 (by omega))).1 hggml
      have e_gg : idx (swap a q (gparent q)) (gparent (gparent q)) =
          idx a (gparent (gparent q)) := e_x _ (by omega) (by omega)
      rw [e_gg]
      by_cases hk2q : k2 = q
      · rw [hk2q, e_q]
        exact hvgg
      · rw [e_x k2 hk2q hkne]
        by_cases hk2sub : inSub q k2 = true
        · have h5 := H3 h.1 k2 hk2sub hk2q hkn2
          omega
        · have h5 := sm k2 hk2 hkn2 (bool_false hk2sub)
          omega
    exact ih n hn (by omega) (by rw [swap_length]; exact hlen) hgml H2 H3n j

end _mmheap

namespace _mmheap

/-- mirror of `bubble_up_min_correct` for `bubble_up_max`. -/
theorem bubble_up_max_correct :
    ∀ (a : List Nat) (q : Nat), ∀ n : Nat, n ≤ 2 ^ 62 → q < n →
      n ≤ a.length → min_level q = false →
      (∀ j k, cg j k → k < n →
        ¬(has_gparent q = true ∧ j = gparent q ∧ k = q) →
        (min_level j = true → idx a j ≤ idx a k) ∧
        (min_level j = false → idx a k ≤ idx a j)) →
      (has_gparent q = true → ∀ k, inSub q k = true → k ≠ q → k < n →
        idx a k ≤ idx a (gparent q)) →
      ∀ j, nodeOK (bubble_up_max a q) n j := by
  intro a q
  induction a, q using bubble_up_max.induct with
  | case2 a q h =>
    intro n hn hqn hlen hml H H3 j
    rw [bubble_up_max, dif_neg h]
    intro k hk hkc
    by_cases hex : j = gparent q ∧ k = q
    · by_cases hgp : has_gparent q = true
      · obtain ⟨he1, he2⟩ := hex
        rw [he1, he2] at hk ⊢
        have hq3 : 2 < q := by
          simp [has_gparent] at hgp
          exact hgp
        have hb : q + 1 < 2 ^ 64 := by
          have hx : (2:Nat) ^ 62 < 2 ^ 64 := by norm_num
          omega
        have hgml : min_level (gparent q) = false := by
          rw [min_level_gparent_eq q hq3 hb, hml]
        have hnlt : ¬ idx a (gparent q) < idx a q := fun hlt => h ⟨hgp, hlt⟩
        exact ⟨fun ht => absurd ht (by rw [hgml]; simp),
               fun _ => Nat.le_of_not_lt hnlt⟩
      · exact H j k hk hkc (fun hx => absurd hx.1 hgp)
    · exact H j k hk hkc (fun hx => hex ⟨hx.2.1, hx.2.2⟩)
  | case1 a q h ih =>
    intro n hn hqn hlen hml H H3 j
    rw [bubble_up_max, dif_pos h]
    have hq3 : 2 < q := by
      have h1 := h.1
      simp [has_gparent] at h1
      exact h1
    have hb : q + 1 < 2 ^ 64 := by
      have hx : (2:Nat) ^ 62 < 2 ^ 64 := by norm_num
      omega
    have hgq : gparent q < q := gparent_lt q (by omega)
    have hpq_lt : parent q < q := parent_lt q (by omega)
    have hp0 : 0 < parent q := by simp only [parent]; omega
    have hgp_lt : gparent q < parent q := parent_lt (parent q) hp0
    have hml_p : min_level (parent q) = true := by
      rw [min_level_parent_flip q (by omega) hb, hml]; rfl
    have hgml : min_level (gparent q) = false := by
      rw [min_level_gparent_eq q hq3 hb, hml]
    have e_q : idx (swap a q (gparent q)) q = idx a (gparent q) :=
      idx_swap_fst a q (gparent q) (by omega)
    have e_g : idx (swap a q (gparent q)) (gparent q) = idx a q :=
      idx_swap_snd a q (gparent q) (by omega)
    have e_x : ∀ x, x ≠ q → x ≠ gparent q →
        idx (swap a q (gparent q)) x = idx a x :=
      fun x h1 h2 => idx_swap_ne a q (gparent q) x h1 h2
    have hvq : idx a (gparent q) < idx a q := h.2
    have hcg_gp : cg (gparent q) (parent q) :=
      (cg_char _ _).mpr (Or.inl ⟨hp0, rfl⟩)
    have sm := subtree_max_except a n (gparent q) q hn hgml
      (fun j2 k2 hj2 hk2 hkc2 hex2 => H j2 k2 hk2 hkc2
        (fun hx => hex2 ⟨hx.2.1, hx.2.2⟩))
    have H2 : ∀ j2 k2, cg j2 k2 → k2 < n →
        ¬(has_gparent (gparent q) = true ∧
          j2 = gparent (gparent q) ∧ k2 = gparent q) →
        (min_level j2 = true →
          idx (swap a q (gparent q)) j2 ≤ idx (swap a q (gparent q)) k2) ∧
        (min_level j2 = false →
          idx (swap a q (gparent q)) k2 ≤ idx (swap a q (gparent q)) j2) := by
      intro j2 k2 hk2 hkc2 hex2
      by_cases hkq : k2 = q
      · rw [hkq] at hk2 ⊢
        rcases (cg_char j2 q).mp hk2 with ⟨h0, hp⟩ | ⟨h2, hp⟩
        · subst hp
          constructor
          · intro _
            rw [e_q, e_x (parent q) (by omega) (by omega)]
            have h5 := H (gparent q) (parent q) hcg_gp (by omega)
              (fun hx => absurd hx.2.2 (by omega))
            exact h5.2 hgml
          · intro hf; rw [hml_p] at hf; cases hf
        · subst hp
          constructor
          · intro hf; rw [hgml] at hf; cases hf
          · intro _
            rw [e_q, e_g]
            exact Nat.le_of_lt hvq
      · by_cases hkg : k2 = gparent q
        · subst hkg
          rcases (cg_char j2 (gparent q)).mp hk2 with ⟨h0, hp⟩ | ⟨h2, hp⟩
          · subst hp
            have hpg_lt : parent (gparent q) < gparent q := parent_lt _ h0
            have hpgml : min_level (parent (gparent q)) = true := by
              rw [min_level_parent_flip (gparent q) h0 (by omega), hgml]; rfl
            constructor
            · intro _
              rw [e_g, e_x (parent (gparent q)) (by omega) (by omega)]
              have hpair : cg (parent (gparent q)) (gparent q) :=
                (cg_char _ _).mpr (Or.inl ⟨h0, rfl⟩)
              have h5 := H (parent (gparent q)) (gparent q) hpair (by omega)
                (fun hx => absurd hx.2.2 (by omega))
              have h6 := h5.1 hpgml
              omega
            · intro hf; rw [hpgml] at hf; cases hf
          · refine absurd ⟨?_, hp.symm, rfl⟩ hex2
            simp [has_gparent]
            omega
        · by_cases hjq : j2 = q
          · rw [hjq] at hk2 ⊢
            have hkin : inSub q k2 = true := inSub_cg hk2
            have hkgt : q < k2 := cg_gt hk2
            constructor
            · intro ht; rw [hml] at ht; cases ht
            · intro _
              rw [e_q, e_x k2 (by omega) (by omega)]
              exact H3 h.1 k2 hkin (by omega) hkc2
          · by_cases hjg : j2 = gparent q
            · subst hjg
              have hkgt : gparent q < k2 := cg_gt hk2
              constructor
              · intro ht; rw [hgml] at ht; cases ht
              · intro _
                rw [e_g, e_x k2 hkq hkg]
                have h5 := H (gparent q) k2 hk2 hkc2
                  (fun hx => absurd hx.2.2 hkq)
                have h6 := h5.2 hgml
                omega
            · have e1 := e_x j2 hjq hjg
              have e2 := e_x k2 hkq hkg
              have h5 := H j2 k2 hk2 hkc2 (fun hx => absurd hx.2.2 hkq)
              exact ⟨fun ht => by rw [e1, e2]; exact h5.1 ht,
                     fun hf => by rw [e1, e2]; exact h5.2 hf⟩
    have H3n : has_gparent (gparent q) = true →
        ∀ k2, inSub (gparent q) k2 = true → k2 ≠ gparent q → k2 < n →
          idx (swap a q (gparent q)) k2 ≤
          idx (swap a q (gparent q)) (gparent (gparent q)) := by
      intro hgg k2 hk2 hkne hkn2
      have hgg2 : 2 < gparent q := by
        simp [has_gparent] at hgg
        exact hgg
      have hggml : min_level (gparent (gparent q)) = false := by
        rw [min_level_gparent_eq (gparent q) hgg2 (by omega), hgml]
      have hgg_lt : gparent (gparent q) < gparent q :=
        gparent_lt (gparent q) (by omega)
      have hpairgg : cg (gparent (gparent q)) (gparent q) :=
        (cg_char _ _).mpr (Or.inr ⟨hgg2, rfl⟩)
      have hvgg : idx a (gparent q) ≤ idx a (gparent (gparent q)) :=
        (H _ _ hpairgg (by omega)
          (fun hx => absurd hx.2.2 (by omega))).2 hggml
      have e_gg : idx (swap a q (gparent q)) (gparent (gparent q)) =
          idx a (gparent (gparent q)) := e_x _ (by omega) (by omega)
      rw [e_gg]
      by_cases hk2q : k2 = q
      · rw [hk2q, e_q]
        exact hvgg
      · rw [e_x k2 hk2q hkne]
        by_cases hk2sub : inSub q k2 = true
        · have h5 := H3 h.1 k2 hk2sub hk2q hkn2
          omega
        · have h5 := sm k2 hk2 hkn2 (bool_false hk2sub)
          omega
    exact ih n hn (by omega) (by rw [swap_length]; exact hlen) hgml H2 H3n j

end _mmheap

namespace _mmheap

theorem subtree_min_avoid (a : List Nat) (n s q : Nat) (hn : n ≤ 2 ^ 62)
    (hs : min_level s = true)
    (H : ∀ j k, inSub s j = true → cg j k → k < n → k ≠ q →
      (min_level j = true → idx a j ≤ idx a k) ∧
      (min_level j = false → idx a k ≤ idx a j)) :
    ∀ k, inSub s k = true → k < n → inSub q k = false → idx a s ≤ idx a k := by
  intro k
  induction k using Nat.strong_induction_on with
  | _ k ih =>
    intro hks hkn hkq
    by_cases heq : k = s
    · subst heq; exact Nat.le_refl _
    · have hk0 : 0 < k := by have := inSub_le hks; omega
      have hkp : inSub s (parent k) = true := inSub_parent heq hks
      have hbound : k + 1 < 2 ^ 64 := by
        have h1 : (2 : Nat) ^ 62 < 2 ^ 64 := by norm_num
        omega
      have hkqne : k ≠ q := by
        intro he
        rw [he, inSub_self q] at hkq
        cases hkq
      cases hml : min_level k with
      | false =>
        have hpml : min_level (parent k) = true := by
          have h1 := min_level_parent_flip k hk0 hbound
          rw [hml] at h1
          simpa using h1
        have hqp : inSub q (parent k) = false := by
          cases hqp0 : inSub q (parent k) with
          | false => rfl
          | true =>
            have hqk : q < k := by
              have h1 := inSub_le hqp0
              have h2 := parent_lt k hk0
              omega
            rw [inSub_of_parent hqk hqp0] at hkq
            cases hkq
        have hcg : cg (parent k) k := (cg_char (parent k) k).mpr
          (Or.inl ⟨hk0, rfl⟩)
        have hrel := (H (parent k) k hkp hcg hkn hkqne).1 hpml
        have hpn : parent k < n := by have := parent_lt k hk0; omega
        exact Nat.le_trans (ih (parent k) (parent_lt k hk0) hkp hpn hqp) hrel
      | true =>
        have hps : parent k ≠ s := by
          intro he
          have h1 := min_level_parent_flip k hk0 hbound
          rw [he, hs, hml] at h1
          cases h1
        have hkgp : inSub s (gparent k) = true := inSub_parent hps hkp
        have hpk0 : 0 < parent k := by
          have h1 := inSub_le hkp
          omega
        have hk2 : 2 < k := by
          simp only [parent] at hpk0
          omega
        have hgml : min_level (gparent k) = true := by
          rw [min_level_gparent_eq k hk2 hbound]
          exact hml
        have hcg : cg (gparent k) k := (cg_char _ _).mpr (Or.inr ⟨hk2, rfl⟩)
        have hglt : gparent k < k := by
          have h1 := parent_lt (parent k) hpk0
          have h2 := parent_lt k hk0
          simp only [gparent]
          omega
        have hqg : inSub q (gparent k) = false := by
          cases hqg0 : inSub q (gparent k) with
          | false => rfl
          | true =>
            have hq1 : q < parent k := by
              have h1 := inSub_le hqg0
              have h2 := parent_lt (parent k) hpk0
              simp only [gparent] at h1
              omega
            have hq2 : inSub q (parent k) = true :=
              inSub_of_parent hq1 hqg0
            have hqk : q < k := by have := parent_lt k hk0; omega
            rw [inSub_of_parent hqk hq2] at hkq
            cases hkq
        have hrel := (H (gparent k) k hkgp hcg hkn hkqne).1 hgml
        have hgn : gparent k < n := by omega
        exact Nat.le_trans (ih (gparent k) hglt hkgp hgn hqg) hrel

/-- maximality of a max-level subtree root, dual to
`subtree_min_except`. -/

theorem subtree_max_avoid (a : List Nat) (n s q : Nat) (hn : n ≤ 2 ^ 62)
    (hs : min_level s = false)
    (H : ∀ j k, inSub s j = true → cg j k → k < n → k ≠ q →
      (min_level j = true → idx a j ≤ idx a k) ∧
      (min_level j = false → idx a k ≤ idx a j)) :
    ∀ k, inSub s k = true → k < n → inSub q k = false → idx a k ≤ idx a s := by
  intro k
  induction k using Nat.strong_induction_on with
  | _ k ih =>
    intro hks hkn hkq
    by_cases heq : k = s
    · subst heq; exact Nat.le_refl _
    · have hk0 : 0 < k := by have := inSub_le hks; omega
      have hkp : inSub s (parent k) = true := inSub_parent heq hks
      have hbound : k + 1 < 2 ^ 64 := by
        have h1 : (2 : Nat) ^ 62 < 2 ^ 64 := by norm_num
        omega
      have hkqne : k ≠ q := by
        intro he
        rw [he, inSub_self q] at hkq
        cases hkq
      cases hml : min_level k with
      | true =>
        have hpml : min_level (parent k) = false := by
          have h1 := min_level_parent_flip k hk0 hbound
          rw [hml] at h1
          simpa using h1
        have hqp : inSub q (parent k) = false := by
          cases hqp0 : inSub q (parent k) with
          | false => rfl
          | true =>
            have hqk : q < k := by
              have h1 := inSub_le hqp0
              have h2 := parent_lt k hk0
              omega
            rw [inSub_of_parent hqk hqp0] at hkq
            cases hkq
        have hcg : cg (parent k) k := (cg_char (parent k) k).mpr
          (Or.inl ⟨hk0, rfl⟩)
        have hrel := (H (parent k) k hkp hcg hkn hkqne).2 hpml
        have hpn : parent k < n := by have := parent_lt k hk0; omega
        exact Nat.le_trans hrel (ih (parent k) (parent_lt k hk0) hkp hpn hqp)
      | false =>
        have hps : parent k ≠ s := by
          intro he
          have h1 := min_level_parent_flip k hk0 hbound
          rw [he, hs, hml] at h1
          cases h1
        have hkgp : inSub s (gparent k) = true := inSub_parent hps hkp
        have hpk0 : 0 < parent k := by
          have h1 := inSub_le hkp
          omega
        have hk2 : 2 < k := by
          simp only [parent] at hpk0
          omega
        have hgml : min_level (gparent k) = false := by
          rw [min_level_gparent_eq k hk2 hbound]
          exact hml
        have hcg : cg (gparent k) k := (cg_char _ _).mpr (Or.inr ⟨hk2, rfl⟩)
        have hglt : gparent k < k := by
          have h1 := parent_lt (parent k) hpk0
          have h2 := parent_lt k hk0
          simp only [gparent]
          omega
        have hqg : inSub q (gparent k) = false := by
          cases hqg0 : inSub q (gparent k) with
          | false => rfl
          | true =>
            have hq1 : q < parent k := by
              have h1 := inSub_le hqg0
              have h2 := parent_lt (parent k) hpk0
              simp only [gparent] at h1
              omega
            have hq2 : inSub q (parent k) = true :=
              inSub_of_parent hq1 hqg0
            have hqk : q < k := by have := parent_lt k hk0; omega
            rw [inSub_of_parent hqk hq2] at hkq
            cases hkq
        have hrel := (H (gparent k) k hkgp hcg hkn hkqne).2 hgml
        have hgn : gparent k < n := by omega
        exact Nat.le_trans hrel (ih (gparent k) hglt hkgp hgn hqg)

end _mmheap

namespace _mmheap

/-- the `bubble_up` dispatcher restores the invariant after a single slot
(index `q`, with no strict descendants in range) received an arbitrary
value while every relation not pointing into `q` held. -/
theorem bubble_up_correct :
    ∀ (a : List Nat) (q n : Nat), n ≤ 2 ^ 62 → q < n → n ≤ a.length →
      (∀ j k, cg j k → k < n → k ≠ q →
        (min_level j = true → idx a j ≤ idx a k) ∧
        (min_level j = false → idx a k ≤ idx a j)) →
      (∀ k, inSub q k = true → k ≠ q → ¬ k < n) →
      ∀ j, nodeOK (bubble_up a q) n j := by
  intro a q n hn hqn hlen D1 D3 j
  have hb : q + 1 < 2 ^ 64 := by
    have hx : (2:Nat) ^ 62 < 2 ^ 64 := by norm_num
    omega
  rw [bubble_up]
  cases hml : min_level q with
  | true =>
    rw [if_pos rfl]
    by_cases hc : has_parent q = true ∧ idx a (parent q) < idx a q
    · rw [if_pos hc]
      have hq0 : 0 < q := by
        have h1 := hc.1
        simp [has_parent] at h1
        exact h1
      have hq3 : 2 < q := by
        rcases Nat.lt_or_ge 2 q with h1 | h1
        · exact h1
        · exfalso
          have h2 : q = 1 ∨ q = 2 := by omega
          rcases h2 with h2 | h2 <;> rw [h2] at hml
          · exact absurd hml (by decide)
          · exact absurd hml (by decide)
      have hpq_lt : parent q < q := parent_lt q hq0
      have hp0 : 0 < parent q := by simp only [parent]; omega
      have hgp_lt : gparent q < parent q := parent_lt (parent q) hp0
      have hml_p : min_level (parent q) = false := by
        rw [min_level_parent_flip q hq0 hb, hml]; rfl
      have hml_g : min_level (gparent q) = true := by
        rw [min_level_gparent_eq q hq3 hb, hml]
      have e_q : idx (swap a q (parent q)) q = idx a (parent q) :=
        idx_swap_fst a q (parent q) (by omega)
      have e_p : idx (swap a q (parent q)) (parent q) = idx a q :=
        idx_swap_snd a q (parent q) (by omega)
      have e_x : ∀ x, x ≠ q → x ≠ parent q →
          idx (swap a q (parent q)) x = idx a x :=
        fun x h1 h2 => idx_swap_ne a q (parent q) x h1 h2
      have hcg_gp : cg (gparent q) (parent q) :=
        (cg_char _ _).mpr (Or.inl ⟨hp0, rfl⟩)
      have HMAX : ∀ j2 k2, cg j2 k2 → k2 < n →
          ¬(has_gparent (parent q) = true ∧
            j2 = gparent (parent q) ∧ k2 = parent q) →
          (min_level j2 = true →
            idx (swap a q (parent q)) j2 ≤ idx (swap a q (parent q)) k2) ∧
          (min_level j2 = false →
            idx (swap a q (parent q)) k2 ≤ idx (swap a q (parent q)) j2) := by
        intro j2 k2 hk2 hkc2 hex2
        by_cases hkq : k2 = q
        · rw [hkq] at hk2 ⊢
          rcases (cg_char j2 q).mp hk2 with ⟨h0, hp⟩ | ⟨h2, hp⟩
          · subst hp
            constructor
            · intro ht; rw [hml_p] at ht; cases ht
            · intro _
              rw [e_q, e_p]
              exact Nat.le_of_lt hc.2
          · subst hp
            constructor
            · intro _
              rw [e_q, e_x (gparent q) (by omega) (by omega)]
              exact (D1 (gparent q) (parent q) hcg_gp (by omega)
                (by omega)).1 hml_g
            · intro hf; rw [hml_g] at hf; cases hf
        · by_cases hkp : k2 = parent q
          · subst hkp
            rcases (cg_char j2 (parent q)).mp hk2 with ⟨h0, hp⟩ | ⟨h2, hp⟩
            · subst hp
              have hppq : parent (parent q) < parent q := hgp_lt
              have hmlpp : min_level (parent (parent q)) = true := hml_g
              constructor
              · intro _
                rw [e_p, e_x (parent (parent q)) (by omega) (by omega)]
                have h5 := (D1 (parent (parent q)) (parent q)
                  ((cg_char _ _).mpr (Or.inl ⟨h0, rfl⟩)) (by omega)
                  (by omega)).1 hmlpp
                have h6 := hc.2
                omega
              · intro hf; rw [hmlpp] at hf; cases hf
            · refine absurd ⟨?_, hp.symm, rfl⟩ hex2
              simp [has_gparent]
              omega
          · by_cases hjq : j2 = q
            · rw [hjq] at hk2
              exact absurd hkc2 (D3 k2 (inSub_cg hk2) hkq)
            · by_cases hjp : j2 = parent q
              · subst hjp
                constructor
                · intro ht; rw [hml_p] at ht; cases ht
                · intro _
                  rw [e_p, e_x k2 hkq hkp]
                  have h5 := (D1 (parent q) k2 hk2 hkc2 hkq).2 hml_p
                  have h6 := hc.2
                  omega
              · have e1 := e_x j2 hjq hjp
                have e2 := e_x k2 hkq hkp
                have h5 := D1 j2 k2 hk2 hkc2 hkq
                exact ⟨fun ht => by rw [e1, e2]; exact h5.1 ht,
                       fun hf => by rw [e1, e2]; exact h5.2 hf⟩
      have smx := subtree_max_avoid a n (parent q) q hn hml_p
        (fun j2 k2 hj2 hk2 hkn2 hne => D1 j2 k2 hk2 hkn2 hne)
      have H3A : has_gparent (parent q) = true →
          ∀ k2, inSub (parent q) k2 = true → k2 ≠ parent q → k2 < n →
            idx (swap a q (parent q)) k2 ≤
            idx (swap a q (parent q)) (gparent (parent q)) := by
        intro hgp2 k2 hk2 hkne hkn2
        have hp3 : 2 < parent q := by
          simp [has_gparent] at hgp2
          exact hgp2
        have hml_gp2 : min_level (gparent (parent q)) = false := by
          rw [min_level_gparent_eq (parent q) hp3 (by omega), hml_p]
        have hlt2 : gparent (parent q) < parent q :=
          gparent_lt (parent q) (by omega)
        have hpair : cg (gparent (parent q)) (parent q) :=
          (cg_char _ _).mpr (Or.inr ⟨hp3, rfl⟩)
        have hvp : idx a (parent q) ≤ idx a (gparent (parent q)) :=
          (D1 _ _ hpair (by omega) (by omega)).2 hml_gp2
        have e_gg : idx (swap a q (parent q)) (gparent (parent q)) =
            idx a (gparent (parent q)) := e_x _ (by omega) (by omega)
        rw [e_gg]
        by_cases hk2q : k2 = q
        · rw [hk2q, e_q]
          exact hvp
        · rw [e_x k2 hk2q hkne]
          by_cases hsubq : inSub q k2 = true
          · exact absurd hkn2 (D3 k2 hsubq hk2q)
          · have h5 := smx k2 hk2 hkn2 (bool_false hsubq)
            omega
      exact bubble_up_max_correct (swap a q (parent q)) (parent q) n hn
        (by omega) (by rw [swap_length]; exact hlen) hml_p HMAX H3A j
    · rw [if_neg hc]
      apply bubble_up_min_correct a q n hn hqn hlen hml
      · intro j2 k2 hk2 hkc2 hex2
        by_cases hkq : k2 = q
        · rw [hkq] at hk2 ⊢
          rcases (cg_char j2 q).mp hk2 with ⟨h0, hp⟩ | ⟨h2, hp⟩
          · subst hp
            have hml_p : min_level (parent q) = false := by
              rw [min_level_parent_flip q h0 hb, hml]; rfl
            constructor
            · intro ht; rw [hml_p] at ht; cases ht
            · intro _
              have hp1 : has_parent q = true := by simp [has_parent]; omega
              exact Nat.le_of_not_lt (fun hlt => hc ⟨hp1, hlt⟩)
          · exact absurd ⟨hp.symm, hkq⟩ hex2
        · exact D1 j2 k2 hk2 hkc2 hkq
      · intro _ k2 hk2 hkne hkn2
        exact absurd hkn2 (D3 k2 hk2 hkne)
  | false =>
    rw [if_neg (by simp)]
    by_cases hc : has_parent q = true ∧ idx a q < idx a (parent q)
    · rw [if_pos hc]
      have hq0 : 0 < q := by
        have h1 := hc.1
        simp [has_parent] at h1
        exact h1
      have hpq_lt : parent q < q := parent_lt q hq0
      have hml_p : min_level (parent q) = true := by
        rw [min_level_parent_flip q hq0 hb, hml]; rfl
      have e_q : idx (swap a q (parent q)) q = idx a (parent q) :=
        idx_swap_fst a q (parent q) (by omega)
      have e_p : idx (swap a q (parent q)) (parent q) = idx a q :=
        idx_swap_snd a q (parent q) (by omega)
      have e_x : ∀ x, x ≠ q → x ≠ parent q →
          idx (swap a q (parent q)) x = idx a x :=
        fun x h1 h2 => idx_swap_ne a q (parent q) x h1 h2
      have HMIN : ∀ j2 k2, cg j2 k2 → k2 < n →
          ¬(j2 = gparent (parent q) ∧ k2 = parent q) →
          (min_level j2 = true →
            idx (swap a q (parent q)) j2 ≤ idx (swap a q (parent q)) k2) ∧
          (min_level j2 = false →
            idx (swap a q (parent q)) k2 ≤ idx (swap a q (parent q)) j2) := by
        intro j2 k2 hk2 hkc2 hex2
        by_cases hkq : k2 = q
        · rw [hkq] at hk2 ⊢
          rcases (cg_char j2 q).mp hk2 with ⟨h0, hp⟩ | ⟨h2, hp⟩
          · subst hp
            constructor
            · intro _
              rw [e_q, e_p]
              exact Nat.le_of_lt hc.2
            · intro hf; rw [hml_p] at hf; cases hf
          · subst hp
            have hml_g : min_level (gparent q) = false := by
              rw [min_level_gparent_eq q h2 hb, hml]
            have hp0 : 0 < parent q := by simp only [parent]; omega
            have hgp_lt : gparent q < parent q := parent_lt (parent q) hp0
            constructor
            · intro ht; rw [hml_g] at ht; cases ht
            · intro _
              rw [e_q, e_x (gparent q) (by omega) (by omega)]
              exact (D1 (gparent q) (parent q)
                ((cg_char _ _).mpr (Or.inl ⟨hp0, rfl⟩)) (by omega)
                (by omega)).2 hml_g
        · by_cases hkp : k2 = parent q
          · subst hkp
            rcases (cg_char j2 (parent q)).mp hk2 with ⟨h0, hp⟩ | ⟨h2, hp⟩
            · subst hp
              have hq3 : 2 < q := by
                simp only [parent] at h0
                omega
              have hppq : parent (parent q) < parent q :=
                parent_lt (parent q) h0
              have hmlpp : min_level (parent (parent q)) = false := by
                rw [min_level_parent_flip (parent q) h0 (by omega), hml_p]
                rfl
              constructor
              · intro ht; rw [hmlpp] at ht; cases ht
              · intro _
                rw [e_p, e_x (parent (parent q)) (by omega) (by omega)]
                have h5 := (D1 (parent (parent q)) (parent q)
                  ((cg_char _ _).mpr (Or.inl ⟨h0, rfl⟩)) (by omega)
                  (by omega)).2 hmlpp
                have h6 := hc.2
                omega
            · exact absurd ⟨hp.symm, rfl⟩ hex2
          · by_cases hjq : j2 = q
            · rw [hjq] at hk2
              exact absurd hkc2 (D3 k2 (inSub_cg hk2) hkq)
            · by_cases hjp : j2 = parent q
              · subst hjp
                constructor
                · intro _
                  rw [e_p, e_x k2 hkq hkp]
                  have h5 := (D1 (parent q) k2 hk2 hkc2 hkq).1 hml_p
                  have h6 := hc.2
                  omega
                · intro hf; rw [hml_p] at hf; cases hf
              · have e1 := e_x j2 hjq hjp
                have e2 := e_x k2 hkq hkp
                have h5 := D1 j2 k2 hk2 hkc2 hkq
                exact ⟨fun ht => by rw [e1, e2]; exact h5.1 ht,
                       fun hf => by rw [e1, e2]; exact h5.2 hf⟩
      have smn := subtree_min_avoid a n (parent q) q hn hml_p
        (fun j2 k2 hj2 hk2 hkn2 hne => D1 j2 k2 hk2 hkn2 hne)
      have H3C : has_gparent (parent q) = true →
          ∀ k2, inSub (parent q) k2 = true → k2 ≠ parent q → k2 < n →
            idx (swap a q (parent q)) (gparent (parent q)) ≤
            idx (swap a q (parent q)) k2 := by
        intro hgp2 k2 hk2 hkne hkn2
        have hp3 : 2 < parent q := by
          simp [has_gparent] at hgp2
          exact hgp2
        have hml_gp2 : min_level (gparent (parent q)) = true := by
          rw [min_level_gparent_eq (parent q) hp3 (by omega), hml_p]
        have hlt2 : gparent (parent q) < parent q :=
          gparent_lt (parent q) (by omega)
        have hpair : cg (gparent (parent q)) (parent q) :=
          (cg_char _ _).mpr (Or.inr ⟨hp3, rfl⟩)
        have hvp : idx a (gparent (parent q)) ≤ idx a (parent q) :=
          (D1 _ _ hpair (by omega) (by omega)).1 hml_gp2
        have e_gg : idx (swap a q (parent q)) (gparent (parent q)) =
            idx a (gparent (parent q)) := e_x _ (by omega) (by omega)
        rw [e_gg]
        by_cases hk2q : k2 = q
        · rw [hk2q, e_q]
          exact hvp
        · rw [e_x k2 hk2q hkne]
          by_cases hsubq : inSub q k2 = true
          · exact absurd hkn2 (D3 k2 hsubq hk2q)
          · have h5 := smn k2 hk2 hkn2 (bool_false hsubq)
            omega
      exact bubble_up_min_correct (swap a q (parent q)) (parent q) n hn
        (by omega) (by rw [swap_length]; exact hlen) hml_p HMIN H3C j
    · rw [if_neg hc]
      apply bubble_up_max_correct a q n hn hqn hlen hml
      · intro j2 k2 hk2 hkc2 hex2
        by_cases hkq : k2 = q
        · rw [hkq] at hk2 ⊢
          rcases (cg_char j2 q).mp hk2 with ⟨h0, hp⟩ | ⟨h2, hp⟩
          · subst hp
            have hml_p : min_level (parent q) = true := by
              rw [min_level_parent_flip q h0 hb, hml]; rfl
            constructor
            · intro _
              have hp1 : has_parent q = true := by simp [has_parent]; omega
              exact Nat.le_of_not_lt (fun hlt => hc ⟨hp1, hlt⟩)
            · intro hf; rw [hml_p] at hf; cases hf
          · refine absurd ⟨?_, hp.symm, hkq⟩ hex2
            simp [has_gparent]
            omega
        · exact D1 j2 k2 hk2 hkc2 hkq
      · intro _ k2 hk2 hkne hkn2
        exact absurd hkn2 (D3 k2 hk2 hkne)

end _mmheap

namespace mmheap

open _mmheap

/-- `heap_insert` preserves the invariant and increments the count. -/
theorem heap_insert_correct (v : Nat) (a : List Nat) (count max_size : Nat)
    (hb : count + 1 ≤ 2 ^ 62) (hcap : max_size ≤ a.length)
    (hinv : IsMMHeap a count) :
    ∀ a2 c2, heap_insert v a count max_size = some (a2, c2) →
      IsMMHeap a2 c2 ∧ c2 = count + 1 := by
  intro a2 c2 hsome
  rw [heap_insert] at hsome
  by_cases hlt : count < max_size
  · rw [if_pos hlt] at hsome
    cases hsome
    refine ⟨?_, rfl⟩
    apply bubble_up_correct (a.set count v) count (count + 1) hb (by omega)
      (by rw [List.length_set]; omega)
    · intro j2 k2 hk2 hkc2 hne
      have hj2 : j2 < count := by
        have h1 := cg_gt hk2
        omega
      have e1 : idx (a.set count v) j2 = idx a j2 :=
        idx_set_ne a count v j2 (by omega)
      have e2 : idx (a.set count v) k2 = idx a k2 :=
        idx_set_ne a count v k2 hne
      have h5 := hinv j2 k2 hk2 (by omega)
      exact ⟨fun ht => by rw [e1, e2]; exact h5.1 ht,
             fun hf => by rw [e1, e2]; exact h5.2 hf⟩
    · intro k hk hkne
      have h1 := inSub_proper hk hkne
      omega
  · rw [if_neg hlt] at hsome
    cases hsome
end mmheap

namespace _mmheap

theorem swap_set_high (a : List Nat) (i j x y : Nat) (hxi : x ≠ i)
    (hxj : x ≠ j) : swap (a.set x y) i j = (swap a i j).set x y := by
  simp only [swap]
  rw [idx_set_ne a x y j (Ne.symm hxj), idx_set_ne a x y i (Ne.symm hxi),
    List.set_comm y (idx a j) a hxi,
    List.set_comm y (idx a i) (a.set i (idx a j)) hxj]

theorem bubble_up_max_set :
    ∀ (a : List Nat) (b : Nat), ∀ x y, b < x →
      bubble_up_max (a.set x y) b = (bubble_up_max a b).set x y := by
  intro a b
  induction a, b using bubble_up_max.induct with
  | case1 a b h ih =>
    intro x y hx
    have hb3 : 2 < b := by
      have h1 := h.1
      simp [has_gparent] at h1
      exact h1
    have hg : gparent b < b := gparent_lt b (by omega)
    have e1 : idx (a.set x y) (gparent b) = idx a (gparent b) :=
      idx_set_ne a x y _ (by omega)
    have e2 : idx (a.set x y) b = idx a b := idx_set_ne a x y b (by omega)
    have hrhs : bubble_up_max a b =
        bubble_up_max (swap a b (gparent b)) (gparent b) := by
      rw [bubble_up_max, dif_pos h]
    rw [bubble_up_max,
      dif_pos (show has_gparent b = true ∧
        idx (a.set x y) (gparent b) < idx (a.set x y) b from
        ⟨h.1, by rw [e1, e2]; exact h.2⟩),
      swap_set_high a b (gparent b) x y (by omega) (by omega),
      ih x y (by omega), hrhs]
  | case2 a b h =>
    intro x y hx
    have hcond : ¬(has_gparent b = true ∧
        idx (a.set x y) (gparent b) < idx (a.set x y) b) := by
      intro hc
      have hb3 : 2 < b := by
        have h1 := hc.1
        simp [has_gparent] at h1
        exact h1
      have hg : gparent b < b := gparent_lt b (by omega)
      have h2 := hc.2
      rw [idx_set_ne a x y (gparent b) (by omega),
        idx_set_ne a x y b (by omega)] at h2
      exact h ⟨hc.1, h2⟩
    rw [bubble_up_max, dif_neg hcond, bubble_up_max, dif_neg h]

theorem bubble_up_min_set :
    ∀ (a : List Nat) (b : Nat), ∀ x y, b < x →
      bubble_up_min (a.set x y) b = (bubble_up_min a b).set x y := by
  intro a b
  induction a, b using bubble_up_min.induct with
  | case1 a b h ih =>
    intro x y hx
    have hb3 : 2 < b := by
      have h1 := h.1
      simp [has_gparent] at h1
      exact h1
    have hg : gparent b < b := gparent_lt b (by omega)
    have e1 : idx (a.set x y) (gparent b) = idx a (gparent b) :=
      idx_set_ne a x y _ (by omega)
    have e2 : idx (a.set x y) b = idx a b := idx_set_ne a x y b (by omega)
    have hrhs : bubble_up_min a b =
        bubble_up_min (swap a b (gparent b)) (gparent b) := by
      rw [bubble_up_min, dif_pos h]
    rw [bubble_up_min,
      dif_pos (show has_gparent b = true ∧
        idx (a.set x y) b < idx (a.set x y) (gparent b) from
        ⟨h.1, by rw [e1, e2]; exact h.2⟩),
      swap_set_high a b (gparent b) x y (by omega) (by omega),
      ih x y (by omega), hrhs]
  | case2 a b h =>
    intro x y hx
    have hcond : ¬(has_gparent b = true ∧
        idx (a.set x y) b < idx (a.set x y) (gparent b)) := by
      intro hc
      have hb3 : 2 < b := by
        have h1 := hc.1
        simp [has_gparent] at h1
        exact h1
      have hg : gparent b < b := gparent_lt b (by omega)
      have h2 := hc.2
      rw [idx_set_ne a x y (gparent b) (by omega),
        idx_set_ne a x y b (by omega)] at h2
      exact h ⟨hc.1, h2⟩
    rw [bubble_up_min, dif_neg hcond, bubble_up_min, dif_neg h]

theorem bubble_up_max_start (a : List Nat) (b : Nat) (hlen : b < a.length) :
    idx (bubble_up_max a b) b = idx a b ∨
      (has_gparent b = true ∧
        idx (bubble_up_max a b) b = idx a (gparent b)) := by
  rw [bubble_up_max]
  by_cases h : has_gparent b = true ∧ idx a (gparent b) < idx a b
  · rw [dif_pos h]
    right
    have hb3 : 2 < b := by
      have h1 := h.1
      simp [has_gparent] at h1
      exact h1
    have hg : gparent b < b := gparent_lt b (by omega)
    refine ⟨h.1, ?_⟩
    rw [bubble_up_max_frame (swap a b (gparent b)) (gparent b) b
      (inSub_out hg), idx_swap_fst a b (gparent b) hlen]
  · rw [dif_neg h]
    exact Or.inl rfl

theorem bubble_up_min_start (a : List Nat) (b : Nat) (hlen : b < a.length) :
    idx (bubble_up_min a b) b = idx a b ∨
      (has_gparent b = true ∧
        idx (bubble_up_min a b) b = idx a (gparent b)) := by
  rw [bubble_up_min]
  by_cases h : has_gparent b = true ∧ idx a b < idx a (gparent b)
  · rw [dif_pos h]
    right
    have hb3 : 2 < b := by
      have h1 := h.1
      simp [has_gparent] at h1
      exact h1
    have hg : gparent b < b := gparent_lt b (by omega)
    refine ⟨h.1, ?_⟩
    rw [bubble_up_min_frame (swap a b (gparent b)) (gparent b) b
      (inSub_out hg), idx_swap_fst a b (gparent b) hlen]
  · rw [dif_neg h]
    exact Or.inl rfl

theorem bubble_up_max_pframe (a : List Nat) (b : Nat) :
    idx (bubble_up_max a b) (parent b) = idx a (parent b) := by
  rw [bubble_up_max]
  by_cases h : has_gparent b = true ∧ idx a (gparent b) < idx a b
  · rw [dif_pos h]
    have hb3 : 2 < b := by
      have h1 := h.1
      simp [has_gparent] at h1
      exact h1
    have h1 : gparent b < parent b :=
      parent_lt (parent b) (by simp only [parent]; omega)
    have h2 : parent b < b := parent_lt b (by omega)
    rw [bubble_up_max_frame (swap a b (gparent b)) (gparent b) (parent b)
      (inSub_out h1)]
    exact idx_swap_ne a b (gparent b) (parent b) (by omega) (by omega)
  · rw [dif_neg h]

theorem bubble_up_min_pframe (a : List Nat) (b : Nat) :
    idx (bubble_up_min a b) (parent b) = idx a (parent b) := by
  rw [bubble_up_min]
  by_cases h : has_gparent b = true ∧ idx a b < idx a (gparent b)
  · rw [dif_pos h]
    have hb3 : 2 < b := by
      have h1 := h.1
      simp [has_gparent] at h1
      exact h1
    have h1 : gparent b < parent b :=
      parent_lt (parent b) (by simp only [parent]; omega)
    have h2 : parent b < b := parent_lt b (by omega)
    rw [bubble_up_min_frame (swap a b (gparent b)) (gparent b) (parent b)
      (inSub_out h1)]
    exact idx_swap_ne a b (gparent b) (parent b) (by omega) (by omega)
  · rw [dif_neg h]

theorem cross_pair {s j k : Nat} (hj : ¬ inSub s j = true)
    (hk : inSub s k = true) (hcg : cg j k) :
    j = parent s ∨ (2 < s ∧ j = gparent s ∧ k = s) := by
  by_cases hks : k = s
  · rw [hks] at hcg
    rcases (cg_char j s).mp hcg with ⟨h0, hp⟩ | ⟨h2, hp⟩
    · exact Or.inl hp.symm
    · exact Or.inr ⟨h2, hp.symm, hks⟩
  · have hkp : inSub s (parent k) = true := inSub_parent hks hk
    rcases (cg_char j k).mp hcg with ⟨h0, hp⟩ | ⟨h2, hp⟩
    · rw [hp] at hkp
      exact absurd hkp hj
    · by_cases hpks : parent k = s
      · left
        rw [← hp, gparent, hpks]
      · have h3 := inSub_parent hpks hkp
        rw [gparent] at hp
        rw [hp] at h3
        exact absurd h3 hj

/-- sifting down from `s` restores validity everywhere, given local
validity away from `s` and that the relations of the outside ancestors
of `s` hold against every in-range slot of the subtree of `s`. -/
theorem sift_down_global (a : List Nat) (s count : Nat)
    (hc1 : 0 < count) (hb : count ≤ 2 ^ 62) (hlen : count ≤ a.length)
    (H : ∀ j, j ≠ s → nodeOK a count j)
    (HX : ∀ j k, ¬ inSub s j = true → inSub s k = true → cg j k →
      k < count → ∀ k2, inSub s k2 = true → k2 < count →
        (min_level j = true → idx a j ≤ idx a k2) ∧
        (min_level j = false → idx a k2 ≤ idx a j)) :
    ∀ j, nodeOK (sift_down a s (count - 1)) count j := by
  intro j
  have hsz : count - 1 + 1 = count := by omega
  by_cases hsub : inSub s j = true
  · have hstep := sift_down_correct a s (count - 1) (by omega) (by omega)
      (fun j3 hj3 hne => hsz.symm ▸ H j3 hne)
    have h2 := hstep j hsub
    rw [hsz] at h2
    exact h2
  · have hjs : j ≠ s := by
      intro he
      rw [he, inSub_self] at hsub
      exact hsub rfl
    have hold := H j hjs
    intro k hk hkc
    have hkj : j < k := cg_gt hk
    have hjf : inSub s j = false := bool_false hsub
    have e1 : idx (sift_down a s (count - 1)) j = idx a j :=
      sift_down_frame a s (count - 1) j (Or.inl hjf)
    by_cases hksub : inSub s k = true
    · obtain ⟨k2, hk21, hk22, hk23⟩ :=
        sift_down_source a s (count - 1) (by omega) k hksub (by omega)
      have h1 := HX j k hsub hksub hk hkc k2 hk21 (by omega)
      exact ⟨fun ht => by rw [e1, hk23]; exact h1.1 ht,
             fun hf => by rw [e1, hk23]; exact h1.2 hf⟩
    · have e2 : idx (sift_down a s (count - 1)) k = idx a k :=
        sift_down_frame a s (count - 1) k (Or.inl (bool_false hksub))
      have h1 := hold k hk hkc
      exact ⟨fun ht => by rw [e1, e2]; exact h1.1 ht,
             fun hf => by rw [e1, e2]; exact h1.2 hf⟩

end _mmheap

namespace mmheap

open _mmheap

/-- max-level half of the `heap_replace_at_index` preservation argument. -/
theorem hreplace_max (v index : Nat) (a : List Nat) (count : Nat)
    (hc0 : 0 < count) (hb : count ≤ 2 ^ 62) (hlen : count ≤ a.length)
    (hidx : index < count) (hinv : IsMMHeap a count)
    (hml : min_level index = false) :
    ∀ old a2,
      (if idx a index < v then
        Except.ok (idx a index, bubble_up_max (a.set index v) index)
      else
        Except.ok (idx a index, sift_down
          (if has_parent index = true ∧
              v < idx (a.set index v) (parent index)
            then bubble_up (a.set index v) index
            else a.set index v)
          index (count - 1))) =
        (Except.ok (old, a2) : Except HeapError (Nat × List Nat)) →
      old = idx a index ∧ IsMMHeap a2 count := by
  intro old a2 hok
  have hq_len : index < a.length := by omega
  have e_self : idx (a.set index v) index = v := idx_set_self a index v hq_len
  have e_ne : ∀ x, x ≠ index → idx (a.set index v) x = idx a x :=
    fun x hx => idx_set_ne a index v x hx
  have hbq : index + 1 < 2 ^ 64 := by
    have hx : (2:Nat) ^ 62 < 2 ^ 64 := by norm_num
    omega
  by_cases hcmp : idx a index < v
  · rw [if_pos hcmp] at hok
    cases hok
    refine ⟨rfl, ?_⟩
    intro j
    refine bubble_up_max_correct (a.set index v) index count hb hidx
      (by rw [List.length_set]; omega) hml ?_ ?_ j
    · intro j2 k2 hk2 hkc2 hex2
      by_cases hkq : k2 = index
      · rw [hkq] at hk2 ⊢
        rcases (cg_char j2 index).mp hk2 with ⟨h0, hp⟩ | ⟨h2x, hp⟩
        · subst hp
          have hml_p : min_level (parent index) = true := by
            rw [min_level_parent_flip index h0 hbq, hml]; rfl
          have hpq : parent index < index := parent_lt index h0
          constructor
          · intro _
            rw [e_self, e_ne (parent index) (by omega)]
            have h5 := (hinv (parent index) index
              ((cg_char _ _).mpr (Or.inl ⟨h0, rfl⟩)) hidx).1 hml_p
            omega
          · intro hf; rw [hml_p] at hf; cases hf
        · refine absurd ⟨?_, hp.symm, hkq⟩ hex2
          simp [has_gparent]
          omega
      · by_cases hjq : j2 = index
        · rw [hjq] at hk2 ⊢
          have hkgt : index < k2 := cg_gt hk2
          constructor
          · intro ht; rw [hml] at ht; cases ht
          · intro _
            rw [e_self, e_ne k2 (by omega)]
            have h5 := (hinv index k2 hk2 hkc2).2 hml
            omega
        · have e1 := e_ne j2 hjq
          have e2 := e_ne k2 hkq
          have h5 := hinv j2 k2 hk2 hkc2
          exact ⟨fun ht => by rw [e1, e2]; exact h5.1 ht,
                 fun hf => by rw [e1, e2]; exact h5.2 hf⟩
    · intro hgp k2 hk2 hkne hkn2
      have hq3 : 2 < index := by
        simp [has_gparent] at hgp
        exact hgp
      have hml_g : min_level (gparent index) = false := by
        rw [min_level_gparent_eq index hq3 hbq, hml]
      have hgq : gparent index < index := gparent_lt index (by omega)
      rw [e_ne (gparent index) (by omega), e_ne k2 hkne]
      exact subtree_max_local a count (gparent index) hb hml_g
        (fun j3 hj3 => hinv j3) k2
        (inSub_trans (inSub_gparent_self index hq3) k2 hk2) hkn2
  · rw [if_neg hcmp] at hok
    by_cases hc2 : has_parent index = true ∧
        v < idx (a.set index v) (parent index)
    · rw [if_pos hc2] at hok
      cases hok
      refine ⟨rfl, ?_⟩
      have hq0 : 0 < index := by
        have h5 := hc2.1
        simp [has_parent] at h5
        exact h5
      have hpq : parent index < index := parent_lt index hq0
      have hml_p : min_level (parent index) = true := by
        rw [min_level_parent_flip index hq0 hbq, hml]; rfl
      have hvplt : v < idx a (parent index) := by
        have h5 := hc2.2
        rwa [e_ne (parent index) (by omega)] at h5
      have hdisp : bubble_up (a.set index v) index =
          bubble_up_min (swap (a.set index v) index (parent index))
            (parent index) := by
        rw [bubble_up, if_neg (by simp [hml]),
          if_pos (show has_parent index = true ∧
            idx (a.set index v) index < idx (a.set index v) (parent index)
            from ⟨hc2.1, by rw [e_self]; exact hc2.2⟩)]
      have ha3 : swap (a.set index v) index (parent index) =
          (a.set (parent index) v).set index (idx a (parent index)) := by
        simp only [swap]
        rw [e_self, e_ne (parent index) (by omega),
          List.set_set v (idx a (parent index)) a index]
        exact List.set_comm (idx a (parent index)) v a (by omega)
      have hcomm := bubble_up_min_set (a.set (parent index) v)
        (parent index) index (idx a (parent index)) hpq
      have eB_self : idx (a.set (parent index) v) (parent index) = v :=
        idx_set_self a (parent index) v (by omega)
      have eB_ne : ∀ x, x ≠ parent index →
          idx (a.set (parent index) v) x = idx a x :=
        fun x hx => idx_set_ne a (parent index) v x hx
      have HC : ∀ j2, nodeOK (bubble_up_min (a.set (parent index) v)
          (parent index)) count j2 := by
        intro j2
        refine bubble_up_min_correct (a.set (parent index) v)
          (parent index) count hb (by omega)
          (by rw [List.length_set]; omega) hml_p ?_ ?_ j2
        · intro j3 k3 hk3 hkc3 hex3
          by_cases hk3p : k3 = parent index
          · rw [hk3p] at hk3 ⊢
            rcases (cg_char j3 (parent index)).mp hk3 with
              ⟨h0, hp⟩ | ⟨h2x, hp⟩
            · subst hp
              have hmlpp : min_level (parent (parent index)) = false := by
                rw [min_level_parent_flip (parent index) h0 (by omega),
                  hml_p]
                rfl
              have hgp_lt2 : parent (parent index) < parent index :=
                parent_lt (parent index) h0
              constructor
              · intro ht; rw [hmlpp] at ht; cases ht
              · intro _
                rw [eB_self, eB_ne (parent (parent index)) (by omega)]
                have h5 := (hinv (parent (parent index)) (parent index)
                  ((cg_char _ _).mpr (Or.inl ⟨h0, rfl⟩)) (by omega)).2 hmlpp
                omega
            · exact absurd ⟨hp.symm, hk3p⟩ hex3
          · by_cases hj3p : j3 = parent index
            · rw [hj3p] at hk3 ⊢
              have hkgt : parent index < k3 := cg_gt hk3
              constructor
              · intro _
                rw [eB_self, eB_ne k3 hk3p]
                have h5 := (hinv (parent index) k3 hk3 hkc3).1 hml_p
                omega
              · intro hf; rw [hml_p] at hf; cases hf
            · have e1 := eB_ne j3 hj3p
              have e2 := eB_ne k3 hk3p
              have h5 := hinv j3 k3 hk3 hkc3
              exact ⟨fun ht => by rw [e1, e2]; exact h5.1 ht,
                     fun hf => by rw [e1, e2]; exact h5.2 hf⟩
        · intro hgp2 k3 hk3 hkne3 hkn3
          have hp3 : 2 < parent index := by
            simp [has_gparent] at hgp2
            exact hgp2
          have hml_gp2 : min_level (gparent (parent index)) = true := by
            rw [min_level_gparent_eq (parent index) hp3 (by omega), hml_p]
          have hlt2 : gparent (parent index) < parent index :=
            gparent_lt (parent index) (by omega)
          rw [eB_ne k3 hkne3, eB_ne (gparent (parent index)) (by omega)]
          exact subtree_min_local a count (gparent (parent index)) hb
            hml_gp2 (fun j3 hj3 => hinv j3) k3
            (inSub_trans (inSub_gparent_self (parent index) hp3) k3 hk3)
            hkn3
      have hCp_le : idx (bubble_up_min (a.set (parent index) v)
          (parent index)) (parent index) ≤ idx a (parent index) := by
        rcases bubble_up_min_start (a.set (parent index) v) (parent index)
          (by rw [List.length_set]; omega) with h5 | ⟨hg5, h5⟩
        · rw [h5, eB_self]
          omega
        · have hp3 : 2 < parent index := by
            simp [has_gparent] at hg5
            exact hg5
          have hml_gp2 : min_level (gparent (parent index)) = true := by
            rw [min_level_gparent_eq (parent index) hp3 (by omega), hml_p]
          have hlt2 : gparent (parent index) < parent index :=
            gparent_lt (parent index) (by omega)
          rw [h5, eB_ne (gparent (parent index)) (by omega)]
          exact (hinv (gparent (parent index)) (parent index)
            ((cg_char _ _).mpr (Or.inr ⟨hp3, rfl⟩)) (by omega)).1 hml_gp2
      have hCg : 2 < index →
          idx (bubble_up_min (a.set (parent index) v) (parent index))
            (gparent index) = idx a (gparent index) := by
        intro hq3
        have hp0 : 0 < parent index := by simp only [parent]; omega
        have hgp_lt2 : parent (parent index) < parent index :=
          parent_lt (parent index) hp0
        rw [gparent, bubble_up_min_pframe,
          eB_ne (parent (parent index)) (by omega)]
      rw [hdisp, ha3, hcomm]
      have eD_self : idx ((bubble_up_min (a.set (parent index) v)
          (parent index)).set index (idx a (parent index))) index =
          idx a (parent index) :=
        idx_set_self _ index _
          (by rw [bubble_up_min_length, List.length_set]; omega)
      have eD_ne : ∀ x, x ≠ index →
          idx ((bubble_up_min (a.set (parent index) v)
            (parent index)).set index (idx a (parent index))) x =
          idx (bubble_up_min (a.set (parent index) v) (parent index)) x :=
        fun x hx => idx_set_ne _ index _ x hx
      intro j
      refine sift_down_global _ index count hc0 hb
        (by rw [List.length_set, bubble_up_min_length, List.length_set]
            omega) ?_ ?_ j
      · intro j2 hj2q k hk hkc
        by_cases hkq : k = index
        · rw [hkq] at hk ⊢
          rcases (cg_char j2 index).mp hk with ⟨h0, hp⟩ | ⟨h2x, hp⟩
          · subst hp
            constructor
            · intro _
              rw [eD_self, eD_ne (parent index) (by omega)]
              exact hCp_le
            · intro hf; rw [hml_p] at hf; cases hf
          · subst hp
            have hp0 : 0 < parent index := by simp only [parent]; omega
            have hml_g : min_level (gparent index) = false := by
              rw [min_level_gparent_eq index h2x hbq, hml]
            have hgq : gparent index < index := gparent_lt index (by omega)
            constructor
            · intro ht; rw [hml_g] at ht; cases ht
            · intro _
              rw [eD_self, eD_ne (gparent index) (by omega), hCg h2x]
              exact (hinv (gparent index) (parent index)
                ((cg_char _ _).mpr (Or.inl ⟨hp0, rfl⟩)) (by omega)).2 hml_g
        · have e1 := eD_ne j2 hj2q
          have e2 := eD_ne k hkq
          have h5 := HC j2 k hk hkc
          exact ⟨fun ht => by rw [e1, e2]; exact h5.1 ht,
                 fun hf => by rw [e1, e2]; exact h5.2 hf⟩
      · intro j2 k hj hk hcg hkc k2 hk2 hk2c
        rcases cross_pair hj hk hcg with hjp | ⟨hq3c, hjg, hks⟩
        · subst hjp
          constructor
          · intro _
            rw [eD_ne (parent index) (by omega)]
            by_cases hk2q : k2 = index
            · rw [hk2q, eD_self]
              exact hCp_le
            · rw [eD_ne k2 hk2q]
              have hk2gt : index < k2 := by
                have h5 := inSub_le hk2
                omega
              have hf1 : idx (bubble_up_min (a.set (parent index) v)
                  (parent index)) k2 = idx (a.set (parent index) v) k2 :=
                bubble_up_min_frame _ (parent index) k2
                  (inSub_out (by omega))
              rw [hf1, eB_ne k2 (by omega)]
              have h5 := subtree_min_local a count (parent index) hb hml_p
                (fun j3 hj3 => hinv j3) k2
                (inSub_trans (inSub_parent_self index hq0) k2 hk2) hk2c
              omega
          · intro hf; rw [hml_p] at hf; cases hf
        · subst hjg
          have hp0 : 0 < parent index := by simp only [parent]; omega
          have hml_g : min_level (gparent index) = false := by
            rw [min_level_gparent_eq index hq3c hbq, hml]
          have hgq : gparent index < index := gparent_lt index (by omega)
          constructor
          · intro ht; rw [hml_g] at ht; cases ht
          · intro _
            rw [eD_ne (gparent index) (by omega), hCg hq3c]
            by_cases hk2q : k2 = index
            · rw [hk2q, eD_self]
              exact (hinv (gparent index) (parent index)
                ((cg_char _ _).mpr (Or.inl ⟨hp0, rfl⟩)) (by omega)).2 hml_g
            · rw [eD_ne k2 hk2q]
              have hk2gt : index < k2 := by
                have h5 := inSub_le hk2
                omega
              have hf1 : idx (bubble_up_min (a.set (parent index) v)
                  (parent index)) k2 = idx (a.set (parent index) v) k2 :=
                bubble_up_min_frame _ (parent index) k2
                  (inSub_out (by omega))
              rw [hf1, eB_ne k2 (by omega)]
              exact subtree_max_local a count (gparent index) hb hml_g
                (fun j3 hj3 => hinv j3) k2
                (inSub_trans (inSub_gparent_self index hq3c) k2 hk2) hk2c
    · rw [if_neg hc2] at hok
      cases hok
      refine ⟨rfl, ?_⟩
      intro j
      refine sift_down_global (a.set index v) index count hc0 hb
        (by rw [List.length_set]; omega) ?_ ?_ j
      · intro j2 hj2q k hk hkc
        by_cases hkq : k = index
        · rw [hkq] at hk ⊢
          rcases (cg_char j2 index).mp hk with ⟨h0, hp⟩ | ⟨h2x, hp⟩
          · subst hp
            have hml_p : min_level (parent index) = true := by
              rw [min_level_parent_flip index h0 hbq, hml]; rfl
            have hpq : parent index < index := parent_lt index h0
            constructor
            · intro _
              rw [e_self, e_ne (parent index) (by omega)]
              have hp1 : has_parent index = true := by
                simp [has_parent]; omega
              have h5 : ¬ v < idx (a.set index v) (parent index) :=
                fun hlt => hc2 ⟨hp1, hlt⟩
              rw [e_ne (parent index) (by omega)] at h5
              omega
            · intro hf; rw [hml_p] at hf; cases hf
          · subst hp
            have hml_g : min_level (gparent index) = false := by
              rw [min_level_gparent_eq index h2x hbq, hml]
            have hgq : gparent index < index := gparent_lt index (by omega)
            constructor
            · intro ht; rw [hml_g] at ht; cases ht
            · intro _
              rw [e_self, e_ne (gparent index) (by omega)]
              have h5 := (hinv (gparent index) index hk hidx).2 hml_g
              omega
        · have e1 := e_ne j2 hj2q
          have e2 := e_ne k hkq
          have h5 := hinv j2 k hk hkc
          exact ⟨fun ht => by rw [e1, e2]; exact h5.1 ht,
                 fun hf => by rw [e1, e2]; exact h5.2 hf⟩
      · intro j2 k hj hk hcg hkc k2 hk2 hk2c
        rcases cross_pair hj hk hcg with hjp | ⟨hq3c, hjg, hks⟩
        · subst hjp
          have hq0 : 0 < index := by
            rcases Nat.eq_zero_or_pos index with h0 | h0
            · rw [h0] at hj
              exact absurd (inSub_zero (parent 0)) hj
            · exact h0
          have hml_p : min_level (parent index) = true := by
            rw [min_level_parent_flip index hq0 hbq, hml]; rfl
          have hpq : parent index < index := parent_lt index hq0
          constructor
          · intro _
            rw [e_ne (parent index) (by omega)]
            by_cases hk2q : k2 = index
            · rw [hk2q, e_self]
              have hp1 : has_parent index = true := by
                simp [has_parent]; omega
              have h5 : ¬ v < idx (a.set index v) (parent index) :=
                fun hlt => hc2 ⟨hp1, hlt⟩
              rw [e_ne (parent index) (by omega)] at h5
              omega
            · rw [e_ne k2 hk2q]
              exact subtree_min_local a count (parent index) hb hml_p
                (fun j3 hj3 => hinv j3) k2
                (inSub_trans (inSub_parent_self index hq0) k2 hk2) hk2c
          · intro hf; rw [hml_p] at hf; cases hf
        · subst hjg
          have hml_g : min_level (gparent index) = false := by
            rw [min_level_gparent_eq index hq3c hbq, hml]
          have hgq : gparent index < index := gparent_lt index (by omega)
          constructor
          · intro ht; rw [hml_g] at ht; cases ht
          · intro _
            rw [e_ne (gparent index) (by omega)]
            by_cases hk2q : k2 = index
            · rw [hk2q, e_self]
              have h5 := (hinv (gparent index) index
                ((cg_char _ _).mpr (Or.inr ⟨hq3c, rfl⟩)) hidx).2 hml_g
              omega
            · rw [e_ne k2 hk2q]
              exact subtree_max_local a count (gparent index) hb hml_g
                (fun j3 hj3 => hinv j3) k2
                (inSub_trans (inSub_gparent_self index hq3c) k2 hk2) hk2c

end mmheap

namespace mmheap

open _mmheap

/-- `heap_replace_at_index` at a valid index of a valid heap returns the
old value and preserves the invariant. -/
theorem heap_replace_correct (v index : Nat) (a : List Nat) (count : Nat)
    (hc0 : 0 < count) (hb : count ≤ 2 ^ 62) (hlen : count ≤ a.length)
    (hidx : index < count) (hinv : IsMMHeap a count) :
    ∀ old a2, heap_replace_at_index v index a count = .ok (old, a2) →
      old = idx a index ∧ IsMMHeap a2 count := by
  intro old a2 hok
  have h1 : ¬ count = 0 := by omega
  have h2 : ¬ index > count := by omega
  have hq_len : index < a.length := by omega
  have e_self : idx (a.set index v) index = v := idx_set_self a index v hq_len
  have e_ne : ∀ x, x ≠ index → idx (a.set index v) x = idx a x :=
    fun x hx => idx_set_ne a index v x hx
  have hbq : index + 1 < 2 ^ 64 := by
    have hx : (2:Nat) ^ 62 < 2 ^ 64 := by norm_num
    omega
  rw [heap_replace_at_index, if_neg h1, if_neg h2] at hok
  simp only [] at hok
  cases hml : min_level index with
  | true =>
    rw [if_pos hml] at hok
    by_cases hcmp : v < idx a index
    · rw [if_pos hcmp] at hok
      cases hok
      refine ⟨rfl, ?_⟩
      intro j
      refine bubble_up_min_correct (a.set index v) index count hb hidx
        (by rw [List.length_set]; omega) hml ?_ ?_ j
      · intro j2 k2 hk2 hkc2 hex2
        by_cases hkq : k2 = index
        · rw [hkq] at hk2 ⊢
          rcases (cg_char j2 index).mp hk2 with ⟨h0, hp⟩ | ⟨h2x, hp⟩
          · subst hp
            have hml_p : min_level (parent index) = false := by
              rw [min_level_parent_flip index h0 hbq, hml]; rfl
            have hpq : parent index < index := parent_lt index h0
            constructor
            · intro ht; rw [hml_p] at ht; cases ht
            · intro _
              rw [e_self, e_ne (parent index) (by omega)]
              have h5 := (hinv (parent index) index
                ((cg_char _ _).mpr (Or.inl ⟨h0, rfl⟩)) hidx).2 hml_p
              omega
          · exact absurd ⟨hp.symm, hkq⟩ hex2
        · by_cases hjq : j2 = index
          · rw [hjq] at hk2 ⊢
            have hkgt : index < k2 := cg_gt hk2
            constructor
            · intro _
              rw [e_self, e_ne k2 (by omega)]
              have h5 := (hinv index k2 hk2 hkc2).1 hml
              omega
            · intro hf; rw [hml] at hf; cases hf
          · have e1 := e_ne j2 hjq
            have e2 := e_ne k2 hkq
            have h5 := hinv j2 k2 hk2 hkc2
            exact ⟨fun ht => by rw [e1, e2]; exact h5.1 ht,
                   fun hf => by rw [e1, e2]; exact h5.2 hf⟩
      · intro hgp k2 hk2 hkne hkn2
        have hq3 : 2 < index := by
          simp [has_gparent] at hgp
          exact hgp
        have hml_g : min_level (gparent index) = true := by
          rw [min_level_gparent_eq index hq3 hbq, hml]
        have hgq : gparent index < index := gparent_lt index (by omega)
        rw [e_ne (gparent index) (by omega), e_ne k2 hkne]
        exact subtree_min_local a count (gparent index) hb hml_g
          (fun j3 hj3 => hinv j3) k2
          (inSub_trans (inSub_gparent_self index hq3) k2 hk2) hkn2
    · rw [if_neg hcmp] at hok
      by_cases hc2 : has_parent index = true ∧
          idx (a.set index v) (parent index) < v
      · rw [if_pos hc2] at hok
        cases hok
        refine ⟨rfl, ?_⟩
        have hq0 : 0 < index := by
          have h5 := hc2.1
          simp [has_parent] at h5
          exact h5
        have hq3 : 2 < index := by
          rcases Nat.lt_or_ge 2 index with h3 | h3
          · exact h3
          · exfalso
            rcases (by omega : index = 1 ∨ index = 2) with h4 | h4 <;>
              rw [h4] at hml
            · exact absurd hml (by decide)
            · exact absurd hml (by decide)
        have hpq : parent index < index := parent_lt index hq0
        have hp0 : 0 < parent index := by simp only [parent]; omega
        have hgp_lt2 : parent (parent index) < parent index :=
          parent_lt (parent index) hp0
        have hgq : gparent index < index := gparent_lt index (by omega)
        have hml_p : min_level (parent index) = false := by
          rw [min_level_parent_flip index hq0 hbq, hml]; rfl
        have hml_g : min_level (gparent index) = true := by
          rw [min_level_gparent_eq index hq3 hbq, hml]
        have hvplt : idx a (parent index) < v := by
          have h5 := hc2.2
          rwa [e_ne (parent index) (by omega)] at h5
        have hdisp : bubble_up (a.set index v) index =
            bubble_up_max (swap (a.set index v) index (parent index))
              (parent index) := by
          rw [bubble_up, if_pos hml,
            if_pos (show has_parent index = true ∧
              idx (a.set index v) (parent index) < idx (a.set index v) index
              from ⟨hc2.1, by rw [e_self]; exact hc2.2⟩)]
        have ha3 : swap (a.set index v) index (parent index) =
            (a.set (parent index) v).set index (idx a (parent index)) := by
          simp only [swap]
          rw [e_self, e_ne (parent index) (by omega),
            List.set_set v (idx a (parent index)) a index]
          exact List.set_comm (idx a (parent index)) v a (by omega)
        have hcomm := bubble_up_max_set (a.set (parent index) v)
          (parent index) index (idx a (parent index)) hpq
        have eB_self : idx (a.set (parent index) v) (parent index) = v :=
          idx_set_self a (parent index) v (by omega)
        have eB_ne : ∀ x, x ≠ parent index →
            idx (a.set (parent index) v) x = idx a x :=
          fun x hx => idx_set_ne a (parent index) v x hx
        have HC : ∀ j2, nodeOK (bubble_up_max (a.set (parent index) v)
            (parent index)) count j2 := by
          intro j2
          refine bubble_up_max_correct (a.set (parent index) v)
            (parent index) count hb (by omega)
            (by rw [List.length_set]; omega) hml_p ?_ ?_ j2
          · intro j3 k3 hk3 hkc3 hex3
            by_cases hk3p : k3 = parent index
            · rw [hk3p] at hk3 ⊢
              rcases (cg_char j3 (parent index)).mp hk3 with
                ⟨h0, hp⟩ | ⟨h2x, hp⟩
              · subst hp
                have hmlpp : min_level (parent (parent index)) = true := hml_g
                constructor
                · intro _
                  rw [eB_self, eB_ne (parent (parent index)) (by omega)]
                  have h5 := (hinv (parent (parent index)) (parent index)
                    ((cg_char _ _).mpr (Or.inl ⟨h0, rfl⟩)) (by omega)).1 hmlpp
                  omega
                · intro hf; rw [hmlpp] at hf; cases hf
              · refine absurd ⟨?_, hp.symm, hk3p⟩ hex3
                simp [has_gparent]
                omega
            · by_cases hj3p : j3 = parent index
              · rw [hj3p] at hk3 ⊢
                have hkgt : parent index < k3 := cg_gt hk3
                constructor
                · intro ht; rw [hml_p] at ht; cases ht
                · intro _
                  rw [eB_self, eB_ne k3 hk3p]
                  have h5 := (hinv (parent index) k3 hk3 hkc3).2 hml_p
                  omega
              · have e1 := eB_ne j3 hj3p
                have e2 := eB_ne k3 hk3p
                have h5 := hinv j3 k3 hk3 hkc3
                exact ⟨fun ht => by rw [e1, e2]; exact h5.1 ht,
                       fun hf => by rw [e1, e2]; exact h5.2 hf⟩
          · intro hgp2 k3 hk3 hkne3 hkn3
            have hp3 : 2 < parent index := by
              simp [has_gparent] at hgp2
              exact hgp2
            have hml_gp2 : min_level (gparent (parent index)) = false := by
              rw [min_level_gparent_eq (parent index) hp3 (by omega), hml_p]
            have hlt2 : gparent (parent index) < parent index :=
              gparent_lt (parent index) (by omega)
            rw [eB_ne k3 hkne3, eB_ne (gparent (parent index)) (by omega)]
            exact subtree_max_local a count (gparent (parent index)) hb
              hml_gp2 (fun j3 hj3 => hinv j3) k3
              (inSub_trans (inSub_gparent_self (parent index) hp3) k3 hk3)
              hkn3
        have hCp_ge : idx a (parent index) ≤
            idx (bubble_up_max (a.set (parent index) v) (parent index))
              (parent index) := by
          rcases bubble_up_max_start (a.set (parent index) v) (parent index)
            (by rw [List.length_set]; omega) with h5 | ⟨hg5, h5⟩
          · rw [h5, eB_self]
            omega
          · have hp3 : 2 < parent index := by
              simp [has_gparent] at hg5
              exact hg5
            have hml_gp2 : min_level (gparent (parent index)) = false := by
              rw [min_level_gparent_eq (parent index) hp3 (by omega), hml_p]
            have hlt2 : gparent (parent index) < parent index :=
              gparent_lt (parent index) (by omega)
            rw [h5, eB_ne (gparent (parent index)) (by omega)]
            exact (hinv (gparent (parent index)) (parent index)
              ((cg_char _ _).mpr (Or.inr ⟨hp3, rfl⟩)) (by omega)).2 hml_gp2
        have hCg : idx (bubble_up_max (a.set (parent index) v)
            (parent index)) (gparent index) = idx a (gparent index) := by
          rw [gparent, bubble_up_max_pframe,
            eB_ne (parent (parent index)) (by omega)]
        rw [hdisp, ha3, hcomm]
        have eD_self : idx ((bubble_up_max (a.set (parent index) v)
            (parent index)).set index (idx a (parent index))) index =
            idx a (parent index) :=
          idx_set_self _ index _
            (by rw [bubble_up_max_length, List.length_set]; omega)
        have eD_ne : ∀ x, x ≠ index →
            idx ((bubble_up_max (a.set (parent index) v)
              (parent index)).set index (idx a (parent index))) x =
            idx (bubble_up_max (a.set (parent index) v) (parent index)) x :=
          fun x hx => idx_set_ne _ index _ x hx
        intro j
        refine sift_down_global _ index count hc0 hb
          (by rw [List.length_set, bubble_up_max_length, List.length_set]
              omega) ?_ ?_ j
        · intro j2 hj2q k hk hkc
          by_cases hkq : k = index
          · rw [hkq] at hk ⊢
            rcases (cg_char j2 index).mp hk with ⟨h0, hp⟩ | ⟨h2x, hp⟩
            · subst hp
              constructor
              · intro ht; rw [hml_p] at ht; cases ht
              · intro _
                rw [eD_self, eD_ne (parent index) (by omega)]
                exact hCp_ge
            · subst hp
              constructor
              · intro _
                rw [eD_self, eD_ne (gparent index) (by omega), hCg]
                exact (hinv (gparent index) (parent index)
                  ((cg_char _ _).mpr (Or.inl ⟨hp0, rfl⟩)) (by omega)).1 hml_g
              · intro hf; rw [hml_g] at hf; cases hf
          · have e1 := eD_ne j2 hj2q
            have e2 := eD_ne k hkq
            have h5 := HC j2 k hk hkc
            exact ⟨fun ht => by rw [e1, e2]; exact h5.1 ht,
                   fun hf => by rw [e1, e2]; exact h5.2 hf⟩
        · intro j2 k hj hk hcg hkc k2 hk2 hk2c
          rcases cross_pair hj hk hcg with hjp | ⟨hq3c, hjg, hks⟩
          · subst hjp
            constructor
            · intro ht; rw [hml_p] at ht; cases ht
            · intro _
              rw [eD_ne (parent index) (by omega)]
              by_cases hk2q : k2 = index
              · rw [hk2q, eD_self]
                exact hCp_ge
              · rw [eD_ne k2 hk2q]
                have hk2gt : index < k2 := by
                  have h5 := inSub_le hk2
                  omega
                have hf1 : idx (bubble_up_max (a.set (parent index) v)
                    (parent index)) k2 = idx (a.set (parent index) v) k2 :=
                  bubble_up_max_frame _ (parent index) k2
                    (inSub_out (by omega))
                rw [hf1, eB_ne k2 (by omega)]
                have h5 := subtree_max_local a count (parent index) hb hml_p
                  (fun j3 hj3 => hinv j3) k2
                  (inSub_trans (inSub_parent_self index hq0) k2 hk2) hk2c
                omega
          · subst hjg
            constructor
            · intro _
              rw [eD_ne (gparent index) (by omega), hCg]
              by_cases hk2q : k2 = index
              · rw [hk2q, eD_self]
                exact (hinv (gparent index) (parent index)
                  ((cg_char _ _).mpr (Or.inl ⟨hp0, rfl⟩)) (by omega)).1 hml_g
              · rw [eD_ne k2 hk2q]
                have hk2gt : index < k2 := by
                  have h5 := inSub_le hk2
                  omega
                have hf1 : idx (bubble_up_max (a.set (parent index) v)
                    (parent index)) k2 = idx (a.set (parent index) v) k2 :=
                  bubble_up_max_frame _ (parent index) k2
                    (inSub_out (by omega))
                rw [hf1, eB_ne k2 (by omega)]
                exact subtree_min_local a count (gparent index) hb hml_g
                  (fun j3 hj3 => hinv j3) k2
                  (inSub_trans (inSub_gparent_self index hq3) k2 hk2) hk2c
            · intro hf; rw [hml_g] at hf; cases hf
      · rw [if_neg hc2] at hok
        cases hok
        refine ⟨rfl, ?_⟩
        intro j
        refine sift_down_global (a.set index v) index count hc0 hb
          (by rw [List.length_set]; omega) ?_ ?_ j
        · intro j2 hj2q k hk hkc
          by_cases hkq : k = index
          · rw [hkq] at hk ⊢
            rcases (cg_char j2 index).mp hk with ⟨h0, hp⟩ | ⟨h2x, hp⟩
            · subst hp
              have hml_p : min_level (parent index) = false := by
                rw [min_level_parent_flip index h0 hbq, hml]; rfl
              have hpq : parent index < index := parent_lt index h0
              constructor
              · intro ht; rw [hml_p] at ht; cases ht
              · intro _
                rw [e_self, e_ne (parent index) (by omega)]
                have hp1 : has_parent index = true := by
                  simp [has_parent]; omega
                have h5 : ¬ idx (a.set index v) (parent index) < v :=
                  fun hlt => hc2 ⟨hp1, hlt⟩
                rw [e_ne (parent index) (by omega)] at h5
                omega
            · subst hp
              have hml_g : min_level (gparent index) = true := by
                rw [min_level_gparent_eq index h2x hbq, hml]
              have hgq : gparent index < index := gparent_lt index (by omega)
              constructor
              · intro _
                rw [e_self, e_ne (gparent index) (by omega)]
                have h5 := (hinv (gparent index) index hk hidx).1 hml_g
                omega
              · intro hf; rw [hml_g] at hf; cases hf
          · have e1 := e_ne j2 hj2q
            have e2 := e_ne k hkq
            have h5 := hinv j2 k hk hkc
            exact ⟨fun ht => by rw [e1, e2]; exact h5.1 ht,
                   fun hf => by rw [e1, e2]; exact h5.2 hf⟩
        · intro j2 k hj hk hcg hkc k2 hk2 hk2c
          rcases cross_pair hj hk hcg with hjp | ⟨hq3c, hjg, hks⟩
          · subst hjp
            have hq0 : 0 < index := by
              rcases Nat.eq_zero_or_pos index with h0 | h0
              · rw [h0] at hj
                exact absurd (inSub_zero (parent 0)) hj
              · exact h0
            have hml_p : min_level (parent index) = false := by
              rw [min_level_parent_flip index hq0 hbq, hml]; rfl
            have hpq : parent index < index := parent_lt index hq0
            constructor
            · intro ht; rw [hml_p] at ht; cases ht
            · intro _
              rw [e_ne (parent index) (by omega)]
              by_cases hk2q : k2 = index
              · rw [hk2q, e_self]
                have hp1 : has_parent index = true := by
                  simp [has_parent]; omega
                have h5 : ¬ idx (a.set index v) (parent index) < v :=
                  fun hlt => hc2 ⟨hp1, hlt⟩
                rw [e_ne (parent index) (by omega)] at h5
                omega
              · rw [e_ne k2 hk2q]
                exact subtree_max_local a count (parent index) hb hml_p
                  (fun j3 hj3 => hinv j3) k2
                  (inSub_trans (inSub_parent_self index hq0) k2 hk2) hk2c
          · subst hjg
            have hq3 : 2 < index := hq3c
            have hml_g : min_level (gparent index) = true := by
              rw [min_level_gparent_eq index hq3 hbq, hml]
            have hgq : gparent index < index := gparent_lt index (by omega)
            constructor
            · intro _
              rw [e_ne (gparent index) (by omega)]
              by_cases hk2q : k2 = index
              · rw [hk2q, e_self]
                have h5 := (hinv (gparent index) index
                  ((cg_char _ _).mpr (Or.inr ⟨hq3, rfl⟩)) hidx).1 hml_g
                omega
              · rw [e_ne k2 hk2q]
                exact subtree_min_local a count (gparent index) hb hml_g
                  (fun j3 hj3 => hinv j3) k2
                  (inSub_trans (inSub_gparent_self index hq3) k2 hk2) hk2c
            · intro hf; rw [hml_g] at hf; cases hf
  | false =>
    rw [if_neg (by simp [hml])] at hok
    exact hreplace_max v index a count hc0 hb hlen hidx hinv hml old a2 hok

end mmheap

namespace mmheap

open _mmheap

theorem IsMMHeap_mono {a : List Nat} {n m : Nat} (h : IsMMHeap a n)
    (hmn : m ≤ n) : IsMMHeap a m :=
  fun j k hk hkc => h j k hk (by omega)

/-- `heap_remove_at_index` at a valid index returns the removed value,
decrements the count and preserves the invariant. -/
theorem heap_remove_at_index_correct (index : Nat) (a : List Nat)
    (count : Nat) (hc0 : 0 < count) (hb : count ≤ 2 ^ 62)
    (hlen : count ≤ a.length) (hidx : index < count)
    (hinv : IsMMHeap a count) :
    ∀ old a2 c2, heap_remove_at_index index a count = .ok (old, a2, c2) →
      old = idx a index ∧ c2 = count - 1 ∧ IsMMHeap a2 (count - 1) := by
  intro old a2 c2 hok
  rw [heap_remove_at_index, if_neg (by omega : ¬ count = 0),
    if_neg (by omega : ¬ index > count)] at hok
  cases hres : heap_replace_at_index (idx a (count - 1)) index a count with
  | error e =>
    rw [hres] at hok
    cases hok
  | ok p =>
    rw [hres] at hok
    cases hok
    obtain ⟨h1, h2⟩ := heap_replace_correct (idx a (count - 1)) index a
      count hc0 hb hlen hidx hinv p.1 p.2 hres
    exact ⟨h1, rfl, IsMMHeap_mono h2 (by omega)⟩

/-- `heap_remove_min` preservation. -/
theorem heap_remove_min_correct (a : List Nat) (count : Nat)
    (hb : count ≤ 2 ^ 62) (hlen : count ≤ a.length)
    (hinv : IsMMHeap a count) :
    ∀ val a2 c2, heap_remove_min a count = .ok (val, a2, c2) →
      val = idx a 0 ∧ c2 = count - 1 ∧ IsMMHeap a2 (count - 1) := by
  intro val a2 c2 hok
  rw [heap_remove_min] at hok
  by_cases hc0 : count = 0
  · rw [if_pos hc0] at hok
    cases hok
  · rw [if_neg hc0] at hok
    simp only [] at hok
    cases hok
    refine ⟨rfl, rfl, ?_⟩
    by_cases h2 : count - 1 > 0
    · rw [if_pos h2]
      intro j
      refine sift_down_global (swap a 0 (count - 1)) 0 (count - 1)
        (by omega) (by omega) (by rw [swap_length]; omega) ?_ ?_ j
      · intro j2 hj2 k hk hkc
        have hkj : j2 < k := cg_gt hk
        have hj2p : 0 < j2 := by omega
        have e1 : idx (swap a 0 (count - 1)) j2 = idx a j2 :=
          idx_swap_ne a 0 (count - 1) j2 (by omega) (by omega)
        have e2 : idx (swap a 0 (count - 1)) k = idx a k :=
          idx_swap_ne a 0 (count - 1) k (by omega) (by omega)
        have h5 := hinv j2 k hk (by omega)
        exact ⟨fun ht => by rw [e1, e2]; exact h5.1 ht,
               fun hf => by rw [e1, e2]; exact h5.2 hf⟩
      · intro j2 k hj hk hcg hkc k2 hk2 hk2c
        exact absurd (inSub_zero j2) hj
    · rw [if_neg h2]
      intro j k hk hkc
      exact absurd hkc (by omega)

/-- `heap_remove_max` preservation. -/
theorem heap_remove_max_correct (a : List Nat) (count : Nat)
    (hc0 : 0 < count) (hb : count ≤ 2 ^ 62) (hlen : count ≤ a.length)
    (hinv : IsMMHeap a count) :
    ∀ val a2 c2, heap_remove_max a count = .ok (val, a2, c2) →
      c2 = count - 1 ∧ IsMMHeap a2 (count - 1) := by
  intro val a2 c2 hok
  rw [heap_remove_max, if_neg (by omega : ¬ count = 0)] at hok
  simp only [] at hok
  have hmi : (if (max_child a 0 (count - 1)).1 = true
      then (max_child a 0 (count - 1)).2 else 0) < count := by
    by_cases hl : left 0 ≤ count - 1
    · obtain ⟨mm, hmeq, hmr, hmc, hmax⟩ := max_child_max a 0 (count - 1) hl
      rw [hmeq]
      have he : (true, mm).1 = true := rfl
      rw [if_pos he]
      omega
    · by_cases hfl : (max_child a 0 (count - 1)).1 = true
      · rw [if_pos hfl]
        rw [max_child, if_neg hl] at hfl
        cases hfl
      · rw [if_neg hfl]
        omega
  cases hres : heap_remove_at_index
      (if (max_child a 0 (count - 1)).1 = true
        then (max_child a 0 (count - 1)).2 else 0) a count with
  | error e =>
    rw [hres] at hok
    cases hok
  | ok p =>
    obtain ⟨p1, p2, p3⟩ := p
    rw [hres] at hok
    cases hok
    obtain ⟨h1, h2, h3⟩ := heap_remove_at_index_correct _ a count hc0 hb
      hlen hmi hinv p1 a2 c2 hres
    exact ⟨h2, h3⟩

end mmheap


namespace mmheap

open _mmheap

/-- `heap_insert_circular` preserves the invariant and the count bound. -/
theorem heap_insert_circular_correct (v : Nat) (a : List Nat)
    (count max_size : Nat) (hb : count + 1 ≤ 2 ^ 62)
    (hcap : max_size ≤ a.length) (hcnt : count ≤ max_size)
    (hinv : IsMMHeap a count) :
    ∀ res a2 c2, heap_insert_circular v a count max_size =
        some (res, a2, c2) →
      IsMMHeap a2 c2 ∧ c2 ≤ max_size := by
  intro res a2 c2 hok
  rw [heap_insert_circular] at hok
  by_cases hfull : count = max_size
  · rw [if_pos hfull] at hok
    simp only [] at hok
    by_cases hvm : v < idx a (if max_size > 1
        then (max_child a 0 (max_size - 1)).2 else 0)
    · rw [if_pos hvm] at hok
      cases hok
      refine ⟨?_, by omega⟩
      by_cases hms : max_size > 1
      · simp only [if_pos hms] at hvm ⊢
        obtain ⟨mm, hmeq, hmr, hmc, hmax⟩ :=
          max_child_max a 0 (max_size - 1) (by simp only [left]; omega)
        have hm2 : (max_child a 0 (max_size - 1)).2 = mm := by rw [hmeq]
        rw [hm2] at hvm ⊢
        have hm12 : mm = 1 ∨ mm = 2 := by
          simp only [left, right] at hmc
          omega
        have hm0 : 0 < mm := by omega
        have hmlt : mm < count := by omega
        have hpm : parent mm = 0 := by simp only [parent]; omega
        have hmm_len : mm < a.length := by omega
        have e_self : idx (a.set mm v) mm = v := idx_set_self a mm v hmm_len
        have e_ne : ∀ x, x ≠ mm → idx (a.set mm v) x = idx a x :=
          fun x hx => idx_set_ne a mm v x hx
        have hroot : ∀ k, k < count → idx a 0 ≤ idx a k := by
          intro k hkc
          exact subtree_min_local a count 0 (by omega) min_level_zero
            (fun j3 hj3 => hinv j3) k (inSub_zero k) hkc
        have hsz : count = max_size := hfull
        rw [← hsz]
        by_cases hv0 : v < idx (a.set mm v) 0
        · rw [if_pos hv0]
          rw [e_ne 0 (by omega)] at hv0
          have eA0 : idx (swap (a.set mm v) 0 mm) 0 = v := by
            rw [idx_swap_fst (a.set mm v) 0 mm
              (by rw [List.length_set]; omega), e_self]
          have eAm : idx (swap (a.set mm v) 0 mm) mm = idx a 0 := by
            rw [idx_swap_snd (a.set mm v) 0 mm
              (by rw [List.length_set]; omega), e_ne 0 (by omega)]
          have eAx : ∀ x, x ≠ 0 → x ≠ mm →
              idx (swap (a.set mm v) 0 mm) x = idx a x := by
            intro x h1 h2
            rw [idx_swap_ne (a.set mm v) 0 mm x h1 h2, e_ne x h2]
          intro j
          refine sift_down_global (swap (a.set mm v) 0 mm) mm count
            (by omega) (by omega)
            (by rw [swap_length, List.length_set]; omega) ?_ ?_ j
          · intro j2 hj2m k hk hkc
            by_cases hj0 : j2 = 0
            · rw [hj0] at hk ⊢
              constructor
              · intro _
                rw [eA0]
                have hkgt : 0 < k := cg_gt hk
                by_cases hkm : k = mm
                · rw [hkm, eAm]
                  omega
                · rw [eAx k (by omega) hkm]
                  have h5 := hroot k hkc
                  omega
              · intro hf
                rw [min_level_zero] at hf
                cases hf
            · have hj2p : 0 < j2 := by omega
              have hkgt : j2 < k := cg_gt hk
              have hk3 : 2 * j2 + 1 ≤ k := cg_ge_left hk
              have e1 : idx (swap (a.set mm v) 0 mm) j2 = idx a j2 :=
                eAx j2 (by omega) hj2m
              have e2 : idx (swap (a.set mm v) 0 mm) k = idx a k :=
                eAx k (by omega) (by omega)
              have h5 := hinv j2 k hk hkc
              exact ⟨fun ht => by rw [e1, e2]; exact h5.1 ht,
                     fun hf => by rw [e1, e2]; exact h5.2 hf⟩
          · intro j2 k hj hk hcg hkc k2 hk2 hk2c
            rcases cross_pair hj hk hcg with hjp | ⟨hq3c, hjg, hks⟩
            · subst hjp
              rw [hpm]
              constructor
              · intro _
                rw [eA0]
                by_cases hk2m : k2 = mm
                · rw [hk2m, eAm]
                  omega
                · have hk2gt : mm < k2 := by
                    have h5 := inSub_le hk2
                    omega
                  rw [eAx k2 (by omega) hk2m]
                  have h5 := hroot k2 hk2c
                  omega
              · intro hf
                rw [min_level_zero] at hf
                cases hf
            · omega
        · rw [if_neg hv0]
          rw [e_ne 0 (by omega)] at hv0
          intro j
          refine sift_down_global (a.set mm v) mm count
            (by omega) (by omega) (by rw [List.length_set]; omega) ?_ ?_ j
          · intro j2 hj2m k hk hkc
            by_cases hj0 : j2 = 0
            · rw [hj0] at hk ⊢
              constructor
              · intro _
                rw [e_ne 0 (by omega)]
                have hkgt : 0 < k := cg_gt hk
                by_cases hkm : k = mm
                · rw [hkm, e_self]
                  omega
                · rw [e_ne k hkm]
                  exact hroot k hkc
              · intro hf
                rw [min_level_zero] at hf
                cases hf
            · have hj2p : 0 < j2 := by omega
              have hk3 : 2 * j2 + 1 ≤ k := cg_ge_left hk
              have e1 : idx (a.set mm v) j2 = idx a j2 := e_ne j2 hj2m
              have e2 : idx (a.set mm v) k = idx a k := e_ne k (by omega)
              have h5 := hinv j2 k hk hkc
              exact ⟨fun ht => by rw [e1, e2]; exact h5.1 ht,
                     fun hf => by rw [e1, e2]; exact h5.2 hf⟩
          · intro j2 k hj hk hcg hkc k2 hk2 hk2c
            rcases cross_pair hj hk hcg with hjp | ⟨hq3c, hjg, hks⟩
            · subst hjp
              rw [hpm]
              constructor
              · intro _
                rw [e_ne 0 (by omega)]
                by_cases hk2m : k2 = mm
                · rw [hk2m, e_self]
                  omega
                · rw [e_ne k2 hk2m]
                  exact hroot k2 hk2c
              · intro hf
                rw [min_level_zero] at hf
                cases hf
            · omega
      · simp only [if_neg hms]
        intro j k hk hkc
        have h5 := cg_ge_left hk
        simp only [left] at h5
        exact absurd hkc (by omega)
    · rw [if_neg hvm] at hok
      cases hok
      exact ⟨hinv, by omega⟩
  · rw [if_neg hfull] at hok
    cases hres : heap_insert v a count max_size with
    | none =>
      rw [hres] at hok
      cases hok
    | some s =>
      obtain ⟨s1, s2⟩ := s
      rw [hres] at hok
      cases hok
      obtain ⟨h1, h2⟩ := heap_insert_correct v a count max_size hb
        (by omega) hinv s1 s2 hres
      have hc : count < max_size := by
        rw [heap_insert] at hres
        by_cases hlt : count < max_size
        · exact hlt
        · rw [if_neg hlt] at hres
          cases hres
      exact ⟨h2 ▸ h1, by omega⟩

end mmheap

namespace mmheap

open _mmheap

theorem make_heap_loop_length :
    ∀ (a : List Nat) (size c : Nat),
      (make_heap_loop a size c).length = a.length := by
  intro a size c
  induction a, size, c using make_heap_loop.induct with
  | case1 a size =>
    rw [make_heap_loop]
    simp only [if_pos rfl]
    show (sift_down a 0 (size - 1)).length = a.length
    rw [sift_down_length]
  | case2 a size c a2 hc ih =>
    rw [make_heap_loop]
    simp only [if_neg hc]
    show (make_heap_loop (sift_down a c (size - 1)) size (c - 1)).length =
      a.length
    rw [ih]
    show (sift_down a c (size - 1)).length = a.length
    rw [sift_down_length]

theorem make_heap_length (a : List Nat) (size : Nat) :
    (make_heap a size).length = a.length := by
  rw [make_heap]
  by_cases h : size > 1
  · rw [if_pos h, make_heap_loop_length]
  · rw [if_neg h]

theorem heap_replace_length (v index : Nat) (a : List Nat) (count : Nat) :
    ∀ old a2, heap_replace_at_index v index a count = .ok (old, a2) →
      a2.length = a.length := by
  intro old a2 hok
  rw [heap_replace_at_index] at hok
  by_cases h0 : count = 0
  · rw [if_pos h0] at hok
    cases hok
  · rw [if_neg h0] at hok
    by_cases h1 : index > count
    · rw [if_pos h1] at hok
      cases hok
    · rw [if_neg h1] at hok
      simp only [] at hok
      by_cases hml : min_level index = true
      · rw [if_pos hml] at hok
        by_cases hcmp : v < idx a index
        · rw [if_pos hcmp] at hok
          cases hok
          rw [bubble_up_min_length, List.length_set]
        · rw [if_neg hcmp] at hok
          cases hok
          rw [sift_down_length]
          by_cases hc2 : has_parent index = true ∧
              idx (a.set index v) (parent index) < v
          · rw [if_pos hc2, bubble_up_length, List.length_set]
          · rw [if_neg hc2, List.length_set]
      · rw [if_neg hml] at hok
        by_cases hcmp : idx a index < v
        · rw [if_pos hcmp] at hok
          cases hok
          rw [bubble_up_max_length, List.length_set]
        · rw [if_neg hcmp] at hok
          cases hok
          rw [sift_down_length]
          by_cases hc2 : has_parent index = true ∧
              v < idx (a.set index v) (parent index)
          · rw [if_pos hc2, bubble_up_length, List.length_set]
          · rw [if_neg hc2, List.length_set]

theorem heap_remove_at_index_length (index : Nat) (a : List Nat)
    (count : Nat) :
    ∀ old a2 c2, heap_remove_at_index index a count = .ok (old, a2, c2) →
      a2.length = a.length ∧ c2 = count - 1 := by
  intro old a2 c2 hok
  rw [heap_remove_at_index] at hok
  by_cases h0 : count = 0
  · rw [if_pos h0] at hok
    cases hok
  · rw [if_neg h0] at hok
    by_cases h1 : index > count
    · rw [if_pos h1] at hok
      cases hok
    · rw [if_neg h1] at hok
      cases hres : heap_replace_at_index (idx a (count - 1)) index a count
        with
      | error e =>
        rw [hres] at hok
        cases hok
      | ok p =>
        obtain ⟨p1, p2⟩ := p
        rw [hres] at hok
        cases hok
        exact ⟨heap_replace_length _ index a count p1 p2 hres, rfl⟩

theorem heap_remove_min_length (a : List Nat) (count : Nat) :
    ∀ v a2 c2, heap_remove_min a count = .ok (v, a2, c2) →
      a2.length = a.length ∧ c2 = count - 1 := by
  intro v a2 c2 hok
  rw [heap_remove_min] at hok
  by_cases h0 : count = 0
  · rw [if_pos h0] at hok
    cases hok
  · rw [if_neg h0] at hok
    simp only [] at hok
    cases hok
    refine ⟨?_, rfl⟩
    by_cases h2 : count - 1 > 0
    · rw [if_pos h2, sift_down_length, swap_length]
    · rw [if_neg h2, swap_length]

theorem heap_remove_max_length (a : List Nat) (count : Nat) :
    ∀ v a2 c2, heap_remove_max a count = .ok (v, a2, c2) →
      a2.length = a.length ∧ c2 = count - 1 := by
  intro v a2 c2 hok
  rw [heap_remove_max] at hok
  by_cases h0 : count = 0
  · rw [if_pos h0] at hok
    cases hok
  · rw [if_neg h0] at hok
    simp only [] at hok
    cases hres : heap_remove_at_index
        (if (max_child a 0 (count - 1)).1 = true
          then (max_child a 0 (count - 1)).2 else 0) a count with
    | error e =>
      rw [hres] at hok
      cases hok
    | ok p =>
      obtain ⟨p1, p2, p3⟩ := p
      rw [hres] at hok
      cases hok
      exact heap_remove_at_index_length _ a count p1 a2 c2 hres

theorem heap_insert_length (v : Nat) (a : List Nat) (count max_size : Nat) :
    ∀ a2 c2, heap_insert v a count max_size = some (a2, c2) →
      a2.length = a.length ∧ c2 = count + 1 ∧ count < max_size := by
  intro a2 c2 hok
  rw [heap_insert] at hok
  by_cases hlt : count < max_size
  · rw [if_pos hlt] at hok
    cases hok
    exact ⟨by rw [bubble_up_length, List.length_set], rfl, hlt⟩
  · rw [if_neg hlt] at hok
    cases hok

theorem heap_insert_circular_length (v : Nat) (a : List Nat)
    (count max_size : Nat) :
    ∀ res a2 c2, heap_insert_circular v a count max_size =
        some (res, a2, c2) →
      a2.length = a.length ∧
        (c2 = count ∨ (c2 = count + 1 ∧ count < max_size)) := by
  intro res a2 c2 hok
  rw [heap_insert_circular] at hok
  by_cases hfull : count = max_size
  · rw [if_pos hfull] at hok
    simp only [] at hok
    by_cases hvm : v < idx a (if max_size > 1
        then (max_child a 0 (max_size - 1)).2 else 0)
    · rw [if_pos hvm] at hok
      cases hok
      refine ⟨?_, Or.inl rfl⟩
      by_cases hms : max_size > 1
      · rw [if_pos hms, sift_down_length]
        by_cases hv0 : v < idx
            (a.set (if max_size > 1
              then (max_child a 0 (max_size - 1)).2 else 0) v) 0
        · rw [if_pos hv0, swap_length, List.length_set]
        · rw [if_neg hv0, List.length_set]
      · rw [if_neg hms, List.length_set]
    · rw [if_neg hvm] at hok
      cases hok
      exact ⟨rfl, Or.inl rfl⟩
  · rw [if_neg hfull] at hok
    cases hres : heap_insert v a count max_size with
    | none =>
      rw [hres] at hok
      cases hok
    | some s =>
      obtain ⟨s1, s2⟩ := s
      rw [hres] at hok
      cases hok
      obtain ⟨h1, h2, h3⟩ := heap_insert_length v a count max_size s1 s2 hres
      exact ⟨h1, Or.inr ⟨h2, h3⟩⟩

/-- every reachable heap state keeps the count within the storage and,
as long as the storage is addressable, satisfies the min-max invariant. -/
theorem reach_inv : ∀ {a : List Nat} {count : Nat}, Reach a count →
    count ≤ a.length ∧ (a.length ≤ 2 ^ 62 - 1 → IsMMHeap a count) := by
  intro a count h
  induction h with
  | empty a =>
    exact ⟨by omega, fun _ j k hk hkc => absurd hkc (by omega)⟩
  | mk a size hsize =>
    refine ⟨by rw [make_heap_length]; exact hsize, fun hL => ?_⟩
    rw [make_heap_length] at hL
    exact make_heap_correct a size (by omega) hsize
  | insert value max_size h hcap hop ih =>
    obtain ⟨hlen2, hcc, hlt⟩ := heap_insert_length value _ _ max_size _ _ hop
    refine ⟨by rw [hlen2]; omega, fun hL => ?_⟩
    rw [hlen2] at hL
    have hinv := ih.2 hL
    obtain ⟨h1, h2⟩ := heap_insert_correct value _ _ max_size
      (by omega) hcap hinv _ _ hop
    exact h1
  | remove_min h hop ih =>
    obtain ⟨hlen2, hcc⟩ := heap_remove_min_length _ _ _ _ _ hop
    refine ⟨by rw [hlen2]; omega, fun hL => ?_⟩
    rw [hlen2] at hL
    have hinv := ih.2 hL
    obtain ⟨h1, h2, h3⟩ := heap_remove_min_correct _ _ (by omega)
      (by omega) hinv _ _ _ hop
    exact h2 ▸ h3
  | @remove_max a0 count0 v0 a0p count0p h hop ih =>
    obtain ⟨hlen2, hcc⟩ := heap_remove_max_length _ _ _ _ _ hop
    have hc0 : 0 < count0 := by
      by_contra h0
      have h1 : count0 = 0 := by omega
      rw [h1, heap_remove_max, if_pos rfl] at hop
      cases hop
    refine ⟨by rw [hlen2]; omega, fun hL => ?_⟩
    rw [hlen2] at hL
    have hinv := ih.2 hL
    obtain ⟨h2, h3⟩ := heap_remove_max_correct _ _ hc0 (by omega)
      (by omega) hinv _ _ _ hop
    exact h2 ▸ h3
  | insert_circular value max_size h hcap hcount hop ih =>
    obtain ⟨hlen2, hcc⟩ := heap_insert_circular_length value _ _ max_size
      _ _ _ hop
    refine ⟨by
      rw [hlen2]
      rcases hcc with h5 | ⟨h5, h6⟩ <;> omega, fun hL => ?_⟩
    rw [hlen2] at hL
    have hinv := ih.2 hL
    obtain ⟨h1, h2⟩ := heap_insert_circular_correct value _ _ max_size
      (by omega) hcap hcount hinv _ _ _ hop
    exact h1
  | replace new_value index h hidx hop ih =>
    have hlen2 := heap_replace_length new_value index _ _ _ _ hop
    refine ⟨by rw [hlen2]; omega, fun hL => ?_⟩
    rw [hlen2] at hL
    have hinv := ih.2 hL
    obtain ⟨h1, h2⟩ := heap_replace_correct new_value index _ _
      (by omega) (by omega) (by omega) hidx hinv _ _ hop
    exact h2
  | remove_at index h hidx hop ih =>
    obtain ⟨hlen2, hcc⟩ := heap_remove_at_index_length index _ _ _ _ _ hop
    refine ⟨by rw [hlen2]; omega, fun hL => ?_⟩
    rw [hlen2] at hL
    have hinv := ih.2 hL
    obtain ⟨h1, h2, h3⟩ := heap_remove_at_index_correct index _ _
      (by omega) (by omega) (by omega) hidx hinv _ _ _ hop
    exact h2 ▸ h3

end mmheap

namespace _mmheap

theorem drop_eq_of_frame (A B : List Nat) (m : Nat)
    (hlen : A.length = B.length)
    (hframe : ∀ i, m ≤ i → idx A i = idx B i) :
    A.drop m = B.drop m := by
  apply List.ext_getElem
  · simp [hlen]
  · intro i h1 h2
    simp only [List.getElem_drop]
    rw [← mmheap.idx_eq_getElem A (m + i) (by simp at h1; omega),
      ← mmheap.idx_eq_getElem B (m + i) (by simp at h2; omega)]
    exact hframe (m + i) (by omega)

theorem take_perm_of_perm_frame (A B : List Nat) (m : Nat)
    (hlen : A.length = B.length) (hperm : A.Perm B)
    (hframe : ∀ i, m ≤ i → idx A i = idx B i) :
    (A.take m).Perm (B.take m) := by
  have hd : A.drop m = B.drop m := drop_eq_of_frame A B m hlen hframe
  have h1 : (A.take m ++ A.drop m).Perm (B.take m ++ B.drop m) := by
    rw [List.take_append_drop, List.take_append_drop]
    exact hperm
  rw [hd] at h1
  exact (List.perm_append_right_iff (B.drop m)).mp h1

theorem perm_get_eraseIdx (l : List Nat) (i : Nat) (h : i < l.length) :
    l.Perm (l[i] :: l.eraseIdx i) := by
  conv_lhs => rw [← List.take_append_drop (i + 1) l,
    ← List.take_concat_get' l i h]
  rw [List.eraseIdx_eq_take_drop_succ, List.append_assoc,
    List.singleton_append]
  exact List.perm_middle

theorem sift_take_perm (a : List Nat) (s r m : Nat) (hlen : r < a.length)
    (hm : r < m) : ((sift_down a s r).take m).Perm (a.take m) :=
  take_perm_of_perm_frame _ a m (sift_down_length a s r)
    (sift_down_perm a s r hlen)
    (fun i hi => sift_down_frame a s r i (Or.inr (by omega)))

theorem bubble_take_perm (a : List Nat) (b m : Nat) (hlen : b < a.length)
    (hm : b < m) : ((bubble_up a b).take m).Perm (a.take m) :=
  take_perm_of_perm_frame _ a m (bubble_up_length a b)
    (bubble_up_perm a b hlen)
    (fun i hi => bubble_up_frame a b i (inSub_out (by omega)))

theorem bubble_min_take_perm (a : List Nat) (b m : Nat) (hlen : b < a.length)
    (hm : b < m) : ((bubble_up_min a b).take m).Perm (a.take m) :=
  take_perm_of_perm_frame _ a m (bubble_up_min_length a b)
    (bubble_up_min_perm a b hlen)
    (fun i hi => bubble_up_min_frame a b i (inSub_out (by omega)))

theorem bubble_max_take_perm (a : List Nat) (b m : Nat) (hlen : b < a.length)
    (hm : b < m) : ((bubble_up_max a b).take m).Perm (a.take m) :=
  take_perm_of_perm_frame _ a m (bubble_up_max_length a b)
    (bubble_up_max_perm a b hlen)
    (fun i hi => bubble_up_max_frame a b i (inSub_out (by omega)))

/-- setting slot `i` of the occupied prefix replaces one occurrence of the
old value by the new one, as a permutation statement. -/
theorem set_perm_cons_eraseIdx (l : List Nat) (i v : Nat)
    (h : i < l.length) : (l.set i v).Perm (v :: l.eraseIdx i) := by
  rw [List.set_eq_take_cons_drop v h, List.eraseIdx_eq_take_drop_succ]
  exact List.perm_middle

theorem set_take_perm (a : List Nat) (i v m : Nat) (hi : i < m)
    (hm : m ≤ a.length) :
    ((a.set i v).take m).Perm (v :: (a.take m).eraseIdx i) := by
  rw [List.set_take]
  have hil : i < (a.take m).length := by
    rw [List.length_take_of_le hm]
    omega
  exact set_perm_cons_eraseIdx (a.take m) i v hil

end _mmheap

namespace mmheap

open _mmheap

theorem take_cons_eraseIdx_mset (l : List Nat) (i m : Nat) (hi : i < m)
    (hm : m ≤ l.length) :
    (↑(l.take m) : Multiset Nat) =
      idx l i ::ₘ ↑((l.take m).eraseIdx i) := by
  have hil : i < (l.take m).length := by
    rw [List.length_take_of_le hm]
    omega
  have h1 := perm_get_eraseIdx (l.take m) i hil
  have h2 : (l.take m)[i] = idx l i := by
    rw [List.getElem_take l, idx_eq_getElem l i (by omega)]
  rw [h2] at h1
  exact Multiset.coe_eq_coe.mpr h1

/-- the occupied prefix after `heap_replace_at_index` holds the original
multiset with the value at `index` replaced by the new value. -/
theorem heap_replace_perm (v index : Nat) (a : List Nat) (count : Nat)
    (hc0 : 0 < count) (hlen : count ≤ a.length) (hidx : index < count) :
    ∀ old a2, heap_replace_at_index v index a count = .ok (old, a2) →
      (a2.take count).Perm (v :: (a.take count).eraseIdx index) := by
  have hseti : ((a.set index v).take count).Perm
      (v :: (a.take count).eraseIdx index) :=
    set_take_perm a index v count hidx hlen
  have hlen_set : count ≤ (a.set index v).length := by
    rw [List.length_set]
    omega
  intro old a2 hok
  rw [heap_replace_at_index, if_neg (by omega : ¬ count = 0),
    if_neg (by omega : ¬ index > count)] at hok
  simp only [] at hok
  have hbig : ∀ (C : List Nat), C.length = a.length →
      (C.take count).Perm
        ((v :: (a.take count).eraseIdx (parent index) :
          List Nat)) →
      idx C index = idx a index →
      ((sift_down (C.set index (idx a (parent index))) index (count - 1)
        ).take count).Perm (v :: (a.take count).eraseIdx index) := by
    intro C hClen hCperm hCidx
    have p1 : (((sift_down (C.set index (idx a (parent index))) index
        (count - 1)).take count)).Perm
        ((C.set index (idx a (parent index))).take count) :=
      sift_take_perm _ index (count - 1) count
        (by rw [List.length_set, hClen]; omega) (by omega)
    have p2 : ((C.set index (idx a (parent index))).take count).Perm
        (idx a (parent index) :: (C.take count).eraseIdx index) :=
      set_take_perm C index _ count hidx (by rw [hClen]; omega)
    refine (p1.trans p2).trans ?_
    apply Multiset.coe_eq_coe.mp
    show (idx a (parent index) ::ₘ ↑((C.take count).eraseIdx index)
      : Multiset Nat) = v ::ₘ ↑((a.take count).eraseIdx index)
    apply (Multiset.cons_inj_right (idx a index)).mp
    have hm1 : (↑(C.take count) : Multiset Nat) =
        idx a index ::ₘ ↑((C.take count).eraseIdx index) := by
      have h5 := take_cons_eraseIdx_mset C index count hidx
        (by rw [hClen]; omega)
      rw [hCidx] at h5
      exact h5
    have hm2 : (↑(C.take count) : Multiset Nat) =
        v ::ₘ ↑((a.take count).eraseIdx (parent index)) :=
      Multiset.coe_eq_coe.mpr hCperm
    have hm3 : (↑(a.take count) : Multiset Nat) =
        idx a (parent index) ::ₘ
          ↑((a.take count).eraseIdx (parent index)) := by
      have hpi : parent index ≤ index := by simp only [parent]; omega
      exact take_cons_eraseIdx_mset a (parent index) count (by omega) hlen
    have hm4 : (↑(a.take count) : Multiset Nat) =
        idx a index ::ₘ ↑((a.take count).eraseIdx index) :=
      take_cons_eraseIdx_mset a index count hidx hlen
    calc idx a index ::ₘ idx a (parent index) ::ₘ
          ↑((C.take count).eraseIdx index)
        = idx a (parent index) ::ₘ idx a index ::ₘ
          ↑((C.take count).eraseIdx index) := Multiset.cons_swap _ _ _
      _ = idx a (parent index) ::ₘ ↑(C.take count) := by rw [← hm1]
      _ = idx a (parent index) ::ₘ v ::ₘ
          ↑((a.take count).eraseIdx (parent index)) := by rw [hm2]
      _ = v ::ₘ idx a (parent index) ::ₘ
          ↑((a.take count).eraseIdx (parent index)) := Multiset.cons_swap _ _ _
      _ = v ::ₘ ↑(a.take count) := by rw [← hm3]
      _ = v ::ₘ idx a index ::ₘ ↑((a.take count).eraseIdx index) := by
          rw [hm4]
      _ = idx a index ::ₘ v ::ₘ ↑((a.take count).eraseIdx index) :=
          Multiset.cons_swap _ _ _
  by_cases hml : min_level index = true
  · rw [if_pos hml] at hok
    by_cases hcmp : v < idx a index
    · rw [if_pos hcmp] at hok
      cases hok
      exact (bubble_min_take_perm (a.set index v) index count
        (by omega) hidx).trans hseti
    · rw [if_neg hcmp] at hok
      by_cases hc2 : has_parent index = true ∧
          idx (a.set index v) (parent index) < v
      · rw [if_pos hc2] at hok
        cases hok
        have hq0 : 0 < index := by
          have h5 := hc2.1
          simp [has_parent] at h5
          exact h5
        have hpq : parent index < index := parent_lt index hq0
        have hdisp : bubble_up (a.set index v) index =
            bubble_up_max (swap (a.set index v) index (parent index))
              (parent index) := by
          rw [bubble_up, if_pos hml,
            if_pos (show has_parent index = true ∧
              idx (a.set index v) (parent index) < idx (a.set index v) index
              from ⟨hc2.1, by
                rw [idx_set_self a index v (by omega)]
                exact hc2.2⟩)]
        have ha3 : swap (a.set index v) index (parent index) =
            (a.set (parent index) v).set index (idx a (parent index)) := by
          simp only [swap]
          rw [idx_set_self a index v (by omega),
            idx_set_ne a index v (parent index) (by omega),
            List.set_set v (idx a (parent index)) a index]
          exact List.set_comm (idx a (parent index)) v a (by omega)
        have hcomm := bubble_up_max_set (a.set (parent index) v)
          (parent index) index (idx a (parent index)) hpq
        rw [hdisp, ha3, hcomm]
        apply hbig
        · rw [bubble_up_max_length, List.length_set]
        · refine (bubble_max_take_perm (a.set (parent index) v)
            (parent index) count (by rw [List.length_set]; omega)
            (by omega)).trans ?_
          exact set_take_perm a (parent index) v count (by omega) hlen
        · rw [bubble_up_max_frame _ (parent index) index
            (inSub_out (by omega)),
            idx_set_ne a (parent index) v index (by omega)]
      · rw [if_neg hc2] at hok
        cases hok
        exact (sift_take_perm (a.set index v) index (count - 1) count
          (by rw [List.length_set]; omega) (by omega)).trans hseti
  · rw [if_neg hml] at hok
    by_cases hcmp : idx a index < v
    · rw [if_pos hcmp] at hok
      cases hok
      exact (bubble_max_take_perm (a.set index v) index count
        (by omega) hidx).trans hseti
    · rw [if_neg hcmp] at hok
      by_cases hc2 : has_parent index = true ∧
          v < idx (a.set index v) (parent index)
      · rw [if_pos hc2] at hok
        cases hok
        have hq0 : 0 < index := by
          have h5 := hc2.1
          simp [has_parent] at h5
          exact h5
        have hpq : parent index < index := parent_lt index hq0
        have hdisp : bubble_up (a.set index v) index =
            bubble_up_min (swap (a.set index v) index (parent index))
              (parent index) := by
          rw [bubble_up, if_neg (by simp [hml]),
            if_pos (show has_parent index = true ∧
              idx (a.set index v) index < idx (a.set index v) (parent index)
              from ⟨hc2.1, by
                rw [idx_set_self a index v (by omega)]
                exact hc2.2⟩)]
        have ha3 : swap (a.set index v) index (parent index) =
            (a.set (parent index) v).set index (idx a (parent index)) := by
          simp only [swap]
          rw [idx_set_self a index v (by omega),
            idx_set_ne a index v (parent index) (by omega),
            List.set_set v (idx a (parent index)) a index]
          exact List.set_comm (idx a (parent index)) v a (by omega)
        have hcomm := bubble_up_min_set (a.set (parent index) v)
          (parent index) index (idx a (parent index)) hpq
        rw [hdisp, ha3, hcomm]
        apply hbig
        · rw [bubble_up_min_length, List.length_set]
        · refine (bubble_min_take_perm (a.set (parent index) v)
            (parent index) count (by rw [List.length_set]; omega)
            (by omega)).trans ?_
          exact set_take_perm a (parent index) v count (by omega) hlen
        · rw [bubble_up_min_frame _ (parent index) index
            (inSub_out (by omega)),
            idx_set_ne a (parent index) v index (by omega)]
      · rw [if_neg hc2] at hok
        cases hok
        exact (sift_take_perm (a.set index v) index (count - 1) count
          (by rw [List.length_set]; omega) (by omega)).trans hseti

end mmheap

namespace mmheap

open _mmheap

/-- when the replacement value is the current last-slot value (as in
`heap_remove_at_index`), the last slot still holds that value after the
repair: the overwriting copy never survives as a duplicate inside the
shrunk range. -/
theorem heap_replace_keeps_last (index : Nat) (a : List Nat) (count : Nat)
    (hc0 : 0 < count) (hb : count ≤ 2 ^ 62) (hlen : count ≤ a.length)
    (hidx : index < count) (hinv : IsMMHeap a count) :
    ∀ old a2, heap_replace_at_index (idx a (count - 1)) index a count =
        .ok (old, a2) →
      idx a2 (count - 1) = idx a (count - 1) := by
  intro old a2 hok
  have hq_len : index < a.length := by omega
  have e_self : idx (a.set index (idx a (count - 1))) index =
      idx a (count - 1) :=
    idx_set_self a index _ hq_len
  have e_last : idx (a.set index (idx a (count - 1))) (count - 1) =
      idx a (count - 1) := by
    by_cases he : index = count - 1
    · rw [he]
      rw [he] at e_self
      exact e_self
    · exact idx_set_ne a index _ (count - 1) (by omega)
  rw [heap_replace_at_index, if_neg (by omega : ¬ count = 0),
    if_neg (by omega : ¬ index > count)] at hok
  simp only [] at hok
  by_cases hml : min_level index = true
  · rw [if_pos hml] at hok
    by_cases hcmp : idx a (count - 1) < idx a index
    · rw [if_pos hcmp] at hok
      cases hok
      have hne : index < count - 1 := by
        rcases Nat.lt_or_ge index (count - 1) with h5 | h5
        · exact h5
        · exfalso
          have h6 : index = count - 1 := by omega
          rw [h6] at hcmp
          omega
      rw [bubble_up_min_frame _ index (count - 1) (inSub_out hne)]
      exact e_last
    · rw [if_neg hcmp] at hok
      by_cases hc2 : has_parent index = true ∧
          idx (a.set index (idx a (count - 1))) (parent index) <
            idx a (count - 1)
      · rw [if_pos hc2] at hok
        cases hok
        have hq0 : 0 < index := by
          have h5 := hc2.1
          simp [has_parent] at h5
          exact h5
        have hpq : parent index < index := parent_lt index hq0
        have hvplt : idx a (parent index) < idx a (count - 1) := by
          have h5 := hc2.2
          rwa [idx_set_ne a index _ (parent index) (by omega)] at h5
        have hne : index < count - 1 := by
          rcases Nat.lt_or_ge index (count - 1) with h5 | h5
          · exact h5
          · exfalso
            have h6 : index = count - 1 := by omega
            have h7 := (hinv (parent index) index
              ((cg_char _ _).mpr (Or.inl ⟨hq0, rfl⟩)) hidx).2
              (by
                rw [min_level_parent_flip index hq0 (by
                  have hx : (2:Nat) ^ 62 < 2 ^ 64 := by norm_num
                  omega), hml]
                rfl)
            rw [← h6] at hvplt
            omega
        have hdisp : bubble_up (a.set index (idx a (count - 1))) index =
            bubble_up_max (swap (a.set index (idx a (count - 1))) index
              (parent index)) (parent index) := by
          rw [bubble_up, if_pos hml,
            if_pos (show has_parent index = true ∧
              idx (a.set index (idx a (count - 1))) (parent index) <
                idx (a.set index (idx a (count - 1))) index from
              ⟨hc2.1, by rw [e_self]; exact hc2.2⟩)]
        have ha3 : swap (a.set index (idx a (count - 1))) index
            (parent index) =
            (a.set (parent index) (idx a (count - 1))).set index
              (idx a (parent index)) := by
          simp only [swap]
          rw [e_self, idx_set_ne a index _ (parent index) (by omega),
            List.set_set (idx a (count - 1)) (idx a (parent index)) a index]
          exact List.set_comm (idx a (parent index)) (idx a (count - 1)) a
            (by omega)
        have hcomm := bubble_up_max_set
          (a.set (parent index) (idx a (count - 1))) (parent index) index
          (idx a (parent index)) hpq
        rw [hdisp, ha3, hcomm, sift_down, if_pos hml]
        apply sift_down_min_keep _ index (count - 1)
          (by rw [List.length_set, bubble_up_max_length, List.length_set]
              omega)
        · rw [idx_set_ne _ index _ (count - 1) (by omega),
            bubble_up_max_frame _ (parent index) (count - 1)
              (inSub_out (by omega)),
            idx_set_ne a (parent index) _ (count - 1) (by omega)]
        · rw [idx_set_self _ index _
            (by rw [bubble_up_max_length, List.length_set]; omega)]
          omega
      · rw [if_neg hc2] at hok
        cases hok
        rw [sift_down, if_pos hml]
        apply sift_down_min_keep _ index (count - 1)
          (by rw [List.length_set]; omega)
        · exact e_last
        · rw [e_self]
  · rw [if_neg hml] at hok
    by_cases hcmp : idx a index < idx a (count - 1)
    · rw [if_pos hcmp] at hok
      cases hok
      have hne : index < count - 1 := by
        rcases Nat.lt_or_ge index (count - 1) with h5 | h5
        · exact h5
        · exfalso
          have h6 : index = count - 1 := by omega
          rw [h6] at hcmp
          omega
      rw [bubble_up_max_frame _ index (count - 1) (inSub_out hne)]
      exact e_last
    · rw [if_neg hcmp] at hok
      by_cases hc2 : has_parent index = true ∧
          idx a (count - 1) <
            idx (a.set index (idx a (count - 1))) (parent index)
      · rw [if_pos hc2] at hok
        cases hok
        have hq0 : 0 < index := by
          have h5 := hc2.1
          simp [has_parent] at h5
          exact h5
        have hpq : parent index < index := parent_lt index hq0
        have hvplt : idx a (count - 1) < idx a (parent index) := by
          have h5 := hc2.2
          rwa [idx_set_ne a index _ (parent index) (by omega)] at h5
        have hne : index < count - 1 := by
          rcases Nat.lt_or_ge index (count - 1) with h5 | h5
          · exact h5
          · exfalso
            have h6 : index = count - 1 := by omega
            have h7 := (hinv (parent index) index
              ((cg_char _ _).mpr (Or.inl ⟨hq0, rfl⟩)) hidx).1
              (by
                rw [min_level_parent_flip index hq0 (by
                  have hx : (2:Nat) ^ 62 < 2 ^ 64 := by norm_num
                  omega), _mmheap.bool_false hml]
                rfl)
            rw [← h6] at hvplt
            omega
        have hdisp : bubble_up (a.set index (idx a (count - 1))) index =
            bubble_up_min (swap (a.set index (idx a (count - 1))) index
              (parent index)) (parent index) := by
          rw [bubble_up, if_neg (by simp [hml]),
            if_pos (show has_parent index = true ∧
              idx (a.set index (idx a (count - 1))) index <
                idx (a.set index (idx a (count - 1))) (parent index) from
              ⟨hc2.1, by rw [e_self]; exact hc2.2⟩)]
        have ha3 : swap (a.set index (idx a (count - 1))) index
            (parent index) =
            (a.set (parent index) (idx a (count - 1))).set index
              (idx a (parent index)) := by
          simp only [swap]
          rw [e_self, idx_set_ne a index _ (parent index) (by omega),
            List.set_set (idx a (count - 1)) (idx a (parent index)) a index]
          exact List.set_comm (idx a (parent index)) (idx a (count - 1)) a
            (by omega)
        have hcomm := bubble_up_min_set
          (a.set (parent index) (idx a (count - 1))) (parent index) index
          (idx a (parent index)) hpq
        rw [hdisp, ha3, hcomm, sift_down, if_neg (by simp [hml])]
        apply sift_down_max_keep _ index (count - 1)
          (by rw [List.length_set, bubble_up_min_length, List.length_set]
              omega)
        · rw [idx_set_ne _ index _ (count - 1) (by omega),
            bubble_up_min_frame _ (parent index) (count - 1)
              (inSub_out (by omega)),
            idx_set_ne a (parent index) _ (count - 1) (by omega)]
        · rw [idx_set_self _ index _
            (by rw [bubble_up_min_length, List.length_set]; omega)]
          omega
      · rw [if_neg hc2] at hok
        cases hok
        rw [sift_down, if_neg (by simp [hml])]
        apply sift_down_max_keep _ index (count - 1)
          (by rw [List.length_set]; omega)
        · exact e_last
        · rw [e_self]

end mmheap

namespace mmheap

open _mmheap

/-- `heap_remove_at_index` returns the value previously stored at `index`,
decrements the count, and leaves the shrunk occupied prefix holding the
original multiset minus that one occurrence. -/
theorem heap_remove_at_index_perm (index : Nat) (a : List Nat)
    (count : Nat) (hc0 : 0 < count) (hb : count ≤ 2 ^ 62)
    (hlen : count ≤ a.length) (hidx : index < count)
    (hinv : IsMMHeap a count) :
    ∀ old a2 c2, heap_remove_at_index index a count = .ok (old, a2, c2) →
      old = idx a index ∧ c2 = count - 1 ∧
      (a2.take (count - 1)).Perm ((a.take count).eraseIdx index) := by
  intro old a2 c2 hok
  rw [heap_remove_at_index, if_neg (by omega : ¬ count = 0),
    if_neg (by omega : ¬ index > count)] at hok
  cases hres : heap_replace_at_index (idx a (count - 1)) index a count with
  | error e =>
    rw [hres] at hok
    cases hok
  | ok p =>
    obtain ⟨p1, p2⟩ := p
    rw [hres] at hok
    cases hok
    obtain ⟨h1, h2⟩ := heap_replace_correct (idx a (count - 1)) index a
      count hc0 hb hlen hidx hinv p1 p2 hres
    have hperm := heap_replace_perm (idx a (count - 1)) index a count hc0
      hlen hidx p1 p2 hres
    have hkeep := heap_replace_keeps_last index a count hc0 hb hlen hidx
      hinv p1 p2 hres
    have hlen2 := heap_replace_length (idx a (count - 1)) index a count
      p1 p2 hres
    refine ⟨h1, rfl, ?_⟩
    have h5 : count - 1 < p2.length := by omega
    have hsucc : p2.take count = p2.take (count - 1) ++
        [idx a (count - 1)] := by
      conv_lhs => rw [show count = (count - 1) + 1 from by omega]
      rw [List.take_succ, List.getElem?_eq_getElem h5]
      rw [show p2[count - 1] = idx a (count - 1) from by
        rw [← idx_eq_getElem p2 (count - 1) h5]
        exact hkeep]
      rfl
    rw [hsucc] at hperm
    have h6 : (idx a (count - 1) :: p2.take (count - 1)).Perm
        (idx a (count - 1) :: (a.take count).eraseIdx index) :=
      ((List.perm_append_singleton _ _).symm.trans hperm)
    exact h6.cons_inv

end mmheap

namespace mmheap

open _mmheap

/-- `heap_insert` appends the new value to the occupied multiset. -/
theorem heap_insert_perm (v : Nat) (a : List Nat) (count max_size : Nat)
    (hcap : max_size ≤ a.length) :
    ∀ a2 c2, heap_insert v a count max_size = some (a2, c2) →
      (a2.take (count + 1)).Perm (v :: a.take count) := by
  intro a2 c2 hok
  rw [heap_insert] at hok
  by_cases hlt : count < max_size
  · rw [if_pos hlt] at hok
    cases hok
    have hclen : count < a.length := by omega
    have h1 : ((bubble_up (a.set count v) count).take (count + 1)).Perm
        ((a.set count v).take (count + 1)) :=
      bubble_take_perm (a.set count v) count (count + 1)
        (by rw [List.length_set]; omega) (by omega)
    refine h1.trans ?_
    have h2 : (a.set count v).take (count + 1) = a.take count ++ [v] := by
      rw [List.take_succ]
      have h3 : count < (a.set count v).length := by
        rw [List.length_set]
        omega
      rw [List.getElem?_eq_getElem h3]
      have h4 : (a.set count v)[count] = v := by
        rw [← idx_eq_getElem _ count h3]
        exact idx_set_self a count v hclen
      rw [h4, List.set_take]
      have h5 : (a.take count).set count v = a.take count :=
        List.set_eq_of_length_le (by rw [List.length_take_of_le]; omega)
      rw [h5]
      rfl
    rw [h2]
    exact List.perm_append_singleton v (a.take count)
  · rw [if_neg hlt] at hok
    cases hok

/-- `heap_remove_min` returns the minimum of the occupied prefix and
removes exactly one occurrence of it. -/
theorem heap_remove_min_spec (a : List Nat) (count : Nat)
    (hc0 : 0 < count) (hb : count ≤ 2 ^ 62) (hlen : count ≤ a.length)
    (hinv : IsMMHeap a count) :
    ∀ val a2 c2, heap_remove_min a count = .ok (val, a2, c2) →
      val = idx a 0 ∧ c2 = count - 1 ∧
      (∀ x, x ∈ a.take count → val ≤ x) ∧
      (val :: a2.take (count - 1)).Perm (a.take count) := by
  intro val a2 c2 hok
  rw [heap_remove_min, if_neg (by omega : ¬ count = 0)] at hok
  simp only [] at hok
  cases hok
  have hmin : ∀ x, x ∈ a.take count → idx a 0 ≤ x := by
    intro x hx
    obtain ⟨i, hi, hix⟩ := (mem_take_iff_idx a count hlen x).mp hx
    rw [← hix]
    exact root_min a count hb hinv i hi
  have hA1perm : ((swap a 0 (count - 1)).take count).Perm (a.take count) :=
    take_perm_of_perm_frame _ a count (swap_length a 0 (count - 1))
      (swap_perm a 0 (count - 1) (by omega) (by omega))
      (fun i hi => idx_swap_ne a 0 (count - 1) i (by omega) (by omega))
  have hlast : idx (swap a 0 (count - 1)) (count - 1) = idx a 0 :=
    idx_swap_snd a 0 (count - 1) (by omega)
  have hsucc : (swap a 0 (count - 1)).take count =
      (swap a 0 (count - 1)).take (count - 1) ++ [idx a 0] := by
    obtain ⟨m, hm⟩ : ∃ m, count = m + 1 := ⟨count - 1, by omega⟩
    rw [hm]
    simp only [Nat.add_sub_cancel]
    have h5 : m < (swap a 0 m).length := by
      rw [swap_length]
      omega
    rw [List.take_succ, List.getElem?_eq_getElem h5]
    rw [show (swap a 0 m)[m] = idx a 0 from by
      rw [← idx_eq_getElem _ m h5]
      have h6 := hlast
      rw [hm] at h6
      simpa using h6]
    rfl
  have hstep : (idx a 0 ::
      (swap a 0 (count - 1)).take (count - 1)).Perm (a.take count) := by
    refine ((List.perm_append_singleton _ _).symm.trans ?_)
    rw [← hsucc]
    exact hA1perm
  refine ⟨rfl, rfl, hmin, ?_⟩
  by_cases h2 : count - 1 > 0
  · rw [if_pos h2]
    refine List.Perm.trans ?_ hstep
    apply List.Perm.cons
    exact sift_take_perm (swap a 0 (count - 1)) 0 (count - 1 - 1)
      (count - 1) (by rw [swap_length]; omega) (by omega)
  · rw [if_neg h2]
    exact hstep

/-- `heap_remove_max` returns the maximum of the occupied prefix and
removes exactly one occurrence of it. -/
theorem heap_remove_max_spec (a : List Nat) (count : Nat)
    (hc0 : 0 < count) (hb : count ≤ 2 ^ 62) (hlen : count ≤ a.length)
    (hinv : IsMMHeap a count) :
    ∀ val a2 c2, heap_remove_max a count = .ok (val, a2, c2) →
      c2 = count - 1 ∧
      (∀ x, x ∈ a.take count → x ≤ val) ∧
      (val :: a2.take (count - 1)).Perm (a.take count) := by
  intro val a2 c2 hok
  rw [heap_remove_max, if_neg (by omega : ¬ count = 0)] at hok
  simp only [] at hok
  by_cases h2 : 2 ≤ count
  · obtain ⟨sel, hseleq, hsel12, hselr, hscan, hselmax⟩ :=
      scan_max_eq_sel a count hb hlen h2 hinv
    rw [hseleq] at hok
    have he : ((true, sel).1 = true) := rfl
    rw [if_pos he, if_pos he] at hok
    cases hres : heap_remove_at_index sel a count with
    | error e =>
      rw [hres] at hok
      cases hok
    | ok p =>
      obtain ⟨p1, p2, p3⟩ := p
      rw [hres] at hok
      cases hok
      obtain ⟨ho1, ho2, ho3⟩ := heap_remove_at_index_perm sel a count hc0
        hb hlen (by omega) hinv p1 a2 c2 hres
      refine ⟨ho2, ?_, ?_⟩
      · intro x hx
        obtain ⟨i, hi, hix⟩ := (mem_take_iff_idx a count hlen x).mp hx
        rw [← hix]
        exact hselmax i hi
      · have h6 := take_cons_eraseIdx_mset a sel count (by omega) hlen
        apply Multiset.coe_eq_coe.mp
        show (idx a sel ::ₘ ↑(a2.take (count - 1)) : Multiset Nat) =
          ↑(a.take count)
        rw [h6]
        rw [Multiset.cons_inj_right]
        exact Multiset.coe_eq_coe.mpr ho3
  · have hc1 : count = 1 := by omega
    have hmc : max_child a 0 (count - 1) = (false, 0) := by
      rw [max_child, if_neg (by simp only [left]; omega)]
    rw [hmc] at hok
    have he : ¬ ((false, 0).1 = true) := by simp
    rw [if_neg he, if_neg he] at hok
    cases hres : heap_remove_at_index 0 a count with
    | error e =>
      rw [hres] at hok
      cases hok
    | ok p =>
      obtain ⟨p1, p2, p3⟩ := p
      rw [hres] at hok
      cases hok
      obtain ⟨ho1, ho2, ho3⟩ := heap_remove_at_index_perm 0 a count hc0
        hb hlen (by omega) hinv p1 a2 c2 hres
      refine ⟨ho2, ?_, ?_⟩
      · intro x hx
        obtain ⟨i, hi, hix⟩ := (mem_take_iff_idx a count hlen x).mp hx
        rw [← hix]
        have hi0 : i = 0 := by omega
        rw [hi0]
      · have h6 := take_cons_eraseIdx_mset a 0 count (by omega) hlen
        apply Multiset.coe_eq_coe.mp
        show (idx a 0 ::ₘ ↑(a2.take (count - 1)) : Multiset Nat) =
          ↑(a.take count)
        rw [h6]
        rw [Multiset.cons_inj_right]
        exact Multiset.coe_eq_coe.mpr ho3

end mmheap

namespace mmheap

open _mmheap

/-- draining the minimum `count` times from a valid heap succeeds and
yields a sorted permutation of the occupied prefix. -/
theorem drain_min_spec : ∀ n a count, count = n → count ≤ 2 ^ 62 →
    count ≤ a.length → IsMMHeap a count →
    ∃ L, drain_min n a count = some L ∧ L.Perm (a.take count) ∧
      L.Pairwise (· ≤ ·) := by
  intro n
  induction n with
  | zero =>
    intro a count hcn hb hlen hinv
    refine ⟨[], rfl, ?_, List.Pairwise.nil⟩
    rw [hcn]
    rfl
  | succ m ih =>
    intro a count hcn hb hlen hinv
    cases hrem : heap_remove_min a count with
    | error e =>
      rw [heap_remove_min, if_neg (by omega : ¬ count = 0)] at hrem
      simp only [] at hrem
      cases hrem
    | ok p =>
      obtain ⟨v, a', c'⟩ := p
      obtain ⟨hv, hc', hmin, hperm⟩ := heap_remove_min_spec a count
        (by omega) hb hlen hinv v a' c' hrem
      obtain ⟨_, _, hinv'⟩ := heap_remove_min_correct a count hb hlen hinv
        v a' c' hrem
      obtain ⟨hlen', _⟩ := heap_remove_min_length a count v a' c' hrem
      obtain ⟨L, hL, hLperm, hLsorted⟩ := ih a' c'
        (by omega) (by omega) (by omega)
        (by rw [hc']; exact hinv')
      refine ⟨v :: L, ?_, ?_, ?_⟩
      · simp only [drain_min, hrem, hL]
        rfl
      · refine List.Perm.trans (List.Perm.cons v ?_) hperm
        rw [hc'] at hLperm
        exact hLperm
      · rw [List.pairwise_cons]
        refine ⟨?_, hLsorted⟩
        intro x hx
        have hx2 : x ∈ a'.take (count - 1) := by
          rw [hc'] at hLperm
          exact hLperm.mem_iff.mp hx
        have hx3 : x ∈ a.take count :=
          hperm.mem_iff.mp (List.mem_cons_of_mem v hx2)
        exact hmin x hx3

/-- draining the maximum `count` times from a valid heap succeeds and
yields a reverse-sorted permutation of the occupied prefix. -/
theorem drain_max_spec : ∀ n a count, count = n → count ≤ 2 ^ 62 →
    count ≤ a.length → IsMMHeap a count →
    ∃ L, drain_max n a count = some L ∧ L.Perm (a.take count) ∧
      L.Pairwise (· ≥ ·) := by
  intro n
  induction n with
  | zero =>
    intro a count hcn hb hlen hinv
    refine ⟨[], rfl, ?_, List.Pairwise.nil⟩
    rw [hcn]
    rfl
  | succ m ih =>
    intro a count hcn hb hlen hinv
    cases hrem : heap_remove_max a count with
    | error e =>
      exfalso
      rw [heap_remove_max, if_neg (by omega : ¬ count = 0)] at hrem
      simp only [] at hrem
      cases hres : heap_remove_at_index
          (if (max_child a 0 (count - 1)).1 = true
            then (max_child a 0 (count - 1)).2 else 0) a count with
      | error e2 =>
        rw [heap_remove_at_index, if_neg (by omega : ¬ count = 0)] at hres
        have hmi : (if (max_child a 0 (count - 1)).1 = true
            then (max_child a 0 (count - 1)).2 else 0) ≤ count := by
          by_cases hl : left 0 ≤ count - 1
          · obtain ⟨mm, hmeq, hmr, hmc, hmax⟩ := max_child_max a 0 (count - 1) hl
            rw [hmeq]
            have he : (true, mm).1 = true := rfl
            rw [if_pos he]
            omega
          · by_cases hfl : (max_child a 0 (count - 1)).1 = true
            · rw [if_pos hfl]
              rw [max_child, if_neg hl] at hfl
              cases hfl
            · rw [if_neg hfl]
              omega
        rw [if_neg (by omega)] at hres
        cases hrep : heap_replace_at_index (idx a (count - 1))
            (if (max_child a 0 (count - 1)).1 = true
              then (max_child a 0 (count - 1)).2 else 0) a count with
        | error e3 =>
          rw [heap_replace_at_index, if_neg (by omega : ¬ count = 0),
            if_neg (by omega)] at hrep
          simp only [] at hrep
          by_cases hml : min_level (if (max_child a 0 (count - 1)).1 = true
              then (max_child a 0 (count - 1)).2 else 0)
          · rw [if_pos hml] at hrep
            by_cases hlt : idx a (count - 1) < idx a
                (if (max_child a 0 (count - 1)).1 = true
                  then (max_child a 0 (count - 1)).2 else 0)
            · rw [if_pos hlt] at hrep
              cases hrep
            · rw [if_neg hlt] at hrep
              cases hrep
          · rw [if_neg hml] at hrep
            by_cases hlt : idx a (if (max_child a 0 (count - 1)).1 = true
                then (max_child a 0 (count - 1)).2 else 0) < idx a (count - 1)
            · rw [if_pos hlt] at hrep
              cases hrep
            · rw [if_neg hlt] at hrep
              cases hrep
        | ok q =>
          rw [hrep] at hres
          cases hres
      | ok p =>
        rw [hres] at hrem
        cases hrem
    | ok p =>
      obtain ⟨v, a', c'⟩ := p
      obtain ⟨hc', hmax, hperm⟩ := heap_remove_max_spec a count
        (by omega) hb hlen hinv v a' c' hrem
      obtain ⟨_, hinv'⟩ := heap_remove_max_correct a count (by omega) hb
        hlen hinv v a' c' hrem
      obtain ⟨hlen', _⟩ := heap_remove_max_length a count v a' c' hrem
      obtain ⟨L, hL, hLperm, hLsorted⟩ := ih a' c'
        (by omega) (by omega) (by omega)
        (by rw [hc']; exact hinv')
      refine ⟨v :: L, ?_, ?_, ?_⟩
      · simp only [drain_max, hrem, hL]
        rfl
      · refine List.Perm.trans (List.Perm.cons v ?_) hperm
        rw [hc'] at hLperm
        exact hLperm
      · rw [List.pairwise_cons]
        refine ⟨?_, hLsorted⟩
        intro x hx
        have hx2 : x ∈ a'.take (count - 1) := by
          rw [hc'] at hLperm
          exact hLperm.mem_iff.mp hx
        have hx3 : x ∈ a.take count :=
          hperm.mem_iff.mp (List.mem_cons_of_mem v hx2)
        exact hmax x hx3

end mmheap

namespace mmheap

open _mmheap

/-- inserting a list of values one by one succeeds while capacity lasts,
preserves the invariant, and the occupied prefix becomes the inserted
values together with the previous occupants. -/
theorem insert_all_spec : ∀ xs a count max_size,
    count + xs.length ≤ max_size → max_size ≤ a.length →
    max_size ≤ 2 ^ 62 → IsMMHeap a count →
    ∃ a2, insert_all xs a count max_size = some (a2, count + xs.length) ∧
      IsMMHeap a2 (count + xs.length) ∧ a2.length = a.length ∧
      (a2.take (count + xs.length)).Perm (xs ++ a.take count) := by
  intro xs
  induction xs with
  | nil =>
    intro a count max_size hcap hlen hb hinv
    exact ⟨a, rfl, by simpa using hinv, rfl, by simp⟩
  | cons v rest ih =>
    intro a count max_size hcap hlen hb hinv
    have hlcons : (v :: rest).length = rest.length + 1 := rfl
    have hlt : count < max_size := by
      rw [hlcons] at hcap
      omega
    cases hins : heap_insert v a count max_size with
    | none =>
      rw [heap_insert, if_pos hlt] at hins
      cases hins
    | some s =>
      obtain ⟨A1, c1⟩ := s
      obtain ⟨hA1len, hc1, _⟩ := heap_insert_length v a count max_size A1 c1 hins
      obtain ⟨hA1inv, _⟩ := heap_insert_correct v a count max_size
        (by omega) hlen hinv A1 c1 hins
      have hA1perm : (A1.take (count + 1)).Perm (v :: a.take count) :=
        heap_insert_perm v a count max_size hlen A1 c1 hins
      obtain ⟨a2, h2eq, h2inv, h2len, h2perm⟩ := ih A1 (count + 1) max_size
        (by rw [hlcons] at hcap; omega) (by omega) hb
        (by rw [← hc1]; exact hA1inv)
      have heq : count + 1 + rest.length = count + (v :: rest).length := by
        rw [hlcons]
        omega
      refine ⟨a2, ?_, ?_, by omega, ?_⟩
      · simp only [insert_all, hins]
        show insert_all rest A1 c1 max_size = some (a2, count + (v :: rest).length)
        rw [hc1, h2eq, heq]
      · rw [← heq]
        exact h2inv
      · rw [← heq]
        refine h2perm.trans ?_
        refine (List.Perm.append_left rest hA1perm).trans ?_
        exact List.perm_middle
  
end mmheap

namespace _mmheap

/-- the budgeted `sift_down_min` loop exits within `r + 1 - sift_index`
iterations and agrees with the total function. -/
theorem sift_down_min_fuel_ok : ∀ fuel a s r, r + 1 - s < fuel →
    sift_down_min_fuel fuel a s r = some (sift_down_min a s r) := by
  intro fuel
  induction fuel with
  | zero =>
    intro a s r h
    omega
  | succ f ih =>
    intro a s r h
    simp only [sift_down_min_fuel]
    rw [sift_down_min]
    by_cases hle : left s ≤ r
    · rw [if_pos hle, dif_pos hle]
      simp only []
      by_cases hch : child s ((min_child_or_gchild a s r).2) = true
      · rw [if_pos hch, if_pos hch]
      · rw [if_neg hch, if_neg hch]
        by_cases hlt : idx a ((min_child_or_gchild a s r).2) < idx a s
        · rw [if_pos hlt, if_pos hlt]
          have hge : left s ≤ (min_child_or_gchild a s r).2 :=
            cg_ge_left (mcg_min_snd a s r hle).2.1
          apply ih
          simp only [left] at hge hle
          omega
        · rw [if_neg hlt, if_neg hlt]
    · rw [if_neg hle, dif_neg hle]

/-- the budgeted `sift_down_max` loop exits within `r + 1 - sift_index`
iterations and agrees with the total function. -/
theorem sift_down_max_fuel_ok : ∀ fuel a s r, r + 1 - s < fuel →
    sift_down_max_fuel fuel a s r = some (sift_down_max a s r) := by
  intro fuel
  induction fuel with
  | zero =>
    intro a s r h
    omega
  | succ f ih =>
    intro a s r h
    simp only [sift_down_max_fuel]
    rw [sift_down_max]
    by_cases hle : left s ≤ r
    · rw [if_pos hle, dif_pos hle]
      simp only []
      by_cases hch : child s ((max_child_or_gchild a s r).2) = true
      · rw [if_pos hch, if_pos hch]
      · rw [if_neg hch, if_neg hch]
        by_cases hlt : idx a s < idx a ((max_child_or_gchild a s r).2)
        · rw [if_pos hlt, if_pos hlt]
          have hge : left s ≤ (max_child_or_gchild a s r).2 :=
            cg_ge_left (mcg_max_snd a s r hle).2.1
          apply ih
          simp only [left] at hge hle
          omega
        · rw [if_neg hlt, if_neg hlt]
    · rw [if_neg hle, dif_neg hle]

/-- the budgeted `bubble_up_min` loop exits within `bubble_index + 1`
iterations and agrees with the total function. -/
theorem bubble_up_min_fuel_ok : ∀ fuel a b, b < fuel →
    bubble_up_min_fuel fuel a b = some (bubble_up_min a b) := by
  intro fuel
  induction fuel with
  | zero =>
    intro a b h
    omega
  | succ f ih =>
    intro a b h
    simp only [bubble_up_min_fuel]
    rw [bubble_up_min]
    by_cases hc : has_gparent b = true ∧ idx a b < idx a (gparent b)
    · rw [if_pos hc, dif_pos hc]
      apply ih
      have hgp : gparent b < b := by
        have h1 : has_gparent b = true := hc.1
        simp only [has_gparent, decide_eq_true_eq] at h1
        simp only [gparent, parent]
        omega
      omega
    · rw [if_neg hc, dif_neg hc]

/-- the budgeted `bubble_up_max` loop exits within `bubble_index + 1`
iterations and agrees with the total function. -/
theorem bubble_up_max_fuel_ok : ∀ fuel a b, b < fuel →
    bubble_up_max_fuel fuel a b = some (bubble_up_max a b) := by
  intro fuel
  induction fuel with
  | zero =>
    intro a b h
    omega
  | succ f ih =>
    intro a b h
    simp only [bubble_up_max_fuel]
    rw [bubble_up_max]
    by_cases hc : has_gparent b = true ∧ idx a (gparent b) < idx a b
    · rw [if_pos hc, dif_pos hc]
      apply ih
      have hgp : gparent b < b := by
        have h1 : has_gparent b = true := hc.1
        simp only [has_gparent, decide_eq_true_eq] at h1
        simp only [gparent, parent]
        omega
      omega
    · rw [if_neg hc, dif_neg hc]

end _mmheap

namespace mmheap

open _mmheap

/-- the budgeted `make_heap` loop exits within `current + 1` iterations
and agrees with the total function. -/
theorem make_heap_loop_fuel_ok : ∀ fuel a size current, current < fuel →
    make_heap_loop_fuel fuel a size current =
      some (make_heap_loop a size current) := by
  intro fuel
  induction fuel with
  | zero =>
    intro a size current h
    omega
  | succ f ih =>
    intro a size current h
    simp only [make_heap_loop_fuel]
    rw [make_heap_loop]
    by_cases hc : current = 0
    · rw [if_pos hc, if_pos hc]
    · rw [if_neg hc, if_neg hc]
      apply ih
      omega

/-- the budgeted `is_heap` loop exits within `i + 1` iterations and
agrees with the total function. -/
theorem is_heap_loop_fuel_ok : ∀ fuel a count i, i < fuel →
    is_heap_loop_fuel fuel a count i = some (is_heap_loop a count i) := by
  intro fuel
  induction fuel with
  | zero =>
    intro a count i h
    omega
  | succ f ih =>
    intro a count i h
    simp only [is_heap_loop_fuel]
    rw [is_heap_loop]
    by_cases hc : has_parent i = true
    · rw [if_pos hc, if_pos hc]
      have hi : 0 < i := by
        simp only [has_parent, decide_eq_true_eq] at hc
        omega
      rw [ih a count (i - 1) (by omega)]
      rfl
    · rw [if_neg hc, if_neg hc]

end mmheap

namespace mmheap

open _mmheap

/-- `heap_replace_at_index` always succeeds once the two input checks
pass. -/
theorem heap_replace_total (v index : Nat) (a : List Nat) (count : Nat)
    (hc0 : ¬ count = 0) (hidx : ¬ index > count) :
    ∃ old a2, heap_replace_at_index v index a count = .ok (old, a2) := by
  rw [heap_replace_at_index, if_neg hc0, if_neg hidx]
  simp only []
  by_cases h1 : min_level index = true
  · rw [if_pos h1]
    by_cases h2 : v < idx a index
    · rw [if_pos h2]
      exact ⟨_, _, rfl⟩
    · rw [if_neg h2]
      exact ⟨_, _, rfl⟩
  · rw [if_neg h1]
    by_cases h2 : idx a index < v
    · rw [if_pos h2]
      exact ⟨_, _, rfl⟩
    · rw [if_neg h2]
      exact ⟨_, _, rfl⟩

/-- `heap_remove_at_index` always succeeds once the two input checks
pass. -/
theorem heap_remove_total (index : Nat) (a : List Nat) (count : Nat)
    (hc0 : ¬ count = 0) (hidx : ¬ index > count) :
    ∃ old a2 c2, heap_remove_at_index index a count = .ok (old, a2, c2) := by
  rw [heap_remove_at_index, if_neg hc0, if_neg hidx]
  obtain ⟨old, a2, hrep⟩ := heap_replace_total (idx a (count - 1)) index a
    count hc0 hidx
  rw [hrep]
  exact ⟨old, a2, count - 1, rfl⟩

/-- a concrete three-element valid min-max heap used as a sample input. -/
theorem mmheap_example : IsMMHeap [1, 5, 3] 3 := by
  intro j k hcg hk
  have hl := cg_ge_left hcg
  simp only [left] at hl
  have hj : j = 0 := by omega
  subst hj
  have hk12 : k = 1 ∨ k = 2 := by omega
  constructor
  · intro _
    rcases hk12 with e | e <;> subst e <;> decide
  · intro hml
    rw [min_level_zero] at hml
    cases hml

end mmheap

/-! ## the claims -/

namespace mmheap

open _mmheap

/-- C1 — Invariant preservation: for every heap state reachable from an
empty heap or a `make_heap`-initialised array by any sequence of
successful public mutating operations with valid arguments (within the
supported capacity), `is_heap` returns `true`. -/
theorem claim_C1 (a : List Nat) (count : Nat) (h : Reach a count)
    (hcap : a.length ≤ 2 ^ 62 - 1) : is_heap a count = true :=
  (is_heap_iff a count).mpr ((reach_inv h).2 hcap)

theorem claim_C1_witness : is_heap (make_heap [5, 1, 9, 3] 4) 4 = true :=
  claim_C1 (make_heap [5, 1, 9, 3] 4) 4 (Reach.mk [5, 1, 9, 3] 4 (by decide))
    (by rw [make_heap_length]; decide)

/-- C2 — on an empty heap `heap_min` and `heap_max` fail with the
empty-heap error; on a valid non-empty heap they return exactly the
minimum resp. maximum of the `count` occupied elements as computed by a
full scan. -/
theorem claim_C2 (a : List Nat) (count : Nat) :
    (count = 0 → heap_min a count = .error .empty ∧
      heap_max a count = .error .empty) ∧
    (0 < count → count ≤ 2 ^ 62 → count ≤ a.length → IsMMHeap a count →
      heap_min a count = .ok (scan_min a count) ∧
      heap_max a count = .ok (scan_max a count)) := by
  constructor
  · intro h0
    subst h0
    exact ⟨rfl, rfl⟩
  · intro hc0 hb hlen hinv
    constructor
    · rw [heap_min, if_neg (by omega : ¬ count < 1),
        scan_min_eq_root a count hb hlen hinv]
    · rw [heap_max, if_neg (by omega : ¬ count < 1)]
      simp only []
      by_cases h2 : 2 ≤ count
      · obtain ⟨sel, hseleq, hsel12, hselr, hscan, hselmax⟩ :=
          scan_max_eq_sel a count hb hlen h2 hinv
        rw [hseleq]
        have he : (true, sel).1 = true := rfl
        rw [if_pos he, hscan]
      · have h1 : count = 1 := by omega
        subst h1
        have hmc : max_child a 0 (1 - 1) = (false, 0) := by
          rw [max_child, if_neg (by decide : ¬ left 0 ≤ 1 - 1)]
        rw [hmc]
        have he : ¬ ((false, 0).1 = true) := by simp
        rw [if_neg he, scan_max_one a (by omega)]

theorem claim_C2_witness :
    heap_min [1, 5, 3] 3 = .ok (scan_min [1, 5, 3] 3) ∧
    heap_max [1, 5, 3] 3 = .ok (scan_max [1, 5, 3] 3) :=
  (claim_C2 [1, 5, 3] 3).2 (by decide) (by decide) (by decide) mmheap_example

/-- C3 — Round-trip sortedness: inserting any `n` values into an empty
heap with sufficient capacity and then removing the minimum `n` times
yields exactly those values in non-decreasing order; removing the
maximum `n` times instead yields them in non-increasing order. -/
theorem claim_C3 (xs a0 : List Nat) (max_size : Nat)
    (hcap : xs.length ≤ max_size) (hlen : max_size ≤ a0.length)
    (hb : max_size ≤ 2 ^ 62) :
    ∃ a c, insert_all xs a0 0 max_size = some (a, c) ∧ c = xs.length ∧
      (∃ L, drain_min xs.length a c = some L ∧ L.Perm xs ∧
        L.Pairwise (· ≤ ·)) ∧
      (∃ L, drain_max xs.length a c = some L ∧ L.Perm xs ∧
        L.Pairwise (· ≥ ·)) := by
  have hinv0 : IsMMHeap a0 0 := fun j k hcg hk => absurd hk (by omega)
  obtain ⟨a2, heq, hI, hl, hperm⟩ := insert_all_spec xs a0 0 max_size
    (by omega) hlen hb hinv0
  rw [Nat.zero_add] at heq hI hperm
  have hperm2 : (a2.take xs.length).Perm xs := by
    refine hperm.trans ?_
    rw [show a0.take 0 = ([] : List Nat) from rfl, List.append_nil]
  refine ⟨a2, xs.length, heq, rfl, ?_, ?_⟩
  · obtain ⟨L, hL, hLp, hLs⟩ := drain_min_spec xs.length a2 xs.length rfl
      (by omega) (by omega) hI
    exact ⟨L, hL, hLp.trans hperm2, hLs⟩
  · obtain ⟨L, hL, hLp, hLs⟩ := drain_max_spec xs.length a2 xs.length rfl
      (by omega) (by omega) hI
    exact ⟨L, hL, hLp.trans hperm2, hLs⟩

theorem claim_C3_witness :
    ∃ a c, insert_all [2, 1] [0, 0] 0 2 = some (a, c) ∧ c = 2 ∧
      (∃ L, drain_min 2 a c = some L ∧ L.Perm [2, 1] ∧
        L.Pairwise (· ≤ ·)) ∧
      (∃ L, drain_max 2 a c = some L ∧ L.Perm [2, 1] ∧
        L.Pairwise (· ≥ ·)) :=
  claim_C3 [2, 1] [0, 0] 2 (by decide) (by decide) (by decide)

/-- C4 — contrary to the claimed rejection of every index outside
`[0, count)`, the range check `index > count` lets `index == count`
through: on the one-element heap `[5]` (backing array `[5, 7]`,
`count = 1`) both `heap_replace_at_index` and `heap_remove_at_index`
accept index `1`, mutate the structure, and report the value of the
logically unoccupied slot instead of failing with a range error. -/
theorem claim_C4 :
    heap_replace_at_index 3 1 [5, 7] 1 = .ok (7, [3, 5]) ∧
    heap_remove_at_index 1 [5, 7] 1 = .ok (7, [5, 5], 0) := by
  constructor
  · rw [heap_replace_at_index,
      if_neg (by decide : ¬ (1 : Nat) = 0), if_neg (by decide : ¬ (1 : Nat) > 1)]
    simp only []
    rw [if_neg (by decide : ¬ min_level 1 = true)]
    rw [if_neg (by decide : ¬ idx [5, 7] 1 < 3)]
    rw [if_pos (by decide :
      has_parent 1 = true ∧ (3 : Nat) < idx ([5, 7].set 1 3) (parent 1))]
    rw [show [5, 7].set 1 3 = [5, 3] from rfl]
    have e2 : bubble_up [5, 3] 1 = [3, 5] := by
      rw [bubble_up, if_neg (by decide : ¬ min_level 1 = true)]
      rw [if_pos (by decide :
        has_parent 1 = true ∧ idx [5, 3] 1 < idx [5, 3] (parent 1))]
      rw [show swap [5, 3] 1 (parent 1) = [3, 5] from rfl,
        show parent 1 = 0 from rfl]
      rw [bubble_up_min, dif_neg (by decide :
        ¬ (has_gparent 0 = true ∧ idx [3, 5] 0 < idx [3, 5] (gparent 0)))]
    rw [e2]
    rw [show sift_down [3, 5] 1 (1 - 1) = sift_down_max [3, 5] 1 (1 - 1) from
      by rw [sift_down, if_neg (by decide : ¬ min_level 1 = true)]]
    rw [sift_down_max, dif_neg (by decide : ¬ left 1 ≤ 1 - 1)]
    rfl
  · rw [heap_remove_at_index,
      if_neg (by decide : ¬ (1 : Nat) = 0), if_neg (by decide : ¬ (1 : Nat) > 1)]
    rw [show idx [5, 7] (1 - 1) = 5 from rfl]
    have hrep : heap_replace_at_index 5 1 [5, 7] 1 = .ok (7, [5, 5]) := by
      rw [heap_replace_at_index,
        if_neg (by decide : ¬ (1 : Nat) = 0), if_neg (by decide : ¬ (1 : Nat) > 1)]
      simp only []
      rw [if_neg (by decide : ¬ min_level 1 = true)]
      rw [if_neg (by decide : ¬ idx [5, 7] 1 < 5)]
      rw [if_neg (by decide :
        ¬ (has_parent 1 = true ∧ (5 : Nat) < idx ([5, 7].set 1 5) (parent 1)))]
      rw [show [5, 7].set 1 5 = [5, 5] from rfl]
      rw [show sift_down [5, 5] 1 (1 - 1) = sift_down_max [5, 5] 1 (1 - 1) from
        by rw [sift_down, if_neg (by decide : ¬ min_level 1 = true)]]
      rw [sift_down_max, dif_neg (by decide : ¬ left 1 ≤ 1 - 1)]
      rfl
    rw [hrep]
    rfl

/-- C5 — on a full valid heap, `heap_insert_circular` keeps the heap
byte-for-byte unchanged and reports `(true, value)` when the incoming
value is not strictly below the current maximum; when it is strictly
below, the operation succeeds, reports `(true, old_max)`, keeps the
count at `max_size`, and re-establishes the invariant. -/
theorem claim_C5 (v : Nat) (a : List Nat) (max_size : Nat)
    (hms0 : 0 < max_size) (hb : max_size + 1 ≤ 2 ^ 62)
    (hcap : max_size ≤ a.length) (hinv : IsMMHeap a max_size) :
    (∃ res a2, heap_insert_circular v a max_size max_size =
      some (res, a2, max_size)) ∧
    ∀ res a2 c2, heap_insert_circular v a max_size max_size =
        some (res, a2, c2) →
      c2 = max_size ∧
      (scan_max a max_size ≤ v → res = (true, v) ∧ a2 = a) ∧
      (v < scan_max a max_size →
        res = (true, scan_max a max_size) ∧ IsMMHeap a2 max_size) := by
  have hM : idx a (if max_size > 1 then (max_child a 0 (max_size - 1)).2
      else 0) = scan_max a max_size := by
    by_cases hms : max_size > 1
    · rw [if_pos hms]
      obtain ⟨sel, hseleq, hsel12, hselr, hscan, hselmax⟩ :=
        scan_max_eq_sel a max_size (by omega) hcap (by omega) hinv
      rw [hseleq, hscan]
    · rw [if_neg hms]
      have h1 : max_size = 1 := by omega
      rw [h1, scan_max_one a (by omega)]
  have hnone : heap_insert_circular v a max_size max_size ≠ none := by
    rw [heap_insert_circular, if_pos rfl]
    simp only []
    by_cases hvm : v < idx a (if max_size > 1
        then (max_child a 0 (max_size - 1)).2 else 0)
    · rw [if_pos hvm]
      exact Option.some_ne_none _
    · rw [if_neg hvm]
      exact Option.some_ne_none _
  have hc2 : ∀ res a2 c2, heap_insert_circular v a max_size max_size =
      some (res, a2, c2) → c2 = max_size := by
    intro res a2 c2 hok
    rw [heap_insert_circular, if_pos rfl] at hok
    simp only [] at hok
    by_cases hvm : v < idx a (if max_size > 1
        then (max_child a 0 (max_size - 1)).2 else 0)
    · rw [if_pos hvm] at hok
      cases hok
      rfl
    · rw [if_neg hvm] at hok
      cases hok
      rfl
  constructor
  · cases hoc : heap_insert_circular v a max_size max_size with
    | none => exact absurd hoc hnone
    | some t =>
      obtain ⟨res, a2, c2⟩ := t
      have he := hc2 res a2 c2 hoc
      exact ⟨res, a2, by rw [he]⟩
  · intro res a2 c2 hok
    have hok0 := hok
    rw [heap_insert_circular, if_pos rfl] at hok
    simp only [] at hok
    by_cases hvm : v < idx a (if max_size > 1
        then (max_child a 0 (max_size - 1)).2 else 0)
    · rw [if_pos hvm] at hok
      cases hok
      obtain ⟨hI, _⟩ := heap_insert_circular_correct v a max_size max_size
        hb hcap (Nat.le_refl _) hinv _ _ _ hok0
      refine ⟨rfl, ?_, ?_⟩
      · intro hle
        rw [hM] at hvm
        omega
      · intro _
        exact ⟨by rw [hM], hI⟩
    · rw [if_neg hvm] at hok
      cases hok
      refine ⟨rfl, ?_, ?_⟩
      · intro _
        exact ⟨rfl, rfl⟩
      · intro hlt
        rw [hM] at hvm
        omega

theorem claim_C5_witness :
    (∃ res a2, heap_insert_circular 2 [1, 5, 3] 3 3 =
      some (res, a2, 3)) ∧
    ∀ res a2 c2, heap_insert_circular 2 [1, 5, 3] 3 3 =
        some (res, a2, c2) →
      c2 = 3 ∧
      (scan_max [1, 5, 3] 3 ≤ 2 → res = (true, 2) ∧ a2 = [1, 5, 3]) ∧
      (2 < scan_max [1, 5, 3] 3 →
        res = (true, scan_max [1, 5, 3] 3) ∧ IsMMHeap a2 3) :=
  claim_C5 2 [1, 5, 3] 3 (by decide) (by decide) (by decide) mmheap_example

/-- C6 — `make_heap` establishes the invariant on every input array and
size within the supported capacity: the validator `is_heap` accepts its
output. -/
theorem claim_C6 (a : List Nat) (size : Nat) (hb : size ≤ 2 ^ 62)
    (hlen : size ≤ a.length) : is_heap (make_heap a size) size = true :=
  (is_heap_iff _ _).mpr (make_heap_correct a size hb hlen)

theorem claim_C6_witness : is_heap (make_heap [3, 1, 2] 3) 3 = true :=
  claim_C6 [3, 1, 2] 3 (by decide) (by decide)

/-- C7 — on a valid heap, removing an occupied index returns exactly the
value stored there, decrements the count by one, re-establishes the
invariant, and the surviving occupied prefix is the original multiset
minus one occurrence of the removed value: the copy of the last element
written over the removed slot never survives as a duplicate. -/
theorem claim_C7 (index : Nat) (a : List Nat) (count : Nat)
    (hc0 : 0 < count) (hb : count ≤ 2 ^ 62) (hlen : count ≤ a.length)
    (hidx : index < count) (hinv : IsMMHeap a count) :
    ∃ a2, heap_remove_at_index index a count =
        .ok (idx a index, a2, count - 1) ∧ IsMMHeap a2 (count - 1) ∧
      (a2.take (count - 1)).Perm ((a.take count).eraseIdx index) := by
  obtain ⟨old, a2, c2, hok⟩ := heap_remove_total index a count (by omega)
    (by omega)
  obtain ⟨h1, h2, h3⟩ := heap_remove_at_index_perm index a count hc0 hb
    hlen hidx hinv old a2 c2 hok
  obtain ⟨h4, h5, h6⟩ := heap_remove_at_index_correct index a count hc0 hb
    hlen hidx hinv old a2 c2 hok
  subst h1 h2
  exact ⟨a2, hok, h6, h3⟩

theorem claim_C7_witness :
    ∃ a2, heap_remove_at_index 1 [1, 5, 3] 3 =
        .ok (idx [1, 5, 3] 1, a2, 2) ∧ IsMMHeap a2 2 ∧
      (a2.take 2).Perm (([1, 5, 3].take 3).eraseIdx 1) :=
  claim_C7 1 [1, 5, 3] 3 (by decide) (by decide) (by decide) (by decide)
    mmheap_example

/-- C8 — `min_level i` is `true` exactly when `i = 0` or
`floor(log2(i+1))` is even, and the bit-trick `log_2` computes
`floor(log2 n)` exactly for every `n ≥ 1` below `2 ^ 64`. -/
theorem claim_C8 (i n : Nat) (hi : i + 1 < 2 ^ 64) (hn1 : 0 < n)
    (hn2 : n < 2 ^ 64) :
    (min_level i = true ↔ (i = 0 ∨ Nat.log2 (i + 1) % 2 = 0)) ∧
    log_2 n = Nat.log2 n := by
  refine ⟨?_, log_2_eq n hn1 hn2⟩
  rw [min_level_eq i hi, beq_iff_eq]
  constructor
  · intro h
    exact Or.inr h
  · intro h
    rcases h with e | e
    · subst e
      rw [Nat.log2]
      norm_num
    · exact e

theorem claim_C8_witness :
    (min_level 5 = true ↔ (5 = 0 ∨ Nat.log2 (5 + 1) % 2 = 0)) ∧
    log_2 8 = Nat.log2 8 :=
  claim_C8 5 8 (by decide) (by decide) (by decide)

/-- C9 (counterexample) — the extremal lookups examine the LEFT child
first, not the right: with two equal in-range children the code keeps
the left child's index `1`, whereas the claimed right-before-left scan
order with keep-the-earlier ties would return the right child's
index `2`. -/
theorem claim_C9_counterexample :
    left 0 = 1 ∧ right 0 = 2 ∧ idx [0, 5, 5] 1 = idx [0, 5, 5] 2 ∧
    min_child [0, 5, 5] 0 2 = (true, 1) ∧
    max_child [0, 5, 5] 0 2 = (true, 1) := by
  decide

/-- C9 (amended) — the lookups use only strict `<` comparisons in a
left-before-right scan order, and equal-valued candidates keep the
earlier-examined one: with two equal in-range children both `min_child`
and `max_child` return the left child. -/
theorem claim_C9_amended (a : List Nat) (i r : Nat) (hr : right i ≤ r)
    (heq : idx a (left i) = idx a (right i)) :
    min_child a i r = (true, left i) ∧ max_child a i r = (true, left i) := by
  have hl : left i ≤ r := by
    simp only [left, right] at hr ⊢
    omega
  constructor
  · rw [min_child, if_pos hl]
    simp only []
    have hc : ¬ (right i ≤ r ∧ idx a (right i) < idx a (left i)) := by
      intro hc
      rw [heq] at hc
      exact absurd hc.2 (lt_irrefl _)
    rw [if_neg hc]
  · rw [max_child, if_pos hl]
    simp only []
    have hc : ¬ (right i ≤ r ∧ idx a (left i) < idx a (right i)) := by
      intro hc
      rw [heq] at hc
      exact absurd hc.2 (lt_irrefl _)
    rw [if_neg hc]

theorem claim_C9_amended_witness :
    min_child [0, 5, 5] 0 2 = (true, left 0) ∧
    max_child [0, 5, 5] 0 2 = (true, left 0) :=
  claim_C9_amended [0, 5, 5] 0 2 (by decide) (by decide)

/-- C10 — Termination: every repair loop runs to completion within an
explicit iteration budget — the sift loops within `r + 1 - sift_index`
iterations (the sift index strictly descends toward the leaves), the
bubble loops within `bubble_index + 1` iterations (the bubble index
strictly ascends toward the root), and the `make_heap` and `is_heap`
loops within `current + 1` resp. `i + 1` iterations — and the budgeted
runs agree with the total functions. -/
theorem claim_C10 (fuel : Nat) (a : List Nat)
    (s r b size current count i : Nat) :
    (r + 1 - s < fuel →
      sift_down_min_fuel fuel a s r = some (sift_down_min a s r) ∧
      sift_down_max_fuel fuel a s r = some (sift_down_max a s r)) ∧
    (b < fuel →
      bubble_up_min_fuel fuel a b = some (bubble_up_min a b) ∧
      bubble_up_max_fuel fuel a b = some (bubble_up_max a b)) ∧
    (current < fuel →
      make_heap_loop_fuel fuel a size current =
        some (make_heap_loop a size current)) ∧
    (i < fuel →
      is_heap_loop_fuel fuel a count i = some (is_heap_loop a count i)) :=
  ⟨fun h => ⟨sift_down_min_fuel_ok fuel a s r h,
      sift_down_max_fuel_ok fuel a s r h⟩,
    fun h => ⟨bubble_up_min_fuel_ok fuel a b h,
      bubble_up_max_fuel_ok fuel a b h⟩,
    fun h => make_heap_loop_fuel_ok fuel a size current h,
    fun h => is_heap_loop_fuel_ok fuel a count i h⟩

theorem claim_C10_witness :
    sift_down_min_fuel 5 [3, 1, 2] 0 2 = some (sift_down_min [3, 1, 2] 0 2) ∧
    bubble_up_max_fuel 5 [3, 1, 2] 2 = some (bubble_up_max [3, 1, 2] 2) ∧
    make_heap_loop_fuel 5 [3, 1, 2] 3 1 =
      some (make_heap_loop [3, 1, 2] 3 1) ∧
    is_heap_loop_fuel 5 [3, 1, 2] 3 2 = some (is_heap_loop [3, 1, 2] 3 2) :=
  ⟨((claim_C10 5 [3, 1, 2] 0 2 2 3 1 3 2).1 (by decide)).1,
    ((claim_C10 5 [3, 1, 2] 0 2 2 3 1 3 2).2.1 (by decide)).2,
    (claim_C10 5 [3, 1, 2] 0 2 2 3 1 3 2).2.2.1 (by decide),
    (claim_C10 5 [3, 1, 2] 0 2 2 3 1 3 2).2.2.2 (by decide)⟩

end mmheap
